import Mathlib

/-!
# The xv6 shell `user/sh.c`: tokenizer, parser and finalize step

A shallow embedding of the parsing half of `user/sh.c`.

* The line buffer is a `List Char`, one `Char` for each `char` of the buffer; a
  `char *` into it is a `Nat` offset and a null pointer is `none`.  Reading at
  or past the end of the list yields the terminating NUL.
* `panic` (which calls `exit`) is the error outcome `Err.panic msg`.
* The recursive-descent functions take a `fuel` argument that bounds the
  recursion; running out of it is the separate outcome `Err.fuel`.
-/

namespace Sh

/-! ## Constants -/

/-- The `MAXARGS` constant of `sh.c`. -/
def MAXARGS : Nat := 10

/-- The open-mode constants of `kernel/fcntl.h` used by the parser.  The header
is not part of the sources at hand, so the constants are a parameter. -/
structure Fcntl where
  O_RDONLY : Nat
  O_WRONLY : Nat
  O_CREATE : Nat
  O_TRUNC : Nat
  deriving DecidableEq, Repr

/-- The values of the stock xv6 `kernel/fcntl.h`, used for concrete runs. -/
def xv6Fcntl : Fcntl := ⟨0x000, 0x001, 0x200, 0x400⟩

/-- The NUL character. -/
def NUL : Char := Char.ofNat 0

/-- The C array `whitespace[] = " \t\r\n\v"`. -/
def whitespace : List Char := [' ', '\t', '\r', '\n', Char.ofNat 11]

/-- The C array `symbols[] = "<|>&;()"`. -/
def symbols : List Char := ['<', '|', '>', '&', ';', '(', ')']

/-- The `strchr` of xv6 `ulib.c` used as a truth value: is `c` one of the
characters of `str` before its terminator. -/
def strchr (str : List Char) (c : Char) : Bool := str.contains c

/-- The read `*p` of the buffer: the character at offset `p`, NUL at the end. -/
def deref (buf : List Char) (p : Nat) : Char := buf.getD p NUL

/-- The `strlen` of the buffer: the offset of the first NUL. -/
def strlen (buf : List Char) : Nat := (buf.takeWhile (fun c => c != NUL)).length

/-! ## Command trees -/

/-- The five node kinds.  `execcmd` holds the two arrays `argv` and `eargv` of
`MAXARGS` pointers each; `redircmd` holds `cmd, file, efile, mode, fd`. -/
inductive cmd where
  | execcmd (argv eargv : List (Option Nat))
  | redircmd (cmd : cmd) (file efile : Nat) (mode fd : Nat)
  | pipecmd (left right : cmd)
  | listcmd (left right : cmd)
  | backcmd (cmd : cmd)
  deriving DecidableEq, Repr

/-- Outcomes other than a normal return: a call of `panic`, a store through a
null pointer or past an array, and the model running out of fuel. -/
inductive Err where
  | panic (msg : String)
  | fault
  | fuel
  deriving DecidableEq, Repr

/-- The constructor `execcmd()`: a zeroed node. -/
def execcmd : cmd := cmd.execcmd (List.replicate MAXARGS none) (List.replicate MAXARGS none)

/-! ## Tokenizer -/

/-- The loop `while(s < es && strchr(whitespace, *s)) s++;` with `n` iterations
allowed. -/
def skipwsLoop (buf : List Char) (es : Nat) : Nat → Nat → Nat
  | 0, s => s
  | n + 1, s =>
    if s < es && strchr whitespace (deref buf s) then skipwsLoop buf es n (s + 1) else s

/-- The whitespace-skipping loop; it runs at most `es - s` times. -/
def skipws (buf : List Char) (es s : Nat) : Nat := skipwsLoop buf es (es - s) s

/-- The loop `while(s < es && !strchr(whitespace, *s) && !strchr(symbols, *s)) s++;`
with `n` iterations allowed. -/
def scanwordLoop (buf : List Char) (es : Nat) : Nat → Nat → Nat
  | 0, s => s
  | n + 1, s =>
    if s < es && !strchr whitespace (deref buf s) && !strchr symbols (deref buf s) then
      scanwordLoop buf es n (s + 1)
    else s

/-- The word-scanning loop; it runs at most `es - s` times. -/
def scanword (buf : List Char) (es s : Nat) : Nat := scanwordLoop buf es (es - s) s

/-- What `gettoken` hands back: the return value, `*q`, `*eq` and the new `*ps`. -/
structure Token where
  ret : Char
  q : Nat
  eq : Nat
  s : Nat
  deriving DecidableEq, Repr

/-- The function `gettoken(ps, es, q, eq)`.  The token type is returned as a
character: NUL for 0, the operator itself, `+` for `>>`, `a` for a word. -/
def gettoken (buf : List Char) (es s : Nat) : Token :=
  let s1 := skipws buf es s
  let c := deref buf s1
  if c = NUL then
    ⟨c, s1, s1, skipws buf es s1⟩
  else if c = '|' ∨ c = '(' ∨ c = ')' ∨ c = ';' ∨ c = '&' ∨ c = '<' then
    ⟨c, s1, s1 + 1, skipws buf es (s1 + 1)⟩
  else if c = '>' then
    if deref buf (s1 + 1) = '>' then
      ⟨'+', s1, s1 + 2, skipws buf es (s1 + 2)⟩
    else
      ⟨c, s1, s1 + 1, skipws buf es (s1 + 1)⟩
  else
    let s2 := scanword buf es s1
    ⟨'a', s1, s2, skipws buf es s2⟩

/-- The function `peek(ps, es, toks)`: the new `*ps` and the truth value
`*s && strchr(toks, *s)`. -/
def peek (buf : List Char) (es s : Nat) (toks : List Char) : Nat × Bool :=
  let s1 := skipws buf es s
  (s1, deref buf s1 != NUL && strchr toks (deref buf s1))

/-! ## Parser -/

/-- The stores `cmd->argv[i] = q; cmd->eargv[i] = eq;` of `parseexec`, made
through the pointer `cmd` to the exec node that lies under the redirection
nodes of `ret` (in `parseexec` the tree `ret` is never of another shape). -/
def setargv : cmd → Nat → Option Nat → Option Nat → cmd
  | .execcmd argv eargv, i, q, eq => .execcmd (argv.set i q) (eargv.set i eq)
  | .redircmd c file efile mode fd, i, q, eq => .redircmd (setargv c i q eq) file efile mode fd
  | c, _, _, _ => c

/-- The function `parseredirs(cmd, ps, es)`; the last branch is the `switch`
with no matching case. -/
def parseredirs (F : Fcntl) (buf : List Char) (es : Nat) :
    Nat → cmd → Nat → Except Err (cmd × Nat)
  | 0, _, _ => .error .fuel
  | fuel + 1, c, s =>
    let p := peek buf es s ['<', '>']
    if p.2 then
      let tok := gettoken buf es p.1
      let t := gettoken buf es tok.s
      if t.ret ≠ 'a' then .error (.panic "missing file for redirection")
      else if tok.ret = '<' then
        parseredirs F buf es fuel (.redircmd c t.q t.eq F.O_RDONLY 0) t.s
      else if tok.ret = '>' then
        parseredirs F buf es fuel
          (.redircmd c t.q t.eq (F.O_WRONLY ||| F.O_CREATE ||| F.O_TRUNC) 1) t.s
      else if tok.ret = '+' then
        parseredirs F buf es fuel (.redircmd c t.q t.eq (F.O_WRONLY ||| F.O_CREATE) 1) t.s
      else parseredirs F buf es fuel c t.s
    else .ok (c, p.1)

/-- The argument loop of `parseexec` with the two stores that follow it; the
state is `ret`, `argc` and `*ps`. -/
def parseargs (F : Fcntl) (buf : List Char) (es : Nat) :
    Nat → cmd → Nat → Nat → Except Err (cmd × Nat)
  | 0, _, _, _ => .error .fuel
  | fuel + 1, ret, argc, s =>
    let p := peek buf es s ['|', ')', '&', ';']
    if p.2 then .ok (setargv ret argc none none, p.1)
    else
      let t := gettoken buf es p.1
      if t.ret = NUL then .ok (setargv ret argc none none, t.s)
      else if t.ret ≠ 'a' then .error (.panic "syntax")
      else
        let ret1 := setargv ret argc (some t.q) (some t.eq)
        if argc + 1 ≥ MAXARGS then .error (.panic "too many args")
        else
          match parseredirs F buf es fuel ret1 t.s with
          | .error e => .error e
          | .ok (ret2, s1) => parseargs F buf es fuel ret2 (argc + 1) s1

/-- The loop `while(peek(ps, es, "&"))` of `parseline`. -/
def parseback (buf : List Char) (es : Nat) : Nat → cmd → Nat → Except Err (cmd × Nat)
  | 0, _, _ => .error .fuel
  | fuel + 1, c, s =>
    let p := peek buf es s ['&']
    if p.2 then parseback buf es fuel (.backcmd c) (gettoken buf es p.1).s
    else .ok (c, p.1)

mutual

/-- The function `parseline(ps, es)`. -/
def parseline (F : Fcntl) (buf : List Char) (es : Nat) : Nat → Nat → Except Err (cmd × Nat)
  | 0, _ => .error .fuel
  | fuel + 1, s =>
    match parsepipe F buf es fuel s with
    | .error e => .error e
    | .ok (c, s1) =>
      match parseback buf es fuel c s1 with
      | .error e => .error e
      | .ok (c1, s2) =>
        let p := peek buf es s2 [';']
        if p.2 then
          match parseline F buf es fuel (gettoken buf es p.1).s with
          | .error e => .error e
          | .ok (r, s3) => .ok (.listcmd c1 r, s3)
        else .ok (c1, p.1)

/-- The function `parsepipe(ps, es)`. -/
def parsepipe (F : Fcntl) (buf : List Char) (es : Nat) : Nat → Nat → Except Err (cmd × Nat)
  | 0, _ => .error .fuel
  | fuel + 1, s =>
    match parseexec F buf es fuel s with
    | .error e => .error e
    | .ok (c, s1) =>
      let p := peek buf es s1 ['|']
      if p.2 then
        match parsepipe F buf es fuel (gettoken buf es p.1).s with
        | .error e => .error e
        | .ok (r, s2) => .ok (.pipecmd c r, s2)
      else .ok (c, p.1)

/-- The function `parseblock(ps, es)`. -/
def parseblock (F : Fcntl) (buf : List Char) (es : Nat) : Nat → Nat → Except Err (cmd × Nat)
  | 0, _ => .error .fuel
  | fuel + 1, s =>
    let p := peek buf es s ['(']
    if !p.2 then .error (.panic "parseblock")
    else
      match parseline F buf es fuel (gettoken buf es p.1).s with
      | .error e => .error e
      | .ok (c, s1) =>
        let p1 := peek buf es s1 [')']
        if !p1.2 then .error (.panic "syntax - missing )")
        else parseredirs F buf es fuel c (gettoken buf es p1.1).s

/-- The function `parseexec(ps, es)`. -/
def parseexec (F : Fcntl) (buf : List Char) (es : Nat) : Nat → Nat → Except Err (cmd × Nat)
  | 0, _ => .error .fuel
  | fuel + 1, s =>
    let p := peek buf es s ['(']
    if p.2 then parseblock F buf es fuel p.1
    else
      match parseredirs F buf es fuel execcmd p.1 with
      | .error e => .error e
      | .ok (ret, s1) => parseargs F buf es fuel ret 0 s1

end

/-! ## Finalize step -/

/-- The loop `for(i=0; ecmd->argv[i]; i++) *ecmd->eargv[i] = 0;` over the two
arrays.  A store through a null `eargv[i]` and a read past the end of `argv`
are faults. -/
def nulargv : List (Option Nat) → List (Option Nat) → List Char → Except Err (List Char)
  | none :: _, _, buf => .ok buf
  | some _ :: argv, some e :: eargv, buf => nulargv argv eargv (buf.set e NUL)
  | _, _, _ => .error .fault

/-- The function `nulterminate(cmd)`, as the buffer it leaves behind. -/
def nulterminate : cmd → List Char → Except Err (List Char)
  | .execcmd argv eargv, buf => nulargv argv eargv buf
  | .redircmd c _ efile _ _, buf =>
    match nulterminate c buf with
    | .error e => .error e
    | .ok buf1 => .ok (buf1.set efile NUL)
  | .pipecmd l r, buf =>
    match nulterminate l buf with
    | .error e => .error e
    | .ok buf1 => nulterminate r buf1
  | .listcmd l r, buf =>
    match nulterminate l buf with
    | .error e => .error e
    | .ok buf1 => nulterminate r buf1
  | .backcmd c, buf => nulterminate c buf

/-- The function `parsecmd(s)`: the tree it returns and the buffer as it
leaves it.  The fuel `4 * es + 4` allows four nested calls for each character
of the line: every cycle through `parseline`, `parsepipe`, `parseexec` and
`parseblock` consumes a character. -/
def parsecmd (F : Fcntl) (s : List Char) : Except Err (cmd × List Char) :=
  let es := strlen s
  match parseline F s es (4 * es + 4) 0 with
  | .error e => .error e
  | .ok (c, s1) =>
    if (peek s es s1 []).1 ≠ es then .error (.panic "syntax")
    else
      match nulterminate c s with
      | .error e => .error e
      | .ok buf => .ok (c, buf)

/-! ## Trees as the executor reads them -/

/-- A command tree whose strings are read out of the buffer. -/
inductive Cmd where
  | Exec (argv : List (List Char))
  | Redirect (inner : Cmd) (path : List Char) (mode : Nat) (fd : Nat)
  | Pipe (left right : Cmd)
  | Sequence (left right : Cmd)
  | Background (inner : Cmd)
  deriving DecidableEq, Repr

/-- The C string that starts at offset `p`: the characters up to the first NUL. -/
def cstr (buf : List Char) (p : Nat) : List Char :=
  (buf.drop p).takeWhile (fun c => c != NUL)

/-- The strings of `argv[0], argv[1], ...` up to the first null entry. -/
def argstrs (buf : List Char) : List (Option Nat) → List (List Char)
  | some q :: argv => cstr buf q :: argstrs buf argv
  | _ => []

/-- The tree `c` with every pointer replaced by the string it points to. -/
def view (buf : List Char) : cmd → Cmd
  | .execcmd argv _ => .Exec (argstrs buf argv)
  | .redircmd c file _ mode fd => .Redirect (view buf c) (cstr buf file) mode fd
  | .pipecmd l r => .Pipe (view buf l) (view buf r)
  | .listcmd l r => .Sequence (view buf l) (view buf r)
  | .backcmd c => .Background (view buf c)

/-- The result of `parsecmd` as the executor reads it. -/
def parsecmdView (F : Fcntl) (s : List Char) : Except Err Cmd :=
  match parsecmd F s with
  | .error e => .error e
  | .ok (c, buf) => .ok (view buf c)

/-! ## Character classes -/

/-- Every character of the run is a whitespace character. -/
def allws (ws : List Char) : Prop := ∀ c ∈ ws, strchr whitespace c = true

instance (ws : List Char) : Decidable (allws ws) := by unfold allws; infer_instance

/-- A character a word can hold: not NUL, not whitespace, not an operator. -/
def wordchar (c : Char) : Prop :=
  c ≠ NUL ∧ strchr whitespace c = false ∧ strchr symbols c = false

instance (c : Char) : Decidable (wordchar c) := by unfold wordchar; infer_instance

/-- A word: non-empty and made of word characters. -/
def isword (w : List Char) : Prop := w ≠ [] ∧ ∀ c ∈ w, wordchar c

instance (w : List Char) : Decidable (isword w) := by unfold isword; infer_instance

/-- The next character, if any, is not whitespace. -/
def nows : List Char → Prop
  | [] => True
  | c :: _ => strchr whitespace c = false

/-- The next character, if any, is whitespace or an operator: a word ends here. -/
def wordend : List Char → Prop
  | [] => True
  | c :: _ => strchr whitespace c = true ∨ strchr symbols c = true

instance (l : List Char) : Decidable (wordend l) := by
  cases l <;> unfold wordend <;> infer_instance

/-- The next character, if any, is one of `set`. -/
def follow (set : List Char) : List Char → Prop
  | [] => True
  | c :: _ => c ∈ set

/-! ## Lines written out from their structure

The grammar of the shell,

    line     := pipeline ('&')* (';' line)?
    pipeline := exec ('|' pipeline)?
    exec     := '(' line ')' redirs  |  redirs (word redirs)*
    redirs   := ('<' word | '>' word | '>>' word)*

as a type of lines with their layout: every token carries the whitespace that
follows it. -/

/-- The three redirection operators `<`, `>` and `>>`. -/
inductive RedirOp where
  | rd
  | wr
  | app
  deriving DecidableEq, Repr

/-- A redirection: operator, whitespace, file word, whitespace. -/
structure RedirSrc where
  op : RedirOp
  ws1 : List Char
  file : List Char
  ws2 : List Char
  deriving DecidableEq, Repr

/-- An argument word with the whitespace and the redirections that follow it. -/
structure ArgSrc where
  word : List Char
  ws : List Char
  redirs : List RedirSrc
  deriving DecidableEq, Repr

/-- A line with its layout. -/
inductive Src where
  | simple (pre : List RedirSrc) (args : List ArgSrc)
  | block (ws1 : List Char) (body : Src) (ws2 : List Char) (redirs : List RedirSrc)
  | pipe (l : Src) (ws : List Char) (r : Src)
  | back (c : Src) (amps : List (List Char))
  | seq (l : Src) (ws : List Char) (r : Src)
  deriving Repr

/-- The characters of the operator. -/
def RedirOp.text : RedirOp → List Char
  | .rd => ['<']
  | .wr => ['>']
  | .app => ['>', '>']

/-- The mode `parseredirs` stores for the operator. -/
def RedirOp.mode (F : Fcntl) : RedirOp → Nat
  | .rd => F.O_RDONLY
  | .wr => F.O_WRONLY ||| F.O_CREATE ||| F.O_TRUNC
  | .app => F.O_WRONLY ||| F.O_CREATE

/-- The descriptor `parseredirs` stores for the operator. -/
def RedirOp.fd : RedirOp → Nat
  | .rd => 0
  | .wr => 1
  | .app => 1

/-- The characters of a redirection. -/
def RedirSrc.render (r : RedirSrc) : List Char := r.op.text ++ (r.ws1 ++ (r.file ++ r.ws2))

/-- The characters of a run of redirections. -/
def renderRedirs : List RedirSrc → List Char
  | [] => []
  | r :: rs => r.render ++ renderRedirs rs

/-- The characters of an argument and what belongs to it. -/
def ArgSrc.render (a : ArgSrc) : List Char := a.word ++ (a.ws ++ renderRedirs a.redirs)

/-- The characters of a run of arguments. -/
def renderArgs : List ArgSrc → List Char
  | [] => []
  | a :: as => a.render ++ renderArgs as

/-- The characters of a run of `&` tokens. -/
def renderAmps : List (List Char) → List Char
  | [] => []
  | ws :: amps => '&' :: (ws ++ renderAmps amps)

/-- The characters of a line. -/
def Src.render : Src → List Char
  | .simple pre args => renderRedirs pre ++ renderArgs args
  | .block ws1 body ws2 redirs =>
    '(' :: (ws1 ++ (body.render ++ (')' :: (ws2 ++ renderRedirs redirs))))
  | .pipe l ws r => l.render ++ ('|' :: (ws ++ r.render))
  | .back c amps => c.render ++ renderAmps amps
  | .seq l ws r => l.render ++ (';' :: (ws ++ r.render))

/-- The grammar level of a line: 0 an exec, 1 a pipeline, 2 a pipeline with
`&` tokens, 3 a line with `;`. -/
def Src.level : Src → Nat
  | .simple _ _ => 0
  | .block _ _ _ _ => 0
  | .pipe _ _ _ => 1
  | .back _ _ => 2
  | .seq _ _ _ => 3

/-- Well-formed redirections followed by `next`: the layout is whitespace, the
file is a word, and the file word ends where the layout says. -/
def RedirsOK : List RedirSrc → List Char → Prop
  | [], _ => True
  | r :: rs, next =>
    allws r.ws1 ∧ isword r.file ∧ allws r.ws2 ∧ wordend (r.ws2 ++ (renderRedirs rs ++ next)) ∧
      RedirsOK rs next

/-- Well-formed arguments followed by `next`. -/
def ArgsOK : List ArgSrc → List Char → Prop
  | [], _ => True
  | a :: as, next =>
    isword a.word ∧ allws a.ws ∧
      wordend (a.ws ++ (renderRedirs a.redirs ++ (renderArgs as ++ next))) ∧
      RedirsOK a.redirs (renderArgs as ++ next) ∧ ArgsOK as next

/-- A line generated by the grammar and followed by `next`. -/
def Src.wf : Src → List Char → Prop
  | .simple pre args, next => RedirsOK pre (renderArgs args ++ next) ∧ ArgsOK args next
  | .block ws1 body ws2 redirs, next =>
    allws ws1 ∧ allws ws2 ∧ body.wf (')' :: (ws2 ++ (renderRedirs redirs ++ next))) ∧
      RedirsOK redirs next
  | .pipe l ws r, next =>
    l.level = 0 ∧ r.level ≤ 1 ∧ allws ws ∧ l.wf ('|' :: (ws ++ (r.render ++ next))) ∧ r.wf next
  | .back c amps, next =>
    c.level ≤ 1 ∧ (∀ ws ∈ amps, allws ws) ∧ c.wf (renderAmps amps ++ next)
  | .seq l ws r, next =>
    l.level ≤ 2 ∧ allws ws ∧ l.wf (';' :: (ws ++ (r.render ++ next))) ∧ r.wf next

/-- The redirections of a run of arguments, in textual order. -/
def argRedirs : List ArgSrc → List RedirSrc
  | [] => []
  | a :: as => a.redirs ++ argRedirs as

/-- The tree `c` under the redirections `rs`, the last one outermost. -/
def wrapRedirs (F : Fcntl) : Cmd → List RedirSrc → Cmd
  | c, [] => c
  | c, r :: rs => wrapRedirs F (.Redirect c r.file (r.op.mode F) r.op.fd) rs

/-- The tree `c` under one `Background` node for each `&` token. -/
def wrapBack : Cmd → List (List Char) → Cmd
  | c, [] => c
  | c, _ :: amps => wrapBack (.Background c) amps

/-- The tree the grammar assigns to a line, or the parse error of an exec
with `MAXARGS` words or more. -/
def Src.ast (F : Fcntl) : Src → Except Err Cmd
  | .simple pre args =>
    if args.length < MAXARGS then
      .ok (wrapRedirs F (.Exec (args.map ArgSrc.word)) (pre ++ argRedirs args))
    else .error (.panic "too many args")
  | .block _ body _ redirs =>
    match body.ast F with
    | .error e => .error e
    | .ok c => .ok (wrapRedirs F c redirs)
  | .pipe l _ r =>
    match l.ast F with
    | .error e => .error e
    | .ok a =>
      match r.ast F with
      | .error e => .error e
      | .ok b => .ok (.Pipe a b)
  | .back c amps =>
    match c.ast F with
    | .error e => .error e
    | .ok a => .ok (wrapBack a amps)
  | .seq l _ r =>
    match l.ast F with
    | .error e => .error e
    | .ok a =>
      match r.ast F with
      | .error e => .error e
      | .ok b => .ok (.Sequence a b)

/-- The next character, if any, is not a redirection operator. -/
def noredir : List Char → Prop
  | [] => True
  | c :: _ => c ≠ '<' ∧ c ≠ '>'

/-- The token type `gettoken` returns for the operator. -/
def RedirOp.tok : RedirOp → Char
  | .rd => '<'
  | .wr => '>'
  | .app => '+'

/-! ## Trees that stand for a tree of strings -/

/-- The pointers `q` and `eq` delimit the word `w` of the buffer, and at `eq`
the word is over. -/
def Span (buf : List Char) (q eq : Nat) (w : List Char) : Prop :=
  isword w ∧ eq = q + w.length ∧ ∃ rest, buf.drop q = w ++ rest ∧ wordend rest

/-- The first entries of `argv` and `eargv` delimit the words `ws`. -/
def ArgsPre (buf : List Char) : List (Option Nat) → List (Option Nat) → List (List Char) → Prop
  | argv, eargv, [] => argv.length = eargv.length
  | some q :: argv, some eq :: eargv, w :: ws => Span buf q eq w ∧ ArgsPre buf argv eargv ws
  | _, _, _ :: _ => False

/-- The arrays `argv` and `eargv` delimit the words `ws` and a null entry
follows them. -/
def ArgsRep (buf : List Char) : List (Option Nat) → List (Option Nat) → List (List Char) → Prop
  | none :: _, _, [] => True
  | some q :: argv, some eq :: eargv, w :: ws => Span buf q eq w ∧ ArgsRep buf argv eargv ws
  | _, _, _ => False

/-- The tree of pointers stands for the tree of strings. -/
inductive Rep (buf : List Char) : cmd → Cmd → Prop where
  | exec {argv eargv ws} : ArgsRep buf argv eargv ws → Rep buf (.execcmd argv eargv) (.Exec ws)
  | redir {c a q eq w mode fd} : Rep buf c a → Span buf q eq w →
      Rep buf (.redircmd c q eq mode fd) (.Redirect a w mode fd)
  | pipe {l r a b} : Rep buf l a → Rep buf r b → Rep buf (.pipecmd l r) (.Pipe a b)
  | list {l r a b} : Rep buf l a → Rep buf r b → Rep buf (.listcmd l r) (.Sequence a b)
  | back {c a} : Rep buf c a → Rep buf (.backcmd c) (.Background a)

/-- The tree `t` is `c` under redirection nodes for `rs`, the last outermost. -/
def Wraps (F : Fcntl) (buf : List Char) : cmd → cmd → List RedirSrc → Prop
  | c, t, [] => t = c
  | c, t, r :: rs =>
    ∃ q eq, Span buf q eq r.file ∧ Wraps F buf (.redircmd c q eq (r.op.mode F) r.op.fd) t rs

/-- The outcome `r` of a parsing function is the expected one: the tree of
`expected` with the cursor at `s`, or the same error. -/
def Agrees (buf : List Char) (r : Except Err (cmd × Nat)) (expected : Except Err Cmd)
    (s : Nat) : Prop :=
  match expected with
  | .ok a => ∃ t, r = .ok (t, s) ∧ Rep buf t a
  | .error e => r = .error e

/-- The first two statements of `parseline`: the pipeline and the `&` loop. -/
def parsefront (F : Fcntl) (buf : List Char) (es : Nat) (fuel s : Nat) : Except Err (cmd × Nat) :=
  match parsepipe F buf es fuel s with
  | .error e => .error e
  | .ok (c, s1) => parseback buf es fuel c s1

/-- The buffer `b` is `buf` with NUL stored over some characters that are not
word characters. -/
def Nulled (buf b : List Char) : Prop :=
  ∀ i, deref b i = deref buf i ∨ (deref b i = NUL ∧ ¬ wordchar (deref buf i))

/-- Every NUL of `b` is still a NUL in `b1`. -/
def KeepsNul (b b1 : List Char) : Prop := ∀ e, deref b e = NUL → deref b1 e = NUL

/-- Deciding `RedirsOK`. -/
def decRedirsOK : (rs : List RedirSrc) → (next : List Char) → Decidable (RedirsOK rs next)
  | [], _ => isTrue trivial
  | r :: rs, next =>
    have := decRedirsOK rs next
    by unfold RedirsOK; infer_instance

instance (rs : List RedirSrc) (next : List Char) : Decidable (RedirsOK rs next) :=
  decRedirsOK rs next

/-- Deciding `ArgsOK`. -/
def decArgsOK : (args : List ArgSrc) → (next : List Char) → Decidable (ArgsOK args next)
  | [], _ => isTrue trivial
  | a :: as, next =>
    have := decArgsOK as next
    by unfold ArgsOK; infer_instance

instance (args : List ArgSrc) (next : List Char) : Decidable (ArgsOK args next) :=
  decArgsOK args next

/-- Deciding `Src.wf`. -/
def decWf : (src : Src) → (next : List Char) → Decidable (src.wf next)
  | .simple _ _, _ => by unfold Src.wf; infer_instance
  | .block _ body ws2 redirs, next =>
    have := decWf body (')' :: (ws2 ++ (renderRedirs redirs ++ next)))
    by unfold Src.wf; infer_instance
  | .pipe l ws r, next =>
    have := decWf l ('|' :: (ws ++ (r.render ++ next)))
    have := decWf r next
    by unfold Src.wf; infer_instance
  | .back c amps, next =>
    have := decWf c (renderAmps amps ++ next)
    by unfold Src.wf; infer_instance
  | .seq l ws r, next =>
    have := decWf l (';' :: (ws ++ (r.render ++ next)))
    have := decWf r next
    by unfold Src.wf; infer_instance

instance (src : Src) (next : List Char) : Decidable (src.wf next) := decWf src next

deriving instance DecidableEq for Except

/-! ## Words with the whitespace after them -/

/-- The line made of the words, each followed by its whitespace. -/
def wordsLine : List (List Char × List Char) → List Char
  | [] => []
  | p :: rest => p.1 ++ (p.2 ++ wordsLine rest)

/-- Every word is a word, every gap is whitespace, and every gap between two
words is non-empty. -/
def Separated : List (List Char × List Char) → Prop
  | [] => True
  | [p] => isword p.1 ∧ allws p.2
  | p :: q :: rest => isword p.1 ∧ allws p.2 ∧ p.2 ≠ [] ∧ Separated (q :: rest)

/-- Deciding `Separated`. -/
def decSeparated : (ws : List (List Char × List Char)) → Decidable (Separated ws)
  | [] => isTrue trivial
  | [_] => by unfold Separated; infer_instance
  | _ :: q :: rest =>
    have := decSeparated (q :: rest)
    by unfold Separated; infer_instance

instance (ws : List (List Char × List Char)) : Decidable (Separated ws) := decSeparated ws

/-- The words as arguments; the redirections `rs` follow the last word. -/
def withRedirs : List (List Char × List Char) → List RedirSrc → List ArgSrc
  | [], _ => []
  | [p], rs => [⟨p.1, p.2, rs⟩]
  | p :: q :: rest, rs => ⟨p.1, p.2, []⟩ :: withRedirs (q :: rest) rs

/-- Some simple command of the line has more than `n` words. -/
def Src.long (n : Nat) : Src → Prop
  | .simple _ args => n < args.length
  | .block _ body _ _ => body.long n
  | .pipe l _ r => l.long n ∨ r.long n
  | .back c _ => c.long n
  | .seq l _ r => l.long n ∨ r.long n

/-- Deciding `Src.long`. -/
def decLong (n : Nat) : (src : Src) → Decidable (src.long n)
  | .simple _ _ => by unfold Src.long; infer_instance
  | .block _ body _ _ => have := decLong n body; by unfold Src.long; infer_instance
  | .pipe l _ r =>
    have := decLong n l
    have := decLong n r
    by unfold Src.long; infer_instance
  | .back c _ => have := decLong n c; by unfold Src.long; infer_instance
  | .seq l _ r =>
    have := decLong n l
    have := decLong n r
    by unfold Src.long; infer_instance

instance (n : Nat) (src : Src) : Decidable (src.long n) := decLong n src

/-- The number of `&` tokens of a line. -/
def Src.amps : Src → Nat
  | .simple _ _ => 0
  | .block _ body _ _ => body.amps
  | .pipe l _ r => l.amps + r.amps
  | .back c amps => c.amps + amps.length
  | .seq l _ r => l.amps + r.amps

/-- The number of `Background` nodes of a tree. -/
def Cmd.backs : Cmd → Nat
  | .Exec _ => 0
  | .Redirect c _ _ _ => c.backs
  | .Pipe l r => l.backs + r.backs
  | .Sequence l r => l.backs + r.backs
  | .Background c => c.backs + 1

/-- The tree has no `Background` node other than its root. -/
def Cmd.backRootOnly : Cmd → Prop
  | .Background c => c.backs = 0
  | c => c.backs = 0

instance (c : Cmd) : Decidable c.backRootOnly := by
  cases c <;> unfold Cmd.backRootOnly <;> infer_instance

/-- The spec's words "a mode that requests appending", read on the flags the
parser uses: the mode holds a flag besides `O_WRONLY`, `O_CREATE` and
`O_TRUNC`.  (The shell names no append flag.) -/
def requestsAppend (F : Fcntl) (mode : Nat) : Prop :=
  mode ||| (F.O_WRONLY ||| F.O_CREATE ||| F.O_TRUNC) ≠ F.O_WRONLY ||| F.O_CREATE ||| F.O_TRUNC

instance (F : Fcntl) (mode : Nat) : Decidable (requestsAppend F mode) := by
  unfold requestsAppend; infer_instance

/-! ## Where the `Background` nodes stand -/

/-- The tree of a simple command: an `Exec` node under `Redirect` nodes. -/
def Cmd.isSimple : Cmd → Prop
  | .Exec _ => True
  | .Redirect c _ _ _ => c.isSimple
  | _ => False

/-- The tree under `n` `Redirect` nodes at the root, if the root has them. -/
def Cmd.unredirect : Nat → Cmd → Option Cmd
  | 0, c => some c
  | n + 1, .Redirect c _ _ _ => c.unredirect n
  | _ + 1, _ => none

/-- The tree under `n` `Background` nodes at the root, if the root has them. -/
def Cmd.unback : Nat → Cmd → Option Cmd
  | 0, c => some c
  | n + 1, .Background c => c.unback n
  | _ + 1, _ => none

/-- The nodes of the tree stand where the tokens of the line stand: a simple
command is an `Exec` node under `Redirect` nodes; a block is the tree of its
body under one `Redirect` node for each redirection after the `)`; `l | r` is a
`Pipe` node over the trees of `l` and `r`; `l ; r` is a `Sequence` node over the
trees of `l` and `r`; and a pipeline followed by `&` tokens is the tree of the
pipeline under one `Background` node for each token.  There is no `Background`
node anywhere else. -/
def Src.placed : Src → Cmd → Prop
  | .simple _ _, a => a.isSimple
  | .block _ body _ redirs, a =>
    match a.unredirect redirs.length with
    | some b => body.placed b
    | none => False
  | .pipe l _ r, a =>
    match a with
    | .Pipe x y => l.placed x ∧ r.placed y
    | _ => False
  | .back c amps, a =>
    match a.unback amps.length with
    | some b => c.placed b
    | none => False
  | .seq l _ r, a =>
    match a with
    | .Sequence x y => l.placed x ∧ r.placed y
    | _ => False

def decIsSimple : (c : Cmd) → Decidable c.isSimple
  | .Exec _ => isTrue trivial
  | .Redirect c _ _ _ => decIsSimple c
  | .Pipe _ _ => isFalse (fun h => h)
  | .Sequence _ _ => isFalse (fun h => h)
  | .Background _ => isFalse (fun h => h)

instance (c : Cmd) : Decidable c.isSimple := decIsSimple c

def decPlaced : (src : Src) → (a : Cmd) → Decidable (src.placed a)
  | .simple _ _, a => by unfold Src.placed; infer_instance
  | .block _ body _ redirs, a => by
    unfold Src.placed
    cases a.unredirect redirs.length with
    | none => exact isFalse (fun h => h)
    | some b => exact decPlaced body b
  | .pipe l _ r, a => by
    unfold Src.placed
    cases a with
    | Pipe x y =>
      exact match decPlaced l x, decPlaced r y with
        | isTrue h1, isTrue h2 => isTrue ⟨h1, h2⟩
        | isFalse h1, _ => isFalse (fun h => h1 h.1)
        | _, isFalse h2 => isFalse (fun h => h2 h.2)
    | Exec _ => exact isFalse (fun h => h)
    | Redirect _ _ _ _ => exact isFalse (fun h => h)
    | Sequence _ _ => exact isFalse (fun h => h)
    | Background _ => exact isFalse (fun h => h)
  | .back c amps, a => by
    unfold Src.placed
    cases a.unback amps.length with
    | none => exact isFalse (fun h => h)
    | some b => exact decPlaced c b
  | .seq l _ r, a => by
    unfold Src.placed
    cases a with
    | Sequence x y =>
      exact match decPlaced l x, decPlaced r y with
        | isTrue h1, isTrue h2 => isTrue ⟨h1, h2⟩
        | isFalse h1, _ => isFalse (fun h => h1 h.1)
        | _, isFalse h2 => isFalse (fun h => h2 h.2)
    | Exec _ => exact isFalse (fun h => h)
    | Redirect _ _ _ _ => exact isFalse (fun h => h)
    | Pipe _ _ => exact isFalse (fun h => h)
    | Background _ => exact isFalse (fun h => h)

instance (src : Src) (a : Cmd) : Decidable (src.placed a) := decPlaced src a

/-! ## Job table -/

/-- The globals `jobs[NPROC]` and `njobs`.  The constant `NPROC` of
`kernel/param.h` is the length of the array `jobs`. -/
structure JobTable where
  jobs : List Int
  njobs : Nat
  deriving DecidableEq, Repr

/-- The table when the shell starts: the array zeroed, `njobs = 0`. -/
def emptyTable (NPROC : Nat) : JobTable := ⟨List.replicate NPROC 0, 0⟩

/-- The entries in use, `jobs[0..njobs)`. -/
def JobTable.entries (t : JobTable) : List Int := t.jobs.take t.njobs

/-- The inner loop `for(j = i; j < njobs - 1; j++) jobs[j] = jobs[j + 1];` of
`remove_job` with `n` iterations allowed. -/
def shiftLoop (njobs : Nat) : Nat → Nat → List Int → List Int
  | 0, _, jobs => jobs
  | n + 1, j, jobs =>
    if j < njobs - 1 then shiftLoop njobs n (j + 1) (jobs.set j (jobs.getD (j + 1) 0))
    else jobs

/-- The outer loop `for(i = 0; i < njobs; i++)` of `remove_job` with `n`
iterations allowed. -/
def removeLoop (pid : Int) : Nat → Nat → JobTable → JobTable
  | 0, _, t => t
  | n + 1, i, t =>
    if i < t.njobs then
      if t.jobs.getD i 0 = pid then ⟨shiftLoop t.njobs (t.njobs - i) i t.jobs, t.njobs - 1⟩
      else removeLoop pid n (i + 1) t
    else t

/-- The function `remove_job(pid)`; its loop runs at most `njobs` times. -/
def remove_job (pid : Int) (t : JobTable) : JobTable := removeLoop pid t.njobs 0 t

/-- The function `add_job(pid)`. -/
def add_job (NPROC : Nat) (pid : Int) (t : JobTable) : JobTable :=
  if t.njobs < NPROC then ⟨t.jobs.set t.njobs pid, t.njobs + 1⟩ else t

/-- A call of `add_job` or of `remove_job`. -/
inductive JobOp where
  | add (pid : Int)
  | remove (pid : Int)
  deriving DecidableEq, Repr

/-- The table after a sequence of calls. -/
def runOps (NPROC : Nat) : List JobOp → JobTable → JobTable
  | [], t => t
  | .add pid :: ops, t => runOps NPROC ops (add_job NPROC pid t)
  | .remove pid :: ops, t => runOps NPROC ops (remove_job pid t)

/-! ## Executor

`runcmd` never returns: it ends in `exit` or in an `exec` that replaces the
process.  Its model is the list of the system calls one process makes.  The
values the system hands back to this process are read from `w`, the `n`-th
value at the `n`-th call whose result the code looks at: the pid of `fork`
(0 in the child), the result and the two descriptors of `pipe`, the result of
`open`, and for `exec` a negative value when the call returns. -/

/-- A system call of the process, with the value handed back where the code
reads one. -/
inductive Event where
  | fork (pid : Int)
  | pipe (ret p0 p1 : Int)
  | close (fd : Int)
  | dup (fd : Int)
  | open (path : List Char) (mode : Nat) (ret : Int)
  | exec (path : List Char) (argv : List (List Char)) (ret : Int)
  | wait
  | fprintf (fd : Int) (text : List Char)
  | exit (status : Int)
  | fault
  deriving DecidableEq, Repr

/-- The function `panic(s)`: `fprintf(2, "%s\n", s); exit(1);`. -/
def panicEvents (s : String) : List Event := [.fprintf 2 (s.toList ++ ['\n']), .exit 1]

/-- The call `exec(path, ecmd->argv)` and the two statements after it. -/
def execEvents (path : List Char) (argv : List (List Char)) (a0 : List Char) (ret : Int) :
    List Event :=
  .exec path argv ret ::
    (if ret < 0 then [.fprintf 2 ("exec ".toList ++ a0 ++ " failed\n".toList), .exit 0] else [])

/-- The function `runcmd(cmd)` on the tree as the process reads it.  The copy
`strcpy(fullpath + 1, path)` into `char fullpath[512]` is a fault when the name
with its terminator does not fit. -/
def runcmd : Cmd → (Nat → Int) → Nat → List Event
  | .Exec [], _, _ => [.exit 1]
  | .Exec (a0 :: rest), w, n =>
    if a0.headD NUL ≠ '/' then
      if a0.length + 2 ≤ 512 then execEvents ('/' :: a0) (a0 :: rest) a0 (w n)
      else [.fault]
    else execEvents a0 (a0 :: rest) a0 (w n)
  | .Redirect c path mode fd, w, n =>
    .close fd :: .open path mode (w n) ::
      (if w n < 0 then [.fprintf 2 ("open ".toList ++ path ++ " failed\n".toList), .exit 1]
       else runcmd c w (n + 1))
  | .Sequence l r, w, n =>
    .fork (w n) ::
      (if w n = -1 then panicEvents "fork"
       else if w n = 0 then runcmd l w (n + 1)
       else .wait :: runcmd r w (n + 1))
  | .Pipe l r, w, n =>
    .pipe (w n) (w (n + 1)) (w (n + 2)) ::
      (if w n < 0 then panicEvents "pipe"
       else
        .fork (w (n + 3)) ::
          (if w (n + 3) = -1 then panicEvents "fork"
           else if w (n + 3) = 0 then
            .close 1 :: .dup (w (n + 2)) :: .close (w (n + 1)) :: .close (w (n + 2)) ::
              runcmd l w (n + 4)
           else
            .fork (w (n + 4)) ::
              (if w (n + 4) = -1 then panicEvents "fork"
               else if w (n + 4) = 0 then
                .close 0 :: .dup (w (n + 1)) :: .close (w (n + 1)) :: .close (w (n + 2)) ::
                  runcmd r w (n + 5)
               else
                [.close (w (n + 1)), .close (w (n + 2)), .wait, .wait, .exit 0])))
  | .Background c, w, n => runcmd c w n

/-! ## Reading and dispatching a line -/

/-- The loop of `getline_from_fd` with `k` iterations allowed: `file` is what
is left to read, `line` what is stored in `buf` so far (`i` is its length).
The result is `none` for the return value -1, else the line and the rest of
the file. -/
def getlineLoop (nbuf : Nat) : Nat → List Char → List Char → Option (List Char × List Char)
  | 0, file, line => some (line, file)
  | k + 1, file, line =>
    if line.length < nbuf - 1 then
      match file with
      | [] => if line.length = 0 then none else some (line, [])
      | c :: rest =>
        if c = '\n' then some (line ++ ['\n'], rest)
        else getlineLoop nbuf k rest (line ++ [c])
    else some (line, file)

/-- The function `getline_from_fd(fd, buf, nbuf)`; its loop runs at most
`nbuf - 1` times. -/
def getline_from_fd (nbuf : Nat) (file : List Char) : Option (List Char × List Char) :=
  getlineLoop nbuf (nbuf - 1) file []

/-- What the loop of `main` does with the line it has read: go on to the next
line, print the job table, change directory, or parse the line and fork. -/
inductive Turn where
  | skip
  | jobs (pids : List Int)
  | cd (path : List Char)
  | command (line : List Char)
  deriving DecidableEq, Repr

/-- The part of the loop body of `main` between reading the line and
`parsecmd`. -/
def turn (t : JobTable) (buf : List Char) : Turn :=
  if deref buf 0 = '\n' ∨ deref buf 0 = NUL then .skip
  else if deref buf 0 = 'j' ∧ deref buf 1 = 'o' ∧ deref buf 2 = 'b' ∧ deref buf 3 = 's' ∧
      (deref buf 4 = '\n' ∨ deref buf 4 = NUL ∨ deref buf 4 = ' ' ∨ deref buf 4 = '\t' ∨
        deref buf 4 = '\r') then .jobs t.entries
  else if deref buf 0 = 'c' ∧ deref buf 1 = 'd' ∧ deref buf 2 = ' ' then
    .cd (cstr (buf.set (strlen buf - 1) NUL) 3)
  else .command buf

/-! ## Invariants of accepted input -/

/-- The buffer is NUL-terminated at `es`, the value of `s + strlen(s)` in
`parsecmd`. -/
def Terminated (buf : List Char) (es : Nat) : Prop :=
  deref buf es = NUL ∧ ∀ i, i < es → deref buf i ≠ NUL

/-- The parentheses in the positions `[a, b)` of the buffer are balanced. -/
inductive Bal (buf : List Char) : Nat → Nat → Prop where
  | nil (a : Nat) : Bal buf a a
  | char {a b : Nat} : deref buf a ≠ '(' → deref buf a ≠ ')' → Bal buf (a + 1) b → Bal buf a b
  | paren {a j b : Nat} : deref buf a = '(' → Bal buf (a + 1) j → deref buf j = ')' →
      Bal buf (j + 1) b → Bal buf a b

/-- The opening parenthesis at position `i` has a matching `)` before `es`:
what lies between the two is balanced. -/
def Matched (buf : List Char) (es i : Nat) : Prop :=
  ∃ j, i < j ∧ j < es ∧ Bal buf (i + 1) j ∧ deref buf j = ')'

/-- After position `i` and optional whitespace comes the first character of a
word: not the end of input and not an operator character. -/
def WordFollows (buf : List Char) (es i : Nat) : Prop :=
  deref buf (skipws buf es (i + 1)) ≠ NUL ∧
    strchr symbols (deref buf (skipws buf es (i + 1))) = false

/-- If position `i` holds `<` or `>`, then a word follows it, or it is the
first half of a `>>` that a word follows. -/
def RedirOK (buf : List Char) (es i : Nat) : Prop :=
  (deref buf i = '<' ∨ deref buf i = '>') →
    (deref buf i = '>' ∧ deref buf (i + 1) = '>' ∧ WordFollows buf es (i + 1)) ∨
      WordFollows buf es i

/-- A position that holds no parenthesis and satisfies `RedirOK`. -/
def Flat (buf : List Char) (es i : Nat) : Prop :=
  deref buf i ≠ '(' ∧ deref buf i ≠ ')' ∧ RedirOK buf es i

/-- The positions `[a, b)` lie inside the line, are balanced, and every
redirection operator in them is followed by a word. -/
def Seg (buf : List Char) (es a b : Nat) : Prop :=
  a ≤ b ∧ b ≤ es ∧ Bal buf a b ∧ ∀ i, a ≤ i → i < b → RedirOK buf es i

/-- The finalize step succeeds on the tree, whatever the buffer. -/
def NoFault (t : cmd) : Prop := ∀ b, ∃ b1, nulterminate t b = .ok b1

/-- The tree `t` is `c` under zero or more redirection nodes. -/
inductive Chain (c : cmd) : cmd → Prop where
  | refl : Chain c c
  | redir {t : cmd} (file efile mode fd : Nat) : Chain c t →
      Chain c (.redircmd t file efile mode fd)

/-- The two arrays of an exec node while `parseexec` fills them: `k` entries
set, the rest still zero, and `k < MAXARGS`. -/
def Arrs (k : Nat) (argv eargv : List (Option Nat)) : Prop :=
  ∃ qs eqs : List Nat, qs.length = k ∧ eqs.length = k ∧ k < MAXARGS ∧
    argv = qs.map some ++ List.replicate (MAXARGS - k) none ∧
    eargv = eqs.map some ++ List.replicate (MAXARGS - k) none

/-- The tree `ret` of `parseexec` after `k` words: an exec node with `k`
entries under redirection nodes. -/
inductive InProgress (k : Nat) : cmd → Prop where
  | exec {argv eargv : List (Option Nat)} : Arrs k argv eargv →
      InProgress k (.execcmd argv eargv)
  | redir {c : cmd} (file efile mode fd : Nat) : InProgress k c →
      InProgress k (.redircmd c file efile mode fd)

/-- The outcome of a parsing function called at `s`: a tree with property `P`
and a cursor `s1` such that `[s, s1)` is a good segment, or a call of `panic`;
never a fault and never a lack of fuel. -/
def Res (buf : List Char) (es s : Nat) (P : cmd → Prop) : Except Err (cmd × Nat) → Prop
  | .ok (t, s1) => Seg buf es s s1 ∧ P t
  | .error e => ∃ msg, e = .panic msg

instance (buf : List Char) (es i : Nat) : Decidable (WordFollows buf es i) := by
  unfold WordFollows; infer_instance

/-! # Theorems -/

/-! ## Reading the buffer -/

theorem drop_cons_info {buf : List Char} {s : Nat} {c : Char} {r : List Char}
    (h : buf.drop s = c :: r) :
    s < buf.length ∧ deref buf s = c ∧ buf.drop (s + 1) = r := by
  have hlt : s < buf.length := by
    by_contra hge
    rw [List.drop_eq_nil_of_le (by omega)] at h
    cases h
  refine ⟨hlt, ?_, ?_⟩
  · rw [List.drop_eq_getElem_cons hlt] at h
    simp only [List.cons.injEq] at h
    simp [deref, List.getD_eq_getElem?_getD, List.getElem?_eq_getElem hlt, h.1]
  · rw [List.drop_eq_getElem_cons hlt] at h
    simp only [List.cons.injEq] at h
    exact h.2

theorem drop_nil_info {buf : List Char} {s : Nat} (h : buf.drop s = []) :
    ¬ s < buf.length ∧ deref buf s = NUL := by
  have hge : buf.length ≤ s := by
    by_contra hlt
    rw [List.drop_eq_getElem_cons (by omega)] at h
    cases h
  refine ⟨by omega, ?_⟩
  simp [deref, List.getD_eq_getElem?_getD, List.getElem?_eq_none hge]

theorem drop_add_of_append {buf : List Char} {s : Nat} {x r : List Char}
    (h : buf.drop s = x ++ r) : buf.drop (s + x.length) = r := by
  rw [← List.drop_drop, h, List.drop_left]

theorem skipwsLoop_eq (buf : List Char) (ws : List Char) :
    ∀ (n s : Nat) (rest : List Char), buf.drop s = ws ++ rest → allws ws → nows rest →
      ws.length ≤ n → skipwsLoop buf buf.length n s = s + ws.length := by
  induction ws with
  | nil =>
    intro n s rest h _ hr _
    cases n with
    | zero => rfl
    | succ n =>
      simp only [skipwsLoop, List.length_nil, Nat.add_zero]
      cases rest with
      | nil =>
        have := drop_nil_info (by simpa using h : buf.drop s = [])
        simp [this.1]
      | cons c r =>
        have := drop_cons_info (by simpa using h : buf.drop s = c :: r)
        have hc : strchr whitespace c = false := hr
        simp [this.2.1, hc]
  | cons w ws ih =>
    intro n s rest h hw hr hn
    cases n with
    | zero => simp at hn
    | succ n =>
      have hd := drop_cons_info (by simpa using h : buf.drop s = w :: (ws ++ rest))
      have hwc : strchr whitespace w = true := hw w (List.mem_cons_self _ _)
      simp only [skipwsLoop, hd.1, hd.2.1, hwc, decide_True, Bool.and_self, if_true]
      rw [ih n (s + 1) rest hd.2.2 (fun c hc => hw c (List.mem_cons_of_mem _ hc)) hr
        (by simpa using hn)]
      simp only [List.length_cons]; omega

theorem skipws_eq {buf : List Char} {s : Nat} {ws rest : List Char}
    (h : buf.drop s = ws ++ rest) (hw : allws ws) (hr : nows rest) :
    skipws buf buf.length s = s + ws.length := by
  have hl : (buf.drop s).length = (ws ++ rest).length := by rw [h]
  simp only [List.length_drop, List.length_append] at hl
  exact skipwsLoop_eq buf ws _ s rest h hw hr (by omega)

theorem skipws_id {buf : List Char} {s : Nat} {rest : List Char}
    (h : buf.drop s = rest) (hr : nows rest) : skipws buf buf.length s = s := by
  subst h
  have h0 : buf.drop s = [] ++ buf.drop s := rfl
  simpa using skipws_eq h0 (by intro c hc; cases hc) hr

theorem scanwordLoop_eq (buf : List Char) (w : List Char) :
    ∀ (n s : Nat) (rest : List Char), buf.drop s = w ++ rest → (∀ c ∈ w, wordchar c) →
      wordend rest → w.length ≤ n → scanwordLoop buf buf.length n s = s + w.length := by
  induction w with
  | nil =>
    intro n s rest h _ hr _
    cases n with
    | zero => rfl
    | succ n =>
      simp only [scanwordLoop, List.length_nil, Nat.add_zero]
      cases rest with
      | nil =>
        have := drop_nil_info (by simpa using h : buf.drop s = [])
        simp [this.1]
      | cons c r =>
        have := drop_cons_info (by simpa using h : buf.drop s = c :: r)
        rcases (hr : strchr whitespace c = true ∨ strchr symbols c = true) with hc | hc <;>
          simp [this.2.1, hc]
  | cons c w ih =>
    intro n s rest h hw hr hn
    cases n with
    | zero => simp at hn
    | succ n =>
      have hd := drop_cons_info (by simpa using h : buf.drop s = c :: (w ++ rest))
      obtain ⟨_, h1, h2⟩ := hw c (List.mem_cons_self _ _)
      simp only [scanwordLoop, hd.1, hd.2.1, h1, h2, decide_True, Bool.not_false,
        Bool.and_self, if_true]
      rw [ih n (s + 1) rest hd.2.2 (fun c hc => hw c (List.mem_cons_of_mem _ hc)) hr
        (by simpa using hn)]
      simp only [List.length_cons]; omega

theorem scanword_eq {buf : List Char} {s : Nat} {w rest : List Char}
    (h : buf.drop s = w ++ rest) (hw : ∀ c ∈ w, wordchar c) (hr : wordend rest) :
    scanword buf buf.length s = s + w.length := by
  have hl : (buf.drop s).length = (w ++ rest).length := by rw [h]
  simp only [List.length_drop, List.length_append] at hl
  exact scanwordLoop_eq buf w _ s rest h hw hr (by omega)

/-- The token read at a word `w` that is followed by the whitespace run `ws`. -/
theorem gettoken_word {buf : List Char} {s : Nat} {w ws rest : List Char}
    (h : buf.drop s = w ++ (ws ++ rest)) (hw : isword w) (hws : allws ws) (hr : nows rest)
    (he : wordend (ws ++ rest)) :
    gettoken buf buf.length s = ⟨'a', s, s + w.length, s + w.length + ws.length⟩ := by
  obtain ⟨hne, hwc⟩ := hw
  obtain ⟨c, w', rfl⟩ := List.exists_cons_of_ne_nil hne
  obtain ⟨hc0, hc1, hc2⟩ := hwc c (List.mem_cons_self _ _)
  have hd := drop_cons_info (by simpa using h : buf.drop s = c :: (w' ++ (ws ++ rest)))
  have hs : skipws buf buf.length s = s :=
    skipws_id h hc1
  have hsc := scanword_eq h hwc he
  have hs2 : skipws buf buf.length (s + (c :: w').length) = s + (c :: w').length + ws.length :=
    skipws_eq (drop_add_of_append h) hws hr
  have hsym : ¬ (c = '|' ∨ c = '(' ∨ c = ')' ∨ c = ';' ∨ c = '&' ∨ c = '<') := by
    intro hh
    rcases hh with rfl | rfl | rfl | rfl | rfl | rfl <;> simp [strchr, symbols] at hc2
  have hgt : c ≠ '>' := by
    intro hh; subst hh; simp [strchr, symbols] at hc2
  simp only [gettoken, hs, hd.2.1, hc0, hsym, hgt, if_false, hsc, hs2]

/-- The token read at a one-character operator followed by the whitespace run `ws`. -/
theorem gettoken_op {buf : List Char} {s : Nat} {c : Char} {ws rest : List Char}
    (h : buf.drop s = c :: (ws ++ rest))
    (hc : c = '|' ∨ c = '(' ∨ c = ')' ∨ c = ';' ∨ c = '&' ∨ c = '<')
    (hws : allws ws) (hr : nows rest) :
    gettoken buf buf.length s = ⟨c, s, s + 1, s + 1 + ws.length⟩ := by
  have hd := drop_cons_info h
  have hcw : strchr whitespace c = false := by
    rcases hc with rfl | rfl | rfl | rfl | rfl | rfl <;> decide
  have hc0 : c ≠ NUL := by
    rcases hc with rfl | rfl | rfl | rfl | rfl | rfl <;> decide
  have hs : skipws buf buf.length s = s :=
    skipws_id h hcw
  have hs2 : skipws buf buf.length (s + 1) = s + 1 + ws.length := skipws_eq hd.2.2 hws hr
  simp only [gettoken, hs, hd.2.1, hc0, hc, if_false, if_true, hs2]

/-- The token read at a `>` that is not followed by another `>`. -/
theorem gettoken_gt {buf : List Char} {s : Nat} {ws rest : List Char}
    (h : buf.drop s = '>' :: (ws ++ rest)) (hws : allws ws) (hr : nows rest)
    (hn : (ws ++ rest).head? ≠ some '>') :
    gettoken buf buf.length s = ⟨'>', s, s + 1, s + 1 + ws.length⟩ := by
  have hd := drop_cons_info h
  have hs : skipws buf buf.length s = s :=
    skipws_id h (show strchr whitespace '>' = false by decide)
  have hs2 : skipws buf buf.length (s + 1) = s + 1 + ws.length := skipws_eq hd.2.2 hws hr
  have hnext : deref buf (s + 1) ≠ '>' := by
    cases hx : ws ++ rest with
    | nil => rw [hx] at hd; rw [(drop_nil_info hd.2.2).2]; decide
    | cons d r =>
      rw [hx] at hd hn
      rw [(drop_cons_info hd.2.2).2.1]
      intro hh; subst hh; simp at hn
  have h1 : ¬ (('>' : Char) = '|' ∨ ('>' : Char) = '(' ∨ ('>' : Char) = ')' ∨
      ('>' : Char) = ';' ∨ ('>' : Char) = '&' ∨ ('>' : Char) = '<') := by decide
  have h0 : ('>' : Char) ≠ NUL := by decide
  simp only [gettoken, hs, hd.2.1, h0, h1, hnext, if_false, if_true, hs2]

/-- The token read at `>>`. -/
theorem gettoken_gtgt {buf : List Char} {s : Nat} {ws rest : List Char}
    (h : buf.drop s = '>' :: '>' :: (ws ++ rest)) (hws : allws ws) (hr : nows rest) :
    gettoken buf buf.length s = ⟨'+', s, s + 2, s + 2 + ws.length⟩ := by
  have hd := drop_cons_info h
  have hd2 := drop_cons_info hd.2.2
  have hs : skipws buf buf.length s = s :=
    skipws_id h (show strchr whitespace '>' = false by decide)
  have hs2 : skipws buf buf.length (s + 2) = s + 2 + ws.length := skipws_eq hd2.2.2 hws hr
  have h1 : ¬ (('>' : Char) = '|' ∨ ('>' : Char) = '(' ∨ ('>' : Char) = ')' ∨
      ('>' : Char) = ';' ∨ ('>' : Char) = '&' ∨ ('>' : Char) = '<') := by decide
  have h0 : ('>' : Char) ≠ NUL := by decide
  simp only [gettoken, hs, hd.2.1, h0, h1, hd2.2.1, if_false, if_true, hs2]

/-- The token read at the end of the line. -/
theorem gettoken_end {buf : List Char} {s : Nat} (h : buf.drop s = []) :
    gettoken buf buf.length s = ⟨NUL, s, s, s⟩ := by
  have hd := drop_nil_info h
  have hs : skipws buf buf.length s = s := skipws_id h trivial
  simp only [gettoken, hs, hd.2, if_true]

theorem peek_nil {buf : List Char} {s : Nat} (toks : List Char) (h : buf.drop s = []) :
    peek buf buf.length s toks = (s, false) := by
  have hd := drop_nil_info h
  have hs : skipws buf buf.length s = s := skipws_id h trivial
  simp [peek, hs, hd.2]

theorem peek_cons {buf : List Char} {s : Nat} {c : Char} {r : List Char} (toks : List Char)
    (h : buf.drop s = c :: r) (hc : strchr whitespace c = false) :
    peek buf buf.length s toks = (s, c != NUL && strchr toks c) := by
  have hd := drop_cons_info h
  have hs : skipws buf buf.length s = s := skipws_id h hc
  simp [peek, hs, hd.2.1]

/-! ## Redirections -/

theorem wordchar_head {w : List Char} (hw : isword w) :
    ∃ c w', w = c :: w' ∧ wordchar c := by
  obtain ⟨hne, hwc⟩ := hw
  obtain ⟨c, w', rfl⟩ := List.exists_cons_of_ne_nil hne
  exact ⟨c, w', rfl, hwc c (List.mem_cons_self _ _)⟩

theorem nows_word {w : List Char} (hw : isword w) (rest : List Char) : nows (w ++ rest) := by
  obtain ⟨c, w', rfl, hc⟩ := wordchar_head hw
  exact hc.2.1

theorem noredir_word {w : List Char} (hw : isword w) (rest : List Char) :
    noredir (w ++ rest) := by
  obtain ⟨c, w', rfl, hc⟩ := wordchar_head hw
  have h2 := hc.2.2
  constructor <;> (intro h; subst h; simp [strchr, symbols] at h2)

theorem nows_renderRedirs (rs : List RedirSrc) {next : List Char} (hn : nows next) :
    nows (renderRedirs rs ++ next) := by
  cases rs with
  | nil => exact hn
  | cons r rs => cases hop : r.op <;> simp [renderRedirs, RedirSrc.render, RedirOp.text, hop, nows] <;> decide

theorem wordend_renderRedirs (rs : List RedirSrc) {next : List Char} (hn : wordend next) :
    wordend (renderRedirs rs ++ next) := by
  cases rs with
  | nil => exact hn
  | cons r rs =>
    cases hop : r.op <;> simp [renderRedirs, RedirSrc.render, RedirOp.text, hop, wordend] <;>
      decide

theorem length_drop_eq {buf : List Char} {s : Nat} {x : List Char} (h : buf.drop s = x) :
    buf.length - s = x.length := by
  rw [← h, List.length_drop]

/-- The two tokens of a redirection, as `parseredirs` reads them. -/
theorem redir_tokens {buf : List Char} {s : Nat} (r : RedirSrc) {rest : List Char}
    (h : buf.drop s = r.render ++ rest) (h1 : allws r.ws1) (hf : isword r.file)
    (h2 : allws r.ws2) (hr : nows rest) (he : wordend (r.ws2 ++ rest)) :
    peek buf buf.length s ['<', '>'] = (s, true) ∧
    (gettoken buf buf.length s).ret = r.op.tok ∧
    gettoken buf buf.length (gettoken buf buf.length s).s =
      ⟨'a', s + r.op.text.length + r.ws1.length,
        s + r.op.text.length + r.ws1.length + r.file.length, s + r.render.length⟩ ∧
    Span buf (s + r.op.text.length + r.ws1.length)
      (s + r.op.text.length + r.ws1.length + r.file.length) r.file := by
  have hnf : nows (r.file ++ (r.ws2 ++ rest)) := nows_word hf _
  have hlen : s + r.render.length =
      s + r.op.text.length + r.ws1.length + r.file.length + r.ws2.length := by
    simp only [RedirSrc.render, List.length_append]; omega
  have key : ∀ {p : Nat}, buf.drop p = r.file ++ (r.ws2 ++ rest) →
      gettoken buf buf.length p = ⟨'a', p, p + r.file.length, p + r.file.length + r.ws2.length⟩ ∧
      Span buf p (p + r.file.length) r.file := by
    intro p hp
    exact ⟨gettoken_word hp hf h2 hr he, hf, rfl, _, hp, he⟩
  cases hop : r.op with
  | rd =>
    have h' : buf.drop s = '<' :: (r.ws1 ++ (r.file ++ (r.ws2 ++ rest))) := by
      simpa [RedirSrc.render, RedirOp.text, hop] using h
    have ht := gettoken_op h' (by simp) h1 hnf
    have hp := peek_cons ['<', '>'] h' (by decide)
    have hd := drop_add_of_append (x := '<' :: r.ws1) (by simpa using h')
    obtain ⟨k1, k2⟩ := key hd
    rw [hlen, hop]
    simp only [RedirOp.text, List.length_cons, List.length_nil] at k1 k2 ⊢
    refine ⟨by rw [hp]; exact congrArg _ (by decide), by rw [ht]; rfl, ?_, ?_⟩
    · rw [ht]; simp only; rw [show s + 1 + r.ws1.length = s + (r.ws1.length + 1) by omega]
      rw [k1]
    · rw [show s + (0 + 1) + r.ws1.length = s + (r.ws1.length + 1) by omega]; exact k2
  | wr =>
    have h' : buf.drop s = '>' :: (r.ws1 ++ (r.file ++ (r.ws2 ++ rest))) := by
      simpa [RedirSrc.render, RedirOp.text, hop] using h
    have hne : (r.ws1 ++ (r.file ++ (r.ws2 ++ rest))).head? ≠ some '>' := by
      cases hw : r.ws1 with
      | nil =>
        obtain ⟨c, w', hcw, hc⟩ := wordchar_head hf
        rw [hcw]; simp only [List.nil_append, List.cons_append, List.head?_cons]
        intro hh; simp only [Option.some.injEq] at hh; subst hh
        have := hc.2.2; simp [strchr, symbols] at this
      | cons c w' =>
        have hc : strchr whitespace c = true := h1 c (by rw [hw]; exact List.mem_cons_self _ _)
        simp only [List.cons_append, List.head?_cons]
        intro hh; simp only [Option.some.injEq] at hh; subst hh
        simp [strchr, whitespace] at hc
    have ht := gettoken_gt h' h1 hnf hne
    have hp := peek_cons ['<', '>'] h' (by decide)
    have hd := drop_add_of_append (x := '>' :: r.ws1) (by simpa using h')
    obtain ⟨k1, k2⟩ := key hd
    rw [hlen, hop]
    simp only [RedirOp.text, List.length_cons, List.length_nil] at k1 k2 ⊢
    refine ⟨by rw [hp]; exact congrArg _ (by decide), by rw [ht]; rfl, ?_, ?_⟩
    · rw [ht]; simp only; rw [show s + 1 + r.ws1.length = s + (r.ws1.length + 1) by omega]
      rw [k1]
    · rw [show s + (0 + 1) + r.ws1.length = s + (r.ws1.length + 1) by omega]; exact k2
  | app =>
    have h' : buf.drop s = '>' :: '>' :: (r.ws1 ++ (r.file ++ (r.ws2 ++ rest))) := by
      simpa [RedirSrc.render, RedirOp.text, hop] using h
    have ht := gettoken_gtgt h' h1 hnf
    have hp := peek_cons ['<', '>'] h' (by decide)
    have hd := drop_add_of_append (x := '>' :: '>' :: r.ws1) (by simpa using h')
    obtain ⟨k1, k2⟩ := key hd
    rw [hlen, hop]
    simp only [RedirOp.text, List.length_cons, List.length_nil] at k1 k2 ⊢
    refine ⟨by rw [hp]; exact congrArg _ (by decide), by rw [ht]; rfl, ?_, ?_⟩
    · rw [ht]; simp only; rw [show s + 2 + r.ws1.length = s + (r.ws1.length + 1 + 1) by omega]
      rw [k1]
    · rw [show s + (0 + 1 + 1) + r.ws1.length = s + (r.ws1.length + 1 + 1) by omega]; exact k2

theorem peek_noredir {buf : List Char} {s : Nat} {next : List Char}
    (h : buf.drop s = next) (hn : nows next) (hr : noredir next) :
    peek buf buf.length s ['<', '>'] = (s, false) := by
  cases next with
  | nil => exact peek_nil _ h
  | cons d r =>
    rw [peek_cons _ h hn]
    obtain ⟨h1, h2⟩ := hr
    simp [strchr, h1, h2]

theorem render_pos (r : RedirSrc) : 1 ≤ r.render.length := by
  cases hop : r.op <;> simp [RedirSrc.render, RedirOp.text, hop]

/-- On a run of well-formed redirections `parseredirs` wraps `c` in one node
for each and stops behind them. -/
theorem parseredirs_ok (F : Fcntl) (buf : List Char) (rs : List RedirSrc) :
    ∀ (fuel : Nat) (c : cmd) (s : Nat) (next : List Char),
      buf.drop s = renderRedirs rs ++ next → RedirsOK rs next → nows next → noredir next →
      buf.length - s + 1 ≤ fuel →
      ∃ t, parseredirs F buf buf.length fuel c s = .ok (t, s + (renderRedirs rs).length) ∧
        Wraps F buf c t rs := by
  induction rs with
  | nil =>
    intro fuel c s next h _ hn hr hf
    obtain ⟨fuel, rfl⟩ : ∃ f, fuel = f + 1 := ⟨fuel - 1, by omega⟩
    refine ⟨c, ?_, rfl⟩
    have hp := peek_noredir (by simpa [renderRedirs] using h) hn hr
    simp [parseredirs, hp, renderRedirs]
  | cons r rs ih =>
    intro fuel c s next h hok hn hr hf
    obtain ⟨h1, hfile, h2, he, hok'⟩ := hok
    have h' : buf.drop s = r.render ++ (renderRedirs rs ++ next) := by
      simpa [renderRedirs] using h
    obtain ⟨hp, ht1, ht2, hspan⟩ := redir_tokens r h' h1 hfile h2 (nows_renderRedirs rs hn) he
    have hlen := length_drop_eq h'
    have hpos := render_pos r
    simp only [List.length_append] at hlen
    obtain ⟨fuel, rfl⟩ : ∃ f, fuel = f + 1 := ⟨fuel - 1, by omega⟩
    obtain ⟨t, ht, hw⟩ := ih fuel
      (.redircmd c (s + r.op.text.length + r.ws1.length)
        (s + r.op.text.length + r.ws1.length + r.file.length) (r.op.mode F) r.op.fd)
      (s + r.render.length) next (drop_add_of_append h') hok' hn hr (by omega)
    refine ⟨t, ?_, _, _, hspan, hw⟩
    have hl : s + (renderRedirs (r :: rs)).length = s + r.render.length + (renderRedirs rs).length := by
      simp only [renderRedirs, List.length_append]; omega
    rw [hl, ← ht, parseredirs]
    simp only [hp, ht1, ht2, if_true]
    cases r.op <;> simp [RedirOp.tok, RedirOp.mode, RedirOp.fd]

/-! ## Trees under construction -/

theorem wraps_setargv (F : Fcntl) (buf : List Char) (i : Nat) (q eq : Option Nat)
    (rs : List RedirSrc) :
    ∀ c t, Wraps F buf c t rs → Wraps F buf (setargv c i q eq) (setargv t i q eq) rs := by
  induction rs with
  | nil => intro c t h; simp only [Wraps] at h ⊢; rw [h]
  | cons r rs ih =>
    intro c t h
    obtain ⟨q', eq', hs, hw⟩ := h
    exact ⟨q', eq', hs, ih _ _ hw⟩

theorem wraps_append (F : Fcntl) (buf : List Char) (rs1 rs2 : List RedirSrc) :
    ∀ c t t', Wraps F buf c t rs1 → Wraps F buf t t' rs2 → Wraps F buf c t' (rs1 ++ rs2) := by
  induction rs1 with
  | nil => intro c t t' h1 h2; simp only [Wraps] at h1; subst h1; simpa using h2
  | cons r rs ih =>
    intro c t t' h1 h2
    obtain ⟨q, eq, hs, hw⟩ := h1
    exact ⟨q, eq, hs, ih _ _ _ hw h2⟩

theorem rep_wraps (F : Fcntl) (buf : List Char) (rs : List RedirSrc) :
    ∀ c t a, Rep buf c a → Wraps F buf c t rs → Rep buf t (wrapRedirs F a rs) := by
  induction rs with
  | nil => intro c t a hr hw; simp only [Wraps] at hw; subst hw; exact hr
  | cons r rs ih =>
    intro c t a hr hw
    obtain ⟨q, eq, hs, hw⟩ := hw
    exact ih _ _ _ (Rep.redir hr hs) hw

theorem argspre_length (buf : List Char) (done : List (List Char)) :
    ∀ argv eargv, ArgsPre buf argv eargv done → argv.length = eargv.length := by
  induction done with
  | nil => intro argv eargv h; simpa [ArgsPre] using h
  | cons w done ih =>
    intro argv eargv h
    match argv, eargv, h with
    | some q :: argv, some eq :: eargv, h => simp [ih argv eargv h.2]

theorem argspre_set (buf : List Char) {q eq : Nat} {w : List Char} (hs : Span buf q eq w)
    (done : List (List Char)) :
    ∀ argv eargv, ArgsPre buf argv eargv done → done.length < argv.length →
      ArgsPre buf (argv.set done.length (some q)) (eargv.set done.length (some eq))
        (done ++ [w]) := by
  induction done with
  | nil =>
    intro argv eargv h hl
    match argv, eargv, h with
    | a :: argv, e :: eargv, h =>
      simp only [ArgsPre, List.length_cons, Nat.add_right_cancel_iff] at h
      exact ⟨hs, by simpa [ArgsPre] using h⟩
    | a :: argv, [], h => simp [ArgsPre] at h
    | [], _, _ => simp at hl
  | cons w0 done ih =>
    intro argv eargv h hl
    match argv, eargv, h with
    | some q0 :: argv, some eq0 :: eargv, h =>
      exact ⟨h.1, ih argv eargv h.2 (by simpa using hl)⟩

theorem argspre_rep (buf : List Char) (done : List (List Char)) :
    ∀ argv eargv, ArgsPre buf argv eargv done → done.length < argv.length →
      ArgsRep buf (argv.set done.length none) (eargv.set done.length none) done := by
  induction done with
  | nil =>
    intro argv eargv h hl
    match argv, eargv, h with
    | a :: argv, e :: eargv, h => simp [ArgsRep]
    | a :: argv, [], h => simp [ArgsPre] at h
    | [], _, _ => simp at hl
  | cons w0 done ih =>
    intro argv eargv h hl
    match argv, eargv, h with
    | some q0 :: argv, some eq0 :: eargv, h =>
      exact ⟨h.1, ih argv eargv h.2 (by simpa using hl)⟩

/-- The tree `parseexec` returns once the two closing stores are made. -/
theorem rep_finish (F : Fcntl) (buf : List Char) {argv eargv : List (Option Nat)}
    {done : List (List Char)} {ret : cmd} {rs : List RedirSrc}
    (hw : Wraps F buf (.execcmd argv eargv) ret rs) (hp : ArgsPre buf argv eargv done)
    (hl : done.length < argv.length) :
    Rep buf (setargv ret done.length none none) (wrapRedirs F (.Exec done) rs) :=
  rep_wraps F buf rs _ _ _ (Rep.exec (argspre_rep buf done argv eargv hp hl))
    (wraps_setargv F buf done.length none none rs _ _ hw)

theorem nows_renderArgs (args : List ArgSrc) {next : List Char} (ha : ArgsOK args next)
    (hn : nows next) : nows (renderArgs args ++ next) := by
  cases args with
  | nil => exact hn
  | cons a as =>
    simp only [renderArgs, ArgSrc.render, List.append_assoc]
    exact nows_word ha.1 _

theorem noredir_follow {next : List Char} (h : follow ['|', ')', '&', ';'] next) :
    noredir next := by
  cases next with
  | nil => trivial
  | cons c r =>
    simp only [follow, List.mem_cons, List.mem_singleton, List.not_mem_nil, or_false] at h
    rcases h with rfl | rfl | rfl | rfl <;> exact ⟨by decide, by decide⟩

theorem nows_follow {next : List Char} (h : follow ['|', ')', '&', ';'] next) : nows next := by
  cases next with
  | nil => trivial
  | cons c r =>
    simp only [follow, List.mem_cons, List.mem_singleton, List.not_mem_nil, or_false] at h
    rcases h with rfl | rfl | rfl | rfl <;> (show strchr whitespace _ = false) <;> decide

theorem noredir_renderArgs (args : List ArgSrc) {next : List Char} (ha : ArgsOK args next)
    (hf : follow ['|', ')', '&', ';'] next) : noredir (renderArgs args ++ next) := by
  cases args with
  | nil => exact noredir_follow hf
  | cons a as =>
    simp only [renderArgs, ArgSrc.render, List.append_assoc]
    exact noredir_word ha.1 _

/-! ## Simple commands -/

theorem peek_follow {buf : List Char} {s : Nat} {c : Char} {r : List Char}
    (h : buf.drop s = c :: r) (hc : c ∈ ['|', ')', '&', ';']) :
    peek buf buf.length s ['|', ')', '&', ';'] = (s, true) := by
  simp only [List.mem_cons, List.mem_singleton, List.not_mem_nil, or_false] at hc
  have hw : strchr whitespace c = false := by
    rcases hc with rfl | rfl | rfl | rfl <;> decide
  rw [peek_cons _ h hw]
  rcases hc with rfl | rfl | rfl | rfl <;> exact congrArg _ (by decide)

theorem peek_wordchar {buf : List Char} {s : Nat} {w rest : List Char} (toks : List Char)
    (h : buf.drop s = w ++ rest) (hw : isword w) (ht : ∀ c ∈ toks, strchr symbols c = true) :
    peek buf buf.length s toks = (s, false) := by
  obtain ⟨c, w', rfl, hc⟩ := wordchar_head hw
  rw [peek_cons _ (by simpa using h) hc.2.1]
  have : strchr toks c = false := by
    cases hx : strchr toks c with
    | false => rfl
    | true =>
      have hmem : c ∈ toks := by simpa [strchr] using hx
      have h2 := hc.2.2
      rw [ht c hmem] at h2
      exact absurd h2 (by simp)
  simp [this]

/-- The argument loop of `parseexec` on a run of well-formed arguments: the
finished tree, or the `MAXARGS` error once the count reaches `MAXARGS`. -/
theorem parseargs_ok (F : Fcntl) (buf : List Char) (args : List ArgSrc) :
    ∀ (fuel : Nat) (ret : cmd) (argv eargv : List (Option Nat)) (done : List (List Char))
      (rs0 : List RedirSrc) (s : Nat) (next : List Char),
      buf.drop s = renderArgs args ++ next → ArgsOK args next →
      follow ['|', ')', '&', ';'] next →
      Wraps F buf (.execcmd argv eargv) ret rs0 → ArgsPre buf argv eargv done →
      argv.length = MAXARGS → done.length < MAXARGS → buf.length - s + 1 ≤ fuel →
      Agrees buf (parseargs F buf buf.length fuel ret done.length s)
        (if done.length + args.length < MAXARGS then
          .ok (wrapRedirs F (.Exec (done ++ args.map ArgSrc.word)) (rs0 ++ argRedirs args))
         else .error (.panic "too many args"))
        (s + (renderArgs args).length) := by
  induction args with
  | nil =>
    intro fuel ret argv eargv done rs0 s next h _ hfol hW hP hlen hdone hfuel
    obtain ⟨fuel, rfl⟩ : ∃ f, fuel = f + 1 := ⟨fuel - 1, by omega⟩
    have hrep := rep_finish F buf hW hP (by omega)
    simp only [List.length_nil, Nat.add_zero, hdone, if_true, renderArgs, List.map_nil,
      List.append_nil, argRedirs, Agrees]
    refine ⟨_, ?_, hrep⟩
    cases next with
    | nil =>
      have h' : buf.drop s = [] := by simpa [renderArgs] using h
      simp [parseargs, peek_nil _ h', gettoken_end h']
    | cons c r =>
      have h' : buf.drop s = c :: r := by simpa [renderArgs] using h
      simp [parseargs, peek_follow h' hfol]
  | cons a as ih =>
    intro fuel ret argv eargv done rs0 s next h hok hfol hW hP hlen hdone hfuel
    obtain ⟨hword, hws, hend, hrok, hok'⟩ := hok
    have h' : buf.drop s =
        a.word ++ (a.ws ++ (renderRedirs a.redirs ++ (renderArgs as ++ next))) := by
      simpa [renderArgs, ArgSrc.render] using h
    have hn1 : nows (renderArgs as ++ next) := nows_renderArgs as hok' (nows_follow hfol)
    have hp := peek_wordchar ['|', ')', '&', ';'] h' hword (by decide)
    have ht := gettoken_word h' hword hws (nows_renderRedirs a.redirs hn1) hend
    have hspan : Span buf s (s + a.word.length) a.word := ⟨hword, rfl, _, h', hend⟩
    have hl := length_drop_eq h'
    have hwpos : 1 ≤ a.word.length := by
      obtain ⟨c, w', hcw, _⟩ := wordchar_head hword
      rw [hcw]; simp
    simp only [List.length_append] at hl
    obtain ⟨fuel, rfl⟩ : ∃ f, fuel = f + 1 := ⟨fuel - 1, by omega⟩
    rw [parseargs]
    simp only [hp, ht, Bool.false_eq_true, if_false]
    have hna : ('a' : Char) ≠ NUL := by decide
    simp only [hna, if_false, ne_eq, not_true_eq_false]
    by_cases hfull : done.length + 1 ≥ MAXARGS
    · have : ¬ (done.length + (a :: as).length < MAXARGS) := by
        simp only [List.length_cons]; omega
      simp only [hfull, if_true, this, if_false, Agrees]
    · simp only [hfull, if_false]
      have hd2 : buf.drop (s + a.word.length + a.ws.length) =
          renderRedirs a.redirs ++ (renderArgs as ++ next) := by
        have := drop_add_of_append (x := a.word ++ a.ws) (by simpa using h')
        simpa [Nat.add_assoc] using this
      obtain ⟨t1, ht1, hw1⟩ := parseredirs_ok F buf a.redirs fuel
        (setargv ret done.length (some s) (some (s + a.word.length)))
        (s + a.word.length + a.ws.length) _ hd2 hrok hn1
        (noredir_renderArgs as hok' hfol) (by omega)
      rw [ht1]
      simp only
      have hP' := argspre_set buf hspan done argv eargv hP (by omega)
      have hW' := wraps_append F buf rs0 a.redirs _ _ _
        (wraps_setargv F buf done.length (some s) (some (s + a.word.length)) rs0 _ _ hW) hw1
      have hd3 := drop_add_of_append hd2
      have := ih fuel t1 _ _ (done ++ [a.word]) (rs0 ++ a.redirs)
        (s + a.word.length + a.ws.length + (renderRedirs a.redirs).length) next hd3 hok' hfol
        hW' hP' (by simpa using hlen) (by simp only [List.length_append, List.length_singleton]; omega)
        (by omega)
      have e1 : (done ++ [a.word]).length = done.length + 1 := by simp
      have e2 : done.length + 1 + as.length = done.length + (a :: as).length := by
        simp only [List.length_cons]; omega
      have e3 : s + a.word.length + a.ws.length + (renderRedirs a.redirs).length +
          (renderArgs as).length = s + (renderArgs (a :: as)).length := by
        simp only [renderArgs, ArgSrc.render, List.length_append]; omega
      rw [e1, e2, e3] at this
      simpa [argRedirs, List.append_assoc] using this

/-! ## Lines -/

theorem follow_mono {set1 set2 : List Char} (hs : ∀ c ∈ set1, c ∈ set2) {next : List Char}
    (h : follow set1 next) : follow set2 next := by
  cases next with
  | nil => trivial
  | cons c r => exact hs c h

theorem peek_follow_false {buf : List Char} {s : Nat} {next : List Char} {set : List Char}
    (tok : Char) (h : buf.drop s = next) (hf : follow set next)
    (hsub : ∀ c ∈ set, c ∈ ['|', ')', '&', ';']) (hnot : tok ∉ set) :
    peek buf buf.length s [tok] = (s, false) := by
  cases next with
  | nil => exact peek_nil _ h
  | cons c r =>
    have hc : c ∈ set := hf
    have hfc : follow ['|', ')', '&', ';'] (c :: r) := hsub c hc
    have hn : strchr whitespace c = false := nows_follow hfc
    rw [peek_cons _ h hn]
    have : strchr [tok] c = false := by
      cases hx : strchr [tok] c with
      | false => rfl
      | true =>
        have hmem : c = tok := by simpa [strchr] using hx
        subst hmem
        exact absurd hc hnot
    simp [this]

theorem parseback_ok (buf : List Char) (amps : List (List Char)) :
    ∀ (fuel : Nat) (c : cmd) (s : Nat) (next : List Char),
      buf.drop s = renderAmps amps ++ next → (∀ ws ∈ amps, allws ws) →
      follow [')', ';'] next → buf.length - s + 1 ≤ fuel →
      ∃ t, parseback buf buf.length fuel c s = .ok (t, s + (renderAmps amps).length) ∧
        ∀ a, Rep buf c a → Rep buf t (wrapBack a amps) := by
  induction amps with
  | nil =>
    intro fuel c s next h _ hf hfuel
    obtain ⟨fuel, rfl⟩ : ∃ f, fuel = f + 1 := ⟨fuel - 1, by omega⟩
    have hp := peek_follow_false '&' (by simpa [renderAmps] using h) hf (by decide) (by decide)
    exact ⟨c, by simp [parseback, hp, renderAmps], fun a ha => ha⟩
  | cons ws amps ih =>
    intro fuel c s next h hws hf hfuel
    have h' : buf.drop s = '&' :: (ws ++ (renderAmps amps ++ next)) := by
      simpa [renderAmps] using h
    have hn : nows (renderAmps amps ++ next) := by
      cases amps with
      | nil => exact nows_follow (follow_mono (by decide) hf)
      | cons w r => show strchr whitespace '&' = false; decide
    have hp : peek buf buf.length s ['&'] = (s, true) := by
      rw [peek_cons _ h' (by decide)]; exact congrArg _ (by decide)
    have ht := gettoken_op h' (by simp) (hws ws (List.mem_cons_self _ _)) hn
    have hl := length_drop_eq h'
    simp only [List.length_cons, List.length_append] at hl
    obtain ⟨fuel, rfl⟩ : ∃ f, fuel = f + 1 := ⟨fuel - 1, by omega⟩
    have hd := drop_add_of_append (x := '&' :: ws) (by simpa using h')
    obtain ⟨t, ht', hrep⟩ := ih fuel (.backcmd c) (s + ('&' :: ws).length) next hd
      (fun w hw => hws w (List.mem_cons_of_mem _ hw)) hf
      (by simp only [List.length_cons]; omega)
    refine ⟨t, ?_, fun a ha => hrep _ (Rep.back ha)⟩
    rw [parseback]
    simp only [hp, ht, if_true]
    simp only [List.length_cons] at ht'
    rw [show s + 1 + ws.length = s + (ws.length + 1) by omega, ht']
    simp only [renderAmps, List.length_cons, List.length_append]
    congr 2; omega

theorem nows_renderAmps (amps : List (List Char)) {next : List Char} (hn : nows next) :
    nows (renderAmps amps ++ next) := by
  cases amps with
  | nil => exact hn
  | cons w r => show strchr whitespace '&' = false; decide

theorem nows_render (src : Src) :
    ∀ next, src.wf next → nows next → nows (src.render ++ next) := by
  induction src with
  | simple pre args =>
    intro next hwf hn
    simp only [Src.render, List.append_assoc]
    exact nows_renderRedirs pre (nows_renderArgs args hwf.2 hn)
  | block ws1 body ws2 redirs _ =>
    intro next _ _
    show strchr whitespace '(' = false; decide
  | pipe l ws r ihl _ =>
    intro next hwf hn
    obtain ⟨_, _, _, hl, _⟩ := hwf
    have := ihl _ hl (show strchr whitespace '|' = false by decide)
    simpa [Src.render, List.append_assoc] using this
  | back c amps ih =>
    intro next hwf hn
    obtain ⟨_, _, hc⟩ := hwf
    have := ih _ hc (nows_renderAmps amps hn)
    simpa [Src.render, List.append_assoc] using this
  | seq l ws r ihl _ =>
    intro next hwf hn
    obtain ⟨_, _, hl, _⟩ := hwf
    have := ihl _ hl (show strchr whitespace ';' = false by decide)
    simpa [Src.render, List.append_assoc] using this

theorem parseline_succ (F : Fcntl) (buf : List Char) (es fuel s : Nat) :
    parseline F buf es (fuel + 1) s =
      match parsefront F buf es fuel s with
      | .error e => .error e
      | .ok (c1, s2) =>
        if (peek buf es s2 [';']).2 then
          match parseline F buf es fuel (gettoken buf es (peek buf es s2 [';']).1).s with
          | .error e => .error e
          | .ok (r, s3) => .ok (.listcmd c1 r, s3)
        else .ok (c1, (peek buf es s2 [';']).1) := by
  rw [parseline, parsefront]
  cases parsepipe F buf es fuel s with
  | error e => rfl
  | ok x => rfl

theorem pipe_of_exec {F : Fcntl} {buf : List Char} {fuel s s' : Nat} {next : List Char}
    {e : Except Err Cmd} (h : Agrees buf (parseexec F buf buf.length fuel s) e s')
    (hd : buf.drop s' = next) (hf : follow [')', '&', ';'] next) :
    Agrees buf (parsepipe F buf buf.length (fuel + 1) s) e s' := by
  cases e with
  | error err => simp only [Agrees] at h ⊢; rw [parsepipe, h]
  | ok a =>
    obtain ⟨t, ht, hr⟩ := h
    refine ⟨t, ?_, hr⟩
    rw [parsepipe, ht]
    simp [peek_follow_false '|' hd hf (by decide) (by decide)]

theorem front_of_pipe {F : Fcntl} {buf : List Char} {fuel s s' : Nat} {next : List Char}
    {e : Except Err Cmd} (h : Agrees buf (parsepipe F buf buf.length (fuel + 1) s) e s')
    (hd : buf.drop s' = next) (hf : follow [')', ';'] next) :
    Agrees buf (parsefront F buf buf.length (fuel + 1) s) e s' := by
  cases e with
  | error err => simp only [Agrees] at h ⊢; rw [parsefront, h]
  | ok a =>
    obtain ⟨t, ht, hr⟩ := h
    refine ⟨t, ?_, hr⟩
    rw [parsefront, ht]
    simp [parseback, peek_follow_false '&' hd hf (by decide) (by decide)]

theorem line_of_front {F : Fcntl} {buf : List Char} {fuel s s' : Nat} {next : List Char}
    {e : Except Err Cmd} (h : Agrees buf (parsefront F buf buf.length fuel s) e s')
    (hd : buf.drop s' = next) (hf : follow [')'] next) :
    Agrees buf (parseline F buf buf.length (fuel + 1) s) e s' := by
  cases e with
  | error err => simp only [Agrees] at h ⊢; rw [parseline_succ, h]
  | ok a =>
    obtain ⟨t, ht, hr⟩ := h
    refine ⟨t, ?_, hr⟩
    rw [parseline_succ, ht]
    simp [peek_follow_false ';' hd hf (by decide) (by decide)]

theorem lift_exec {F : Fcntl} {buf : List Char} {s s' : Nat} {next : List Char}
    {e : Except Err Cmd} (hd : buf.drop s' = next)
    (hE : ∀ fuel, follow ['|', ')', '&', ';'] next → 4 * (buf.length - s) + 2 ≤ fuel →
      Agrees buf (parseexec F buf buf.length fuel s) e s') :
    ∀ fuel, follow [')', '&', ';'] next → 4 * (buf.length - s) + 3 ≤ fuel →
      Agrees buf (parsepipe F buf buf.length fuel s) e s' := by
  intro fuel hf hfuel
  obtain ⟨fuel, rfl⟩ : ∃ f, fuel = f + 1 := ⟨fuel - 1, by omega⟩
  exact pipe_of_exec (hE fuel (follow_mono (by decide) hf) (by omega)) hd hf

theorem lift_pipe {F : Fcntl} {buf : List Char} {s s' : Nat} {next : List Char}
    {e : Except Err Cmd} (hd : buf.drop s' = next)
    (hP : ∀ fuel, follow [')', '&', ';'] next → 4 * (buf.length - s) + 3 ≤ fuel →
      Agrees buf (parsepipe F buf buf.length fuel s) e s') :
    ∀ fuel, follow [')', ';'] next → 4 * (buf.length - s) + 3 ≤ fuel →
      Agrees buf (parsefront F buf buf.length fuel s) e s' := by
  intro fuel hf hfuel
  obtain ⟨fuel, rfl⟩ : ∃ f, fuel = f + 1 := ⟨fuel - 1, by omega⟩
  exact front_of_pipe (hP (fuel + 1) (follow_mono (by decide) hf) hfuel) hd hf

theorem lift_front {F : Fcntl} {buf : List Char} {s s' : Nat} {next : List Char}
    {e : Except Err Cmd} (hd : buf.drop s' = next)
    (hP : ∀ fuel, follow [')', ';'] next → 4 * (buf.length - s) + 3 ≤ fuel →
      Agrees buf (parsefront F buf buf.length fuel s) e s') :
    ∀ fuel, follow [')'] next → 4 * (buf.length - s) + 4 ≤ fuel →
      Agrees buf (parseline F buf buf.length fuel s) e s' := by
  intro fuel hf hfuel
  obtain ⟨fuel, rfl⟩ : ∃ f, fuel = f + 1 := ⟨fuel - 1, by omega⟩
  exact line_of_front (hP fuel (follow_mono (by decide) hf) (by omega)) hd hf

theorem head_simple (pre : List RedirSrc) (args : List ArgSrc) {next : List Char}
    (ha : ArgsOK args next) (hf : follow ['|', ')', '&', ';'] next) {c : Char} {r : List Char}
    (h : renderRedirs pre ++ (renderArgs args ++ next) = c :: r) : c ≠ '(' := by
  cases pre with
  | cons p ps =>
    cases hop : p.op <;>
      simp [renderRedirs, RedirSrc.render, RedirOp.text, hop] at h <;>
      (rw [← h.1]; decide)
  | nil =>
    cases args with
    | cons a as =>
      obtain ⟨d, w', hdw, hd⟩ := wordchar_head ha.1
      simp [renderRedirs, renderArgs, ArgSrc.render, hdw] at h
      rw [← h.1]
      intro hh; subst hh
      have := hd.2.2; simp [strchr, symbols] at this
    | nil =>
      simp only [renderRedirs, renderArgs, List.nil_append] at h
      subst h
      simp only [follow, List.mem_cons, List.mem_singleton, List.not_mem_nil, or_false] at hf
      rcases hf with rfl | rfl | rfl | rfl <;> decide

/-- On a well-formed simple command `parseexec` builds the exec node under its
redirections, or stops with the `MAXARGS` error. -/
theorem parseexec_simple (F : Fcntl) (buf : List Char) (pre : List RedirSrc)
    (args : List ArgSrc) (fuel s : Nat) (next : List Char)
    (h : buf.drop s = (Src.simple pre args).render ++ next)
    (hwf : (Src.simple pre args).wf next) (hf : follow ['|', ')', '&', ';'] next)
    (hfuel : 4 * (buf.length - s) + 2 ≤ fuel) :
    Agrees buf (parseexec F buf buf.length fuel s) ((Src.simple pre args).ast F)
      (s + (Src.simple pre args).render.length) := by
  obtain ⟨hpre, hargs⟩ := hwf
  have h' : buf.drop s = renderRedirs pre ++ (renderArgs args ++ next) := by
    simpa [Src.render] using h
  have hn : nows (renderRedirs pre ++ (renderArgs args ++ next)) :=
    nows_renderRedirs pre (nows_renderArgs args hargs (nows_follow hf))
  obtain ⟨fuel, rfl⟩ : ∃ f, fuel = f + 1 := ⟨fuel - 1, by omega⟩
  have hp : peek buf buf.length s ['('] = (s, false) := by
    cases hx : renderRedirs pre ++ (renderArgs args ++ next) with
    | nil => rw [hx] at h'; exact peek_nil _ h'
    | cons c r =>
      rw [hx] at h' hn
      rw [peek_cons _ h' hn]
      have := head_simple pre args hargs hf hx
      simp [strchr, this]
  obtain ⟨t0, ht0, hw0⟩ := parseredirs_ok F buf pre fuel execcmd s _ h' hpre
    (nows_renderArgs args hargs (nows_follow hf)) (noredir_renderArgs args hargs hf) (by omega)
  have hd := drop_add_of_append h'
  have key := parseargs_ok F buf args fuel t0 (List.replicate MAXARGS none)
    (List.replicate MAXARGS none) [] pre (s + (renderRedirs pre).length) next hd hargs hf hw0
    (by simp only [ArgsPre]; rfl) (List.length_replicate _ _) (by decide) (by omega)
  rw [parseexec]
  simp only [hp, Bool.false_eq_true, if_false, ht0]
  have e1 : s + (renderRedirs pre).length + (renderArgs args).length =
      s + (Src.simple pre args).render.length := by
    simp only [Src.render, List.length_append]; omega
  rw [e1] at key
  simpa [Src.ast] using key

theorem agrees_error {buf : List Char} {r : Except Err (cmd × Nat)} {e : Err} {s : Nat}
    (h : Agrees buf r (.error e) s) : r = .error e := h

theorem agrees_ok {buf : List Char} {r : Except Err (cmd × Nat)} {a : Cmd} {s : Nat}
    (h : Agrees buf r (.ok a) s) : ∃ t, r = .ok (t, s) ∧ Rep buf t a := h

theorem drop_at {buf : List Char} {s n : Nat} {x r : List Char}
    (h : buf.drop s = x ++ r) (hn : n = s + x.length) : buf.drop n = r := by
  subst hn; exact drop_add_of_append h

/-- On a parenthesised group `parseexec` returns the tree of the inner line
under the redirections that follow the group. -/
theorem parseexec_block (F : Fcntl) (buf : List Char) (ws1 : List Char) (body : Src)
    (ws2 : List Char) (redirs : List RedirSrc) (fuel s : Nat) (next : List Char)
    (ih : ∀ (s : Nat) (next : List Char), buf.drop s = body.render ++ next → body.wf next →
      ∀ fuel, follow [')'] next → 4 * (buf.length - s) + 4 ≤ fuel →
        Agrees buf (parseline F buf buf.length fuel s) (body.ast F) (s + body.render.length))
    (h : buf.drop s = (Src.block ws1 body ws2 redirs).render ++ next)
    (hwf : (Src.block ws1 body ws2 redirs).wf next) (hf : follow ['|', ')', '&', ';'] next)
    (hfuel : 4 * (buf.length - s) + 2 ≤ fuel) :
    Agrees buf (parseexec F buf buf.length fuel s) ((Src.block ws1 body ws2 redirs).ast F)
      (s + (Src.block ws1 body ws2 redirs).render.length) := by
  obtain ⟨hws1, hws2, hbody, hrok⟩ := hwf
  have h' : buf.drop s =
      '(' :: (ws1 ++ (body.render ++ (')' :: (ws2 ++ (renderRedirs redirs ++ next))))) := by
    simpa [Src.render] using h
  have hnb : nows (body.render ++ (')' :: (ws2 ++ (renderRedirs redirs ++ next)))) :=
    nows_render body _ hbody (show strchr whitespace ')' = false by decide)
  have hp : peek buf buf.length s ['('] = (s, true) := by
    rw [peek_cons _ h' (by decide)]; exact congrArg _ (by decide)
  have ht := gettoken_op h' (by simp) hws1 hnb
  have hl := length_drop_eq h'
  simp only [List.length_cons, List.length_append] at hl
  obtain ⟨fuel, rfl⟩ : ∃ f, fuel = f + 2 := ⟨fuel - 2, by omega⟩
  have hd1 : buf.drop (s + 1 + ws1.length) =
      body.render ++ (')' :: (ws2 ++ (renderRedirs redirs ++ next))) := by
    exact drop_at (x := '(' :: ws1) (by simpa using h') (by simp only [List.length_cons]; omega)
  have hline := ih (s + 1 + ws1.length) _ hd1 hbody fuel (by simp [follow]) (by omega)
  have hlen : s + (Src.block ws1 body ws2 redirs).render.length =
      s + 1 + ws1.length + body.render.length + 1 + ws2.length + (renderRedirs redirs).length := by
    simp only [Src.render, List.length_cons, List.length_append]; omega
  rw [parseexec]
  simp only [hp, if_true]
  rw [parseblock]
  simp only [hp, ht, Bool.not_true, Bool.false_eq_true, if_false]
  cases hast : body.ast F with
  | error e =>
    rw [hast] at hline
    rw [agrees_error hline]
    simp [Agrees, Src.ast, hast]
  | ok a =>
    rw [hast] at hline
    obtain ⟨c, hc, hrep⟩ := agrees_ok hline
    rw [hc]
    have hd2 := drop_add_of_append hd1
    have hp2 : peek buf buf.length (s + 1 + ws1.length + body.render.length) [')'] =
        (s + 1 + ws1.length + body.render.length, true) := by
      rw [peek_cons _ hd2 (by decide)]; exact congrArg _ (by decide)
    have ht2 := gettoken_op hd2 (by simp) hws2 (nows_renderRedirs redirs (nows_follow hf))
    have hd3 : buf.drop (s + 1 + ws1.length + body.render.length + 1 + ws2.length) =
        renderRedirs redirs ++ next := by
      exact drop_at (x := ')' :: ws2) (by simpa using hd2)
        (by simp only [List.length_cons]; omega)
    obtain ⟨t, ht3, hw⟩ := parseredirs_ok F buf redirs fuel c _ next hd3 hrok (nows_follow hf)
      (noredir_follow hf) (by omega)
    simp only [hp2, ht2, Bool.not_true, Bool.false_eq_true, if_false, ht3, hlen]
    simp only [Src.ast, hast]
    exact ⟨t, rfl, rep_wraps F buf redirs _ _ _ hrep hw⟩

theorem parsepipe_pipe (F : Fcntl) (buf : List Char) (l : Src) (ws : List Char) (r : Src)
    (fuel s : Nat) (next : List Char)
    (ihl : ∀ (s : Nat) (next : List Char), buf.drop s = l.render ++ next → l.wf next →
      l.level = 0 → ∀ fuel, follow ['|', ')', '&', ';'] next → 4 * (buf.length - s) + 2 ≤ fuel →
        Agrees buf (parseexec F buf buf.length fuel s) (l.ast F) (s + l.render.length))
    (ihr : ∀ (s : Nat) (next : List Char), buf.drop s = r.render ++ next → r.wf next →
      r.level ≤ 1 → ∀ fuel, follow [')', '&', ';'] next → 4 * (buf.length - s) + 3 ≤ fuel →
        Agrees buf (parsepipe F buf buf.length fuel s) (r.ast F) (s + r.render.length))
    (h : buf.drop s = (Src.pipe l ws r).render ++ next) (hwf : (Src.pipe l ws r).wf next)
    (hf : follow [')', '&', ';'] next) (hfuel : 4 * (buf.length - s) + 3 ≤ fuel) :
    Agrees buf (parsepipe F buf buf.length fuel s) ((Src.pipe l ws r).ast F)
      (s + (Src.pipe l ws r).render.length) := by
  obtain ⟨hl0, hr1, hws, hlwf, hrwf⟩ := hwf
  have h' : buf.drop s = l.render ++ ('|' :: (ws ++ (r.render ++ next))) := by
    simpa [Src.render] using h
  have hl := length_drop_eq h'
  simp only [List.length_cons, List.length_append] at hl
  obtain ⟨fuel, rfl⟩ : ∃ f, fuel = f + 1 := ⟨fuel - 1, by omega⟩
  have hexec := ihl s _ h' hlwf hl0 fuel (by simp [follow]) (by omega)
  have hlen : s + (Src.pipe l ws r).render.length =
      s + l.render.length + 1 + ws.length + r.render.length := by
    simp only [Src.render, List.length_cons, List.length_append]; omega
  rw [parsepipe]
  cases hastl : l.ast F with
  | error e =>
    rw [hastl] at hexec
    rw [agrees_error hexec]
    simp [Agrees, Src.ast, hastl]
  | ok a =>
    rw [hastl] at hexec
    obtain ⟨c, hc, hrepl⟩ := agrees_ok hexec
    rw [hc]
    have hd1 := drop_add_of_append h'
    have hp : peek buf buf.length (s + l.render.length) ['|'] = (s + l.render.length, true) := by
      rw [peek_cons _ hd1 (by decide)]; exact congrArg _ (by decide)
    have hn : nows (r.render ++ next) :=
      nows_render r next hrwf (nows_follow (follow_mono (by decide) hf))
    have ht := gettoken_op hd1 (by simp) hws hn
    have hd2 : buf.drop (s + l.render.length + 1 + ws.length) = r.render ++ next :=
      drop_at (x := '|' :: ws) (by simpa using hd1) (by simp only [List.length_cons]; omega)
    have hpipe := ihr _ next hd2 hrwf hr1 fuel hf (by omega)
    simp only [hp, ht, if_true]
    cases hastr : r.ast F with
    | error e =>
      rw [hastr] at hpipe
      rw [agrees_error hpipe]
      simp [Agrees, Src.ast, hastl, hastr]
    | ok b =>
      rw [hastr] at hpipe
      obtain ⟨c2, hc2, hrepr⟩ := agrees_ok hpipe
      rw [hc2, hlen]
      simp only [Src.ast, hastl, hastr]
      exact ⟨_, rfl, Rep.pipe hrepl hrepr⟩

theorem parsefront_back (F : Fcntl) (buf : List Char) (c : Src) (amps : List (List Char))
    (fuel s : Nat) (next : List Char)
    (ih : ∀ (s : Nat) (next : List Char), buf.drop s = c.render ++ next → c.wf next →
      c.level ≤ 1 → ∀ fuel, follow [')', '&', ';'] next → 4 * (buf.length - s) + 3 ≤ fuel →
        Agrees buf (parsepipe F buf buf.length fuel s) (c.ast F) (s + c.render.length))
    (h : buf.drop s = (Src.back c amps).render ++ next) (hwf : (Src.back c amps).wf next)
    (hf : follow [')', ';'] next) (hfuel : 4 * (buf.length - s) + 3 ≤ fuel) :
    Agrees buf (parsefront F buf buf.length fuel s) ((Src.back c amps).ast F)
      (s + (Src.back c amps).render.length) := by
  obtain ⟨hc1, hamps, hcwf⟩ := hwf
  have h' : buf.drop s = c.render ++ (renderAmps amps ++ next) := by
    simpa [Src.render] using h
  have hfa : follow [')', '&', ';'] (renderAmps amps ++ next) := by
    cases amps with
    | nil => exact follow_mono (by decide) hf
    | cons w r => simp [renderAmps, follow]
  have hpipe := ih s _ h' hcwf hc1 fuel hfa hfuel
  have hlen : s + (Src.back c amps).render.length =
      s + c.render.length + (renderAmps amps).length := by
    simp only [Src.render, List.length_append]; omega
  rw [parsefront]
  cases hast : c.ast F with
  | error e =>
    rw [hast] at hpipe
    rw [agrees_error hpipe]
    simp [Agrees, Src.ast, hast]
  | ok a =>
    rw [hast] at hpipe
    obtain ⟨t, ht, hrep⟩ := agrees_ok hpipe
    rw [ht]
    obtain ⟨t2, ht2, hrep2⟩ := parseback_ok buf amps fuel t _ next (drop_add_of_append h') hamps
      hf (by omega)
    simp only [ht2, hlen, Src.ast, hast]
    exact ⟨_, rfl, hrep2 a hrep⟩

theorem parseline_seq (F : Fcntl) (buf : List Char) (l : Src) (ws : List Char) (r : Src)
    (fuel s : Nat) (next : List Char)
    (ihl : ∀ (s : Nat) (next : List Char), buf.drop s = l.render ++ next → l.wf next →
      l.level ≤ 2 → ∀ fuel, follow [')', ';'] next → 4 * (buf.length - s) + 3 ≤ fuel →
        Agrees buf (parsefront F buf buf.length fuel s) (l.ast F) (s + l.render.length))
    (ihr : ∀ (s : Nat) (next : List Char), buf.drop s = r.render ++ next → r.wf next →
      ∀ fuel, follow [')'] next → 4 * (buf.length - s) + 4 ≤ fuel →
        Agrees buf (parseline F buf buf.length fuel s) (r.ast F) (s + r.render.length))
    (h : buf.drop s = (Src.seq l ws r).render ++ next) (hwf : (Src.seq l ws r).wf next)
    (hf : follow [')'] next) (hfuel : 4 * (buf.length - s) + 4 ≤ fuel) :
    Agrees buf (parseline F buf buf.length fuel s) ((Src.seq l ws r).ast F)
      (s + (Src.seq l ws r).render.length) := by
  obtain ⟨hl2, hws, hlwf, hrwf⟩ := hwf
  have h' : buf.drop s = l.render ++ (';' :: (ws ++ (r.render ++ next))) := by
    simpa [Src.render] using h
  have hl := length_drop_eq h'
  simp only [List.length_cons, List.length_append] at hl
  obtain ⟨fuel, rfl⟩ : ∃ f, fuel = f + 1 := ⟨fuel - 1, by omega⟩
  have hfront := ihl s _ h' hlwf hl2 fuel (by simp [follow]) (by omega)
  have hlen : s + (Src.seq l ws r).render.length =
      s + l.render.length + 1 + ws.length + r.render.length := by
    simp only [Src.render, List.length_cons, List.length_append]; omega
  rw [parseline_succ]
  cases hastl : l.ast F with
  | error e =>
    rw [hastl] at hfront
    rw [agrees_error hfront]
    simp [Agrees, Src.ast, hastl]
  | ok a =>
    rw [hastl] at hfront
    obtain ⟨c, hc, hrepl⟩ := agrees_ok hfront
    rw [hc]
    have hd1 := drop_add_of_append h'
    have hp : peek buf buf.length (s + l.render.length) [';'] = (s + l.render.length, true) := by
      rw [peek_cons _ hd1 (by decide)]; exact congrArg _ (by decide)
    have hn : nows (r.render ++ next) :=
      nows_render r next hrwf (nows_follow (follow_mono (by decide) hf))
    have ht := gettoken_op hd1 (by simp) hws hn
    have hd2 : buf.drop (s + l.render.length + 1 + ws.length) = r.render ++ next :=
      drop_at (x := ';' :: ws) (by simpa using hd1) (by simp only [List.length_cons]; omega)
    have hline := ihr _ next hd2 hrwf fuel hf (by omega)
    simp only [hp, ht, if_true]
    cases hastr : r.ast F with
    | error e =>
      rw [hastr] at hline
      rw [agrees_error hline]
      simp [Agrees, Src.ast, hastl, hastr]
    | ok b =>
      rw [hastr] at hline
      obtain ⟨c2, hc2, hrepr⟩ := agrees_ok hline
      rw [hc2, hlen]
      simp only [Src.ast, hastl, hastr]
      exact ⟨_, rfl, Rep.list hrepl hrepr⟩

/-- The parsing functions on a line written out from its structure: each
returns the tree the grammar assigns to the line, with the cursor behind it,
or the `MAXARGS` error. -/
theorem parse_render (F : Fcntl) (buf : List Char) (src : Src) :
    ∀ (s : Nat) (next : List Char), buf.drop s = src.render ++ next → src.wf next →
      (src.level = 0 → ∀ fuel, follow ['|', ')', '&', ';'] next →
        4 * (buf.length - s) + 2 ≤ fuel →
        Agrees buf (parseexec F buf buf.length fuel s) (src.ast F) (s + src.render.length)) ∧
      (src.level ≤ 1 → ∀ fuel, follow [')', '&', ';'] next →
        4 * (buf.length - s) + 3 ≤ fuel →
        Agrees buf (parsepipe F buf buf.length fuel s) (src.ast F) (s + src.render.length)) ∧
      (src.level ≤ 2 → ∀ fuel, follow [')', ';'] next →
        4 * (buf.length - s) + 3 ≤ fuel →
        Agrees buf (parsefront F buf buf.length fuel s) (src.ast F) (s + src.render.length)) ∧
      (∀ fuel, follow [')'] next → 4 * (buf.length - s) + 4 ≤ fuel →
        Agrees buf (parseline F buf buf.length fuel s) (src.ast F) (s + src.render.length)) := by
  induction src with
  | simple pre args =>
    intro s next h hwf
    have hd := drop_add_of_append h
    have hE := fun fuel hf hfuel => parseexec_simple F buf pre args fuel s next h hwf hf hfuel
    have hP := lift_exec hd hE
    have hFr := lift_pipe hd hP
    exact ⟨fun _ => hE, fun _ => hP, fun _ => hFr, lift_front hd hFr⟩
  | block ws1 body ws2 redirs ih =>
    intro s next h hwf
    have hd := drop_add_of_append h
    have hE := fun fuel hf hfuel => parseexec_block F buf ws1 body ws2 redirs fuel s next
      (fun s next h hwf => (ih s next h hwf).2.2.2) h hwf hf hfuel
    have hP := lift_exec hd hE
    have hFr := lift_pipe hd hP
    exact ⟨fun _ => hE, fun _ => hP, fun _ => hFr, lift_front hd hFr⟩
  | pipe l ws r ihl ihr =>
    intro s next h hwf
    have hd := drop_add_of_append h
    have hP := fun fuel hf hfuel => parsepipe_pipe F buf l ws r fuel s next
      (fun s next h hwf => (ihl s next h hwf).1) (fun s next h hwf => (ihr s next h hwf).2.1)
      h hwf hf hfuel
    have hFr := lift_pipe hd hP
    exact ⟨fun h0 => absurd h0 (by simp [Src.level]), fun _ => hP, fun _ => hFr,
      lift_front hd hFr⟩
  | back c amps ih =>
    intro s next h hwf
    have hd := drop_add_of_append h
    have hFr := fun fuel hf hfuel => parsefront_back F buf c amps fuel s next
      (fun s next h hwf => (ih s next h hwf).2.1) h hwf hf hfuel
    exact ⟨fun h0 => absurd h0 (by simp [Src.level]), fun h0 => absurd h0 (by simp [Src.level]),
      fun _ => hFr, lift_front hd hFr⟩
  | seq l ws r ihl ihr =>
    intro s next h hwf
    exact ⟨fun h0 => absurd h0 (by simp [Src.level]), fun h0 => absurd h0 (by simp [Src.level]),
      fun h0 => absurd h0 (by simp [Src.level]),
      fun fuel hf hfuel => parseline_seq F buf l ws r fuel s next
        (fun s next h hwf => (ihl s next h hwf).2.2.1) (fun s next h hwf => (ihr s next h hwf).2.2.2)
        h hwf hf hfuel⟩

/-! ## The finalize step -/

theorem deref_set (b : List Char) (e i : Nat) :
    deref (b.set e NUL) i = if i = e then NUL else deref b i := by
  simp only [deref, List.getD_eq_getElem?_getD, List.getElem?_set]
  by_cases h : e = i
  · subst h
    by_cases hl : e < b.length
    · simp [hl]
    · simp [hl, List.getElem?_eq_none (Nat.le_of_not_lt hl)]
  · have h' : ¬ i = e := fun hh => h hh.symm
    simp [h, h']

theorem nulled_refl (buf : List Char) : Nulled buf buf := fun _ => Or.inl rfl

theorem nulled_set {buf b : List Char} {e : Nat} (h : Nulled buf b)
    (he : ¬ wordchar (deref buf e)) : Nulled buf (b.set e NUL) := by
  intro i
  rw [deref_set]
  by_cases hi : i = e
  · subst hi; rw [if_pos rfl]; exact Or.inr ⟨rfl, he⟩
  · rw [if_neg hi]; exact h i

theorem keepsnul_refl (b : List Char) : KeepsNul b b := fun _ h => h

theorem keepsnul_trans {b b1 b2 : List Char} (h1 : KeepsNul b b1) (h2 : KeepsNul b1 b2) :
    KeepsNul b b2 := fun e h => h2 e (h1 e h)

theorem keepsnul_set (b : List Char) (e : Nat) : KeepsNul b (b.set e NUL) := by
  intro i hi
  rw [deref_set]
  split
  · rfl
  · exact hi

theorem deref_set_self (b : List Char) (e : Nat) : deref (b.set e NUL) e = NUL := by
  rw [deref_set]; simp

theorem deref_of_drop {buf : List Char} {q : Nat} {w rest : List Char}
    (h : buf.drop q = w ++ rest) (i : Nat) (hi : i < w.length) :
    deref buf (q + i) = w[i] := by
  have : (buf.drop q)[i]? = some w[i] := by
    rw [h, List.getElem?_append_left hi, List.getElem?_eq_getElem hi]
  rw [List.getElem?_drop] at this
  simp [deref, List.getD_eq_getElem?_getD, this]

theorem span_end {buf : List Char} {q eq : Nat} {w : List Char} (h : Span buf q eq w) :
    ¬ wordchar (deref buf eq) := by
  obtain ⟨_, heq, rest, hd, he⟩ := h
  subst heq
  have hd2 := drop_add_of_append hd
  cases rest with
  | nil =>
    rw [(drop_nil_info hd2).2]
    exact fun hh => hh.1 rfl
  | cons c r =>
    rw [(drop_cons_info hd2).2.1]
    intro hh
    rcases (he : strchr whitespace c = true ∨ strchr symbols c = true) with h1 | h1
    · rw [hh.2.1] at h1; cases h1
    · rw [hh.2.2] at h1; cases h1

theorem cstr_eq (b : List Char) (w : List Char) :
    ∀ q, (∀ i (hi : i < w.length), deref b (q + i) = w[i]) → (∀ c ∈ w, c ≠ NUL) →
      deref b (q + w.length) = NUL → cstr b q = w := by
  induction w with
  | nil =>
    intro q _ _ h0
    simp only [List.length_nil, Nat.add_zero] at h0
    simp only [cstr]
    cases hd : b.drop q with
    | nil => rfl
    | cons c r =>
      have := (drop_cons_info hd).2.1
      rw [h0] at this
      subst this
      simp
  | cons c w ih =>
    intro q hget hne h0
    have hc : deref b q = c := by simpa using hget 0 (by simp)
    have hcn : c ≠ NUL := hne c (List.mem_cons_self _ _)
    cases hd : b.drop q with
    | nil =>
      have := (drop_nil_info hd).2
      rw [hc] at this
      exact absurd this hcn
    | cons d r =>
      have hinfo := drop_cons_info hd
      have hdc : d = c := by rw [← hinfo.2.1, hc]
      subst hdc
      have hrec := ih (q + 1)
        (fun i hi => by
          have := hget (i + 1) (by simpa using hi)
          simpa [Nat.add_assoc, Nat.add_comm 1] using this)
        (fun x hx => hne x (List.mem_cons_of_mem _ hx))
        (by simpa [Nat.add_assoc, Nat.add_comm 1] using h0)
      simp only [cstr] at hrec ⊢
      rw [hd, List.takeWhile_cons_of_pos (by simpa using hcn), ← hinfo.2.2, hrec]

theorem cstr_span {buf b : List Char} {q eq : Nat} {w : List Char} (hg : Nulled buf b)
    (hs : Span buf q eq w) (h0 : deref b eq = NUL) : cstr b q = w := by
  obtain ⟨hw, heq, rest, hd, _⟩ := hs
  subst heq
  refine cstr_eq b w q ?_ (fun c hc => (hw.2 c hc).1) h0
  intro i hi
  have hb := deref_of_drop hd i hi
  rcases hg (q + i) with h1 | h1
  · rw [h1, hb]
  · rw [hb] at h1
    exact absurd (hw.2 _ (List.getElem_mem _)) h1.2

theorem nulargv_ok (buf : List Char) (ws : List (List Char)) :
    ∀ (argv eargv : List (Option Nat)) (b : List Char), ArgsRep buf argv eargv ws →
      Nulled buf b →
      ∃ b1, nulargv argv eargv b = .ok b1 ∧ Nulled buf b1 ∧ KeepsNul b b1 ∧
        ∀ b2, Nulled buf b2 → KeepsNul b1 b2 → argstrs b2 argv = ws := by
  induction ws with
  | nil =>
    intro argv eargv b hrep hg
    match argv, eargv, hrep with
    | none :: argv, eargv, _ =>
      exact ⟨b, by simp [nulargv], hg, keepsnul_refl b, fun b2 _ _ => by simp [argstrs]⟩
    | some _ :: _, _, h => simp [ArgsRep] at h
    | [], _, h => simp [ArgsRep] at h
  | cons w ws ih =>
    intro argv eargv b hrep hg
    match argv, eargv, hrep with
    | none :: _, _, h => simp [ArgsRep] at h
    | [], _, h => simp [ArgsRep] at h
    | some _ :: _, none :: _, h => simp [ArgsRep] at h
    | some _ :: _, [], h => simp [ArgsRep] at h
    | some q :: argv, some e :: eargv, hrep =>
      obtain ⟨hspan, hrest⟩ := hrep
      obtain ⟨b1, h1, hg1, hk1, hv1⟩ := ih argv eargv (b.set e NUL) hrest
        (nulled_set hg (span_end hspan))
      refine ⟨b1, by simpa [nulargv] using h1, hg1,
        keepsnul_trans (keepsnul_set b e) hk1, ?_⟩
      intro b2 hg2 hk2
      have h0 : deref b2 e = NUL := hk2 e (hk1 e (deref_set_self b e))
      simp only [argstrs]
      rw [cstr_span hg2 hspan h0, hv1 b2 hg2 hk2]

/-- The finalize step on a tree that stands for `a`: it runs without a fault,
and in the buffer it leaves, and in any buffer with still more words
terminated, the tree reads as `a`. -/
theorem nulterminate_ok (buf : List Char) (t : cmd) :
    ∀ (a : Cmd) (b : List Char), Rep buf t a → Nulled buf b →
      ∃ b1, nulterminate t b = .ok b1 ∧ Nulled buf b1 ∧ KeepsNul b b1 ∧
        ∀ b2, Nulled buf b2 → KeepsNul b1 b2 → view b2 t = a := by
  induction t with
  | execcmd argv eargv =>
    intro a b hrep hg
    cases hrep with
    | exec hargs =>
      obtain ⟨b1, h1, hg1, hk1, hv1⟩ := nulargv_ok buf _ argv eargv b hargs hg
      exact ⟨b1, by simpa [nulterminate] using h1, hg1, hk1,
        fun b2 hg2 hk2 => by simp [view, hv1 b2 hg2 hk2]⟩
  | redircmd c file efile mode fd ih =>
    intro a b hrep hg
    cases hrep with
    | redir hc hspan =>
      obtain ⟨b1, h1, hg1, hk1, hv1⟩ := ih _ b hc hg
      refine ⟨b1.set efile NUL, by simp [nulterminate, h1], nulled_set hg1 (span_end hspan),
        keepsnul_trans hk1 (keepsnul_set b1 efile), ?_⟩
      intro b2 hg2 hk2
      have h0 : deref b2 efile = NUL := hk2 efile (deref_set_self b1 efile)
      simp only [view]
      rw [cstr_span hg2 hspan h0, hv1 b2 hg2 (keepsnul_trans (keepsnul_set b1 efile) hk2)]
  | pipecmd l r ihl ihr =>
    intro a b hrep hg
    cases hrep with
    | pipe hl hr =>
      obtain ⟨b1, h1, hg1, hk1, hv1⟩ := ihl _ b hl hg
      obtain ⟨b2, h2, hg2, hk2, hv2⟩ := ihr _ b1 hr hg1
      refine ⟨b2, by simp [nulterminate, h1, h2], hg2, keepsnul_trans hk1 hk2, ?_⟩
      intro b3 hg3 hk3
      simp only [view]
      rw [hv1 b3 hg3 (keepsnul_trans hk2 hk3), hv2 b3 hg3 hk3]
  | listcmd l r ihl ihr =>
    intro a b hrep hg
    cases hrep with
    | list hl hr =>
      obtain ⟨b1, h1, hg1, hk1, hv1⟩ := ihl _ b hl hg
      obtain ⟨b2, h2, hg2, hk2, hv2⟩ := ihr _ b1 hr hg1
      refine ⟨b2, by simp [nulterminate, h1, h2], hg2, keepsnul_trans hk1 hk2, ?_⟩
      intro b3 hg3 hk3
      simp only [view]
      rw [hv1 b3 hg3 (keepsnul_trans hk2 hk3), hv2 b3 hg3 hk3]
  | backcmd c ih =>
    intro a b hrep hg
    cases hrep with
    | back hc =>
      obtain ⟨b1, h1, hg1, hk1, hv1⟩ := ih _ b hc hg
      exact ⟨b1, by simp [nulterminate, h1], hg1, hk1,
        fun b2 hg2 hk2 => by simp only [view]; rw [hv1 b2 hg2 hk2]⟩

/-! ## Lines without NUL -/

theorem allws_ne_nul {ws : List Char} (h : allws ws) : ∀ c ∈ ws, c ≠ NUL := by
  intro c hc hn
  have := h c hc
  rw [hn] at this
  exact absurd this (by decide)

theorem isword_ne_nul {w : List Char} (h : isword w) : ∀ c ∈ w, c ≠ NUL :=
  fun c hc => (h.2 c hc).1

theorem renderRedirs_ne_nul (rs : List RedirSrc) :
    ∀ next, RedirsOK rs next → ∀ c ∈ renderRedirs rs, c ≠ NUL := by
  induction rs with
  | nil => intro _ _ c hc; simp [renderRedirs] at hc
  | cons r rs ih =>
    intro next hok c hc
    obtain ⟨h1, hf, h2, _, hrest⟩ := hok
    simp only [renderRedirs, RedirSrc.render, List.mem_append] at hc
    rcases hc with (hc | hc | hc | hc) | hc
    · cases hop : r.op <;> rw [hop] at hc <;> simp [RedirOp.text] at hc <;> subst hc <;> decide
    · exact allws_ne_nul h1 c hc
    · exact isword_ne_nul hf c hc
    · exact allws_ne_nul h2 c hc
    · exact ih next hrest c hc

theorem renderArgs_ne_nul (args : List ArgSrc) :
    ∀ next, ArgsOK args next → ∀ c ∈ renderArgs args, c ≠ NUL := by
  induction args with
  | nil => intro _ _ c hc; simp [renderArgs] at hc
  | cons a as ih =>
    intro next hok c hc
    obtain ⟨hw, hws, _, hr, hrest⟩ := hok
    simp only [renderArgs, ArgSrc.render, List.mem_append] at hc
    rcases hc with (hc | hc | hc) | hc
    · exact isword_ne_nul hw c hc
    · exact allws_ne_nul hws c hc
    · exact renderRedirs_ne_nul _ _ hr c hc
    · exact ih next hrest c hc

theorem renderAmps_ne_nul (amps : List (List Char)) (h : ∀ ws ∈ amps, allws ws) :
    ∀ c ∈ renderAmps amps, c ≠ NUL := by
  induction amps with
  | nil => intro c hc; simp [renderAmps] at hc
  | cons w amps ih =>
    intro c hc
    simp only [renderAmps, List.mem_cons, List.mem_append] at hc
    rcases hc with hc | hc | hc
    · subst hc; decide
    · exact allws_ne_nul (h w (List.mem_cons_self _ _)) c hc
    · exact ih (fun x hx => h x (List.mem_cons_of_mem _ hx)) c hc

theorem render_ne_nul (src : Src) : ∀ next, src.wf next → ∀ c ∈ src.render, c ≠ NUL := by
  induction src with
  | simple pre args =>
    intro next hwf c hc
    simp only [Src.render, List.mem_append] at hc
    rcases hc with hc | hc
    · exact renderRedirs_ne_nul _ _ hwf.1 c hc
    · exact renderArgs_ne_nul _ _ hwf.2 c hc
  | block ws1 body ws2 redirs ih =>
    intro next hwf c hc
    obtain ⟨h1, h2, hb, hr⟩ := hwf
    simp only [Src.render, List.mem_cons, List.mem_append] at hc
    rcases hc with hc | hc | hc | hc | hc | hc
    · subst hc; decide
    · exact allws_ne_nul h1 c hc
    · exact ih _ hb c hc
    · subst hc; decide
    · exact allws_ne_nul h2 c hc
    · exact renderRedirs_ne_nul _ _ hr c hc
  | pipe l ws r ihl ihr =>
    intro next hwf c hc
    obtain ⟨_, _, hws, hl, hr⟩ := hwf
    simp only [Src.render, List.mem_cons, List.mem_append] at hc
    rcases hc with hc | hc | hc | hc
    · exact ihl _ hl c hc
    · subst hc; decide
    · exact allws_ne_nul hws c hc
    · exact ihr _ hr c hc
  | back c0 amps ih =>
    intro next hwf c hc
    obtain ⟨_, ha, hc0⟩ := hwf
    simp only [Src.render, List.mem_append] at hc
    rcases hc with hc | hc
    · exact ih _ hc0 c hc
    · exact renderAmps_ne_nul amps ha c hc
  | seq l ws r ihl ihr =>
    intro next hwf c hc
    obtain ⟨_, hws, hl, hr⟩ := hwf
    simp only [Src.render, List.mem_cons, List.mem_append] at hc
    rcases hc with hc | hc | hc | hc
    · exact ihl _ hl c hc
    · subst hc; decide
    · exact allws_ne_nul hws c hc
    · exact ihr _ hr c hc

theorem strlen_eq_length {buf : List Char} (h : ∀ c ∈ buf, c ≠ NUL) : strlen buf = buf.length := by
  unfold strlen
  congr 1
  rw [List.takeWhile_eq_self_iff]
  intro c hc
  simpa using h c hc

/-! ## Whole lines -/

theorem peek_lead {buf : List Char} {s : Nat} {lead rest : List Char} (toks : List Char)
    (h : buf.drop s = lead ++ rest) (hl : allws lead) (hr : nows rest) :
    peek buf buf.length s toks = peek buf buf.length (s + lead.length) toks := by
  simp only [peek, skipws_eq h hl hr, skipws_id (drop_add_of_append h) hr]

theorem parseexec_lead (F : Fcntl) {buf : List Char} {s : Nat} {lead rest : List Char}
    (h : buf.drop s = lead ++ rest) (hl : allws lead) (hr : nows rest) (fuel : Nat) :
    parseexec F buf buf.length fuel s = parseexec F buf buf.length fuel (s + lead.length) := by
  cases fuel with
  | zero => simp [parseexec]
  | succ n => rw [parseexec, parseexec, peek_lead _ h hl hr]

theorem parsepipe_lead (F : Fcntl) {buf : List Char} {s : Nat} {lead rest : List Char}
    (h : buf.drop s = lead ++ rest) (hl : allws lead) (hr : nows rest) (fuel : Nat) :
    parsepipe F buf buf.length fuel s = parsepipe F buf buf.length fuel (s + lead.length) := by
  cases fuel with
  | zero => simp [parsepipe]
  | succ n => rw [parsepipe, parsepipe, parseexec_lead F h hl hr]

theorem parseline_lead (F : Fcntl) {buf : List Char} {s : Nat} {lead rest : List Char}
    (h : buf.drop s = lead ++ rest) (hl : allws lead) (hr : nows rest) (fuel : Nat) :
    parseline F buf buf.length fuel s = parseline F buf buf.length fuel (s + lead.length) := by
  cases fuel with
  | zero => simp [parseline]
  | succ n => rw [parseline, parseline, parsepipe_lead F h hl hr]

/-- Parsing a line written out from its structure, after any leading
whitespace, when the grammar assigns the tree `a` to it: `parsecmd` returns a
tree that stands for `a` and that reads as `a` after the finalize step. -/
theorem parsecmd_render (F : Fcntl) (lead : List Char) (src : Src)
    (hl : allws lead) (hwf : src.wf []) :
    (∀ a, src.ast F = .ok a → ∃ t b1, parsecmd F (lead ++ src.render) = .ok (t, b1) ∧
        Rep (lead ++ src.render) t a ∧ view b1 t = a) ∧
    (∀ err, src.ast F = .error err → parsecmd F (lead ++ src.render) = .error err) := by
  have hnn : ∀ c ∈ lead ++ src.render, c ≠ NUL := by
    intro c hc
    rcases List.mem_append.1 hc with hc | hc
    · exact allws_ne_nul hl c hc
    · exact render_ne_nul src [] hwf c hc
  have hlen := strlen_eq_length hnn
  generalize hb : lead ++ src.render = buf at hlen
  have h0 : buf.drop 0 = lead ++ (src.render ++ []) := by simp [← hb]
  have hn : nows (src.render ++ []) := nows_render src [] hwf trivial
  have hd : buf.drop (0 + lead.length) = src.render ++ [] := drop_add_of_append h0
  have key := (parse_render F buf src (0 + lead.length) [] hd hwf).2.2.2 (4 * buf.length + 4)
    trivial (by omega)
  have hend : 0 + lead.length + src.render.length = buf.length := by
    rw [← hb, List.length_append]; omega
  rw [hend, ← parseline_lead F h0 hl hn] at key
  unfold parsecmd
  simp only [hlen]
  constructor
  · intro a hast
    rw [hast] at key
    obtain ⟨t, ht, hrep⟩ := agrees_ok key
    have hp : peek buf buf.length buf.length [] = (buf.length, false) :=
      peek_nil _ (List.drop_length buf)
    obtain ⟨b1, h1, hg1, _, hv⟩ := nulterminate_ok buf t a buf hrep (nulled_refl buf)
    refine ⟨t, b1, ?_, hrep, hv b1 hg1 (keepsnul_refl b1)⟩
    rw [ht]
    simp only [hp, ne_eq, not_true_eq_false, if_false, h1]
  · intro err hast
    rw [hast] at key
    rw [agrees_error key]

/-- The same, for the tree as the executor reads it. -/
theorem parsecmdView_render (F : Fcntl) (lead : List Char) (src : Src) (hl : allws lead)
    (hwf : src.wf []) : parsecmdView F (lead ++ src.render) = src.ast F := by
  have key := parsecmd_render F lead src hl hwf
  unfold parsecmdView
  cases hast : src.ast F with
  | error err => rw [key.2 err hast]
  | ok a =>
    obtain ⟨t, b1, h1, _, hv⟩ := key.1 a hast
    rw [h1]
    simp only [hv]

/-! ## Lines in context -/

theorem wordend_head {x next next1 : List Char} (h : wordend next → wordend next1)
    (hx : wordend (x ++ next)) : wordend (x ++ next1) := by
  cases x with
  | nil => exact h hx
  | cons c r => exact hx

theorem redirsOK_mono (rs : List RedirSrc) :
    ∀ next next1, (∀ x, wordend (x ++ next) → wordend (x ++ next1)) →
      RedirsOK rs next → RedirsOK rs next1 := by
  induction rs with
  | nil => intro _ _ _ _; trivial
  | cons r rs ih =>
    intro next next1 hP h
    obtain ⟨h1, hf, h2, he, hr⟩ := h
    refine ⟨h1, hf, h2, ?_, ih next next1 hP hr⟩
    have := hP (r.ws2 ++ renderRedirs rs) (by simpa [List.append_assoc] using he)
    simpa [List.append_assoc] using this

theorem argsOK_mono (args : List ArgSrc) :
    ∀ next next1, (∀ x, wordend (x ++ next) → wordend (x ++ next1)) →
      ArgsOK args next → ArgsOK args next1 := by
  induction args with
  | nil => intro _ _ _ _; trivial
  | cons a as ih =>
    intro next next1 hP h
    obtain ⟨hw, hws, he, hr, hrest⟩ := h
    refine ⟨hw, hws, ?_, ?_, ih next next1 hP hrest⟩
    · have := hP (a.ws ++ (renderRedirs a.redirs ++ renderArgs as))
        (by simpa [List.append_assoc] using he)
      simpa [List.append_assoc] using this
    · refine redirsOK_mono a.redirs _ _ ?_ hr
      intro x hx
      have := hP (x ++ renderArgs as) (by simpa [List.append_assoc] using hx)
      simpa [List.append_assoc] using this

theorem wordend_cons_mono (c : Char) (a b : List Char) :
    ∀ x, wordend (x ++ c :: a) → wordend (x ++ c :: b) := by
  intro x hx
  cases x with
  | nil => exact hx
  | cons d r => exact hx

/-- Well-formedness looks at what follows the line only to see that its last
word ends. -/
theorem wf_mono (src : Src) :
    ∀ next next1, (∀ x, wordend (x ++ next) → wordend (x ++ next1)) →
      src.wf next → src.wf next1 := by
  induction src with
  | simple pre args =>
    intro next next1 hP h
    refine ⟨redirsOK_mono pre _ _ ?_ h.1, argsOK_mono args _ _ hP h.2⟩
    intro x hx
    have := hP (x ++ renderArgs args) (by simpa [List.append_assoc] using hx)
    simpa [List.append_assoc] using this
  | block ws1 body ws2 redirs ih =>
    intro next next1 hP h
    obtain ⟨h1, h2, hb, hr⟩ := h
    exact ⟨h1, h2, ih _ _ (wordend_cons_mono _ _ _) hb, redirsOK_mono redirs _ _ hP hr⟩
  | pipe l ws r ihl ihr =>
    intro next next1 hP h
    obtain ⟨h1, h2, hws, hl, hr⟩ := h
    exact ⟨h1, h2, hws, ihl _ _ (wordend_cons_mono _ _ _) hl, ihr _ _ hP hr⟩
  | back c amps ih =>
    intro next next1 hP h
    obtain ⟨h1, ha, hc⟩ := h
    refine ⟨h1, ha, ih _ _ ?_ hc⟩
    intro x hx
    have := hP (x ++ renderAmps amps) (by simpa [List.append_assoc] using hx)
    simpa [List.append_assoc] using this
  | seq l ws r ihl ihr =>
    intro next next1 hP h
    obtain ⟨h1, hws, hl, hr⟩ := h
    exact ⟨h1, hws, ihl _ _ (wordend_cons_mono _ _ _) hl, ihr _ _ hP hr⟩

theorem wf_of_wf_nil {src : Src} {next : List Char} (h : src.wf []) (hn : wordend next) :
    src.wf next := by
  refine wf_mono src [] next ?_ h
  intro x hx
  cases x with
  | nil => exact hn
  | cons d r => simpa using hx

/-! ## Words and trailing redirections -/

theorem wordend_ws {ws rest : List Char} (h : allws ws) (hne : ws ≠ []) :
    wordend (ws ++ rest) := by
  obtain ⟨c, r, rfl⟩ := List.exists_cons_of_ne_nil hne
  exact Or.inl (h c (List.mem_cons_self _ _))

theorem withRedirs_render (ws : List (List Char × List Char)) (rs : List RedirSrc)
    (hne : ws ≠ []) : renderArgs (withRedirs ws rs) = wordsLine ws ++ renderRedirs rs := by
  induction ws with
  | nil => exact absurd rfl hne
  | cons p rest ih =>
    cases rest with
    | nil => simp [withRedirs, renderArgs, ArgSrc.render, wordsLine]
    | cons q rest =>
      have := ih (by simp)
      simp only [withRedirs, renderArgs, ArgSrc.render, wordsLine, renderRedirs,
        List.nil_append, List.append_assoc] at this ⊢
      rw [this]

theorem withRedirs_nil_render (ws : List (List Char × List Char)) :
    renderArgs (withRedirs ws []) = wordsLine ws := by
  cases ws with
  | nil => rfl
  | cons p rest => simpa [renderRedirs] using withRedirs_render (p :: rest) [] (by simp)

theorem withRedirs_words (ws : List (List Char × List Char)) (rs : List RedirSrc) :
    (withRedirs ws rs).map ArgSrc.word = ws.map Prod.fst := by
  induction ws with
  | nil => rfl
  | cons p rest ih =>
    cases rest with
    | nil => simp [withRedirs]
    | cons q rest => simpa [withRedirs] using ih

theorem withRedirs_length (ws : List (List Char × List Char)) (rs : List RedirSrc) :
    (withRedirs ws rs).length = ws.length := by
  have := congrArg List.length (withRedirs_words ws rs)
  simpa using this

theorem withRedirs_redirs (ws : List (List Char × List Char)) (rs : List RedirSrc)
    (hne : ws ≠ []) : argRedirs (withRedirs ws rs) = rs := by
  induction ws with
  | nil => exact absurd rfl hne
  | cons p rest ih =>
    cases rest with
    | nil => simp [withRedirs, argRedirs]
    | cons q rest => simpa [withRedirs, argRedirs] using ih (by simp)

theorem withRedirs_ok (ws : List (List Char × List Char)) (rs : List RedirSrc)
    (next : List Char) (hs : Separated ws) (hr : RedirsOK rs next)
    (hn : wordend (renderRedirs rs ++ next)) : ArgsOK (withRedirs ws rs) next := by
  induction ws with
  | nil => trivial
  | cons p rest ih =>
    cases rest with
    | nil =>
      obtain ⟨hw, hg⟩ := hs
      refine ⟨hw, hg, ?_, by simpa [renderArgs] using hr, trivial⟩
      simp only [renderArgs, List.nil_append]
      cases hp : p.2 with
      | nil => simpa using hn
      | cons c r =>
        rw [hp] at hg
        exact Or.inl (hg c (List.mem_cons_self _ _))
    | cons q rest =>
      obtain ⟨hw, hg, hne, hrest⟩ := hs
      exact ⟨hw, hg, wordend_ws hg hne, trivial, ih hrest⟩

/-! ## The claims -/

theorem argsrep_null (buf : List Char) (ws : List (List Char)) :
    ∀ argv eargv, ArgsRep buf argv eargv ws → argv[ws.length]? = some none := by
  induction ws with
  | nil =>
    intro argv eargv h
    match argv, eargv, h with
    | none :: _, _, _ => simp
    | some _ :: _, _, h => simp [ArgsRep] at h
    | [], _, h => simp [ArgsRep] at h
  | cons w ws ih =>
    intro argv eargv h
    match argv, eargv, h with
    | none :: _, _, h => simp [ArgsRep] at h
    | [], _, h => simp [ArgsRep] at h
    | some _ :: _, none :: _, h => simp [ArgsRep] at h
    | some _ :: _, [], h => simp [ArgsRep] at h
    | some q :: argv, some e :: eargv, h => simpa using ih argv eargv h.2

theorem words_src (ws : List (List Char × List Char)) (hs : Separated ws) :
    (Src.simple [] (withRedirs ws [])).wf [] ∧
      (Src.simple [] (withRedirs ws [])).render = wordsLine ws := by
  refine ⟨⟨trivial, withRedirs_ok ws [] [] hs trivial trivial⟩, ?_⟩
  simp [Src.render, renderRedirs, withRedirs_nil_render]

theorem words_ast (F : Fcntl) (ws : List (List Char × List Char)) (h : ws.length < MAXARGS) :
    (Src.simple [] (withRedirs ws [])).ast F = .ok (.Exec (ws.map Prod.fst)) := by
  have hr : argRedirs (withRedirs ws []) = [] := by
    cases ws with
    | nil => rfl
    | cons p rest => exact withRedirs_redirs (p :: rest) [] (by simp)
  simp [Src.ast, withRedirs_length, h, withRedirs_words, hr, wrapRedirs]

/-- C1: for every list of 1 to 9 words, each non-empty and free of whitespace,
operator characters and NUL, the line made of the words with a non-empty run of
whitespace between two words, and any run of whitespace (in particular nothing,
or one newline) after the last, is parsed by `parsecmd` into a single exec node;
after the finalize step its `argv` reads as exactly those words, in order, and
the entry after them is null. -/
theorem words_parse_to_exec (F : Fcntl) (ws : List (List Char × List Char))
    (hs : Separated ws) (h1 : 1 ≤ ws.length) (h9 : ws.length ≤ 9) :
    ∃ argv eargv b, parsecmd F (wordsLine ws) = .ok (.execcmd argv eargv, b) ∧
      argstrs b argv = ws.map Prod.fst ∧ argv[ws.length]? = some none := by
  obtain ⟨hwf, hrender⟩ := words_src ws hs
  have hast := words_ast F ws (show ws.length < MAXARGS by unfold MAXARGS; omega)
  obtain ⟨t, b, hp, hrep, hv⟩ := (parsecmd_render F [] _ (by intro c hc; cases hc) hwf).1 _ hast
  rw [List.nil_append, hrender] at hp hrep
  cases hrep with
  | exec hargs =>
    refine ⟨_, _, b, hp, ?_, ?_⟩
    · simpa [view] using hv
    · simpa using argsrep_null _ _ _ _ hargs

theorem words_parse_to_exec_witness :
    ∃ argv eargv b, parsecmd xv6Fcntl "a b c\n".toList = .ok (.execcmd argv eargv, b) ∧
      argstrs b argv = ["a".toList, "b".toList, "c".toList] ∧ argv[3]? = some none :=
  words_parse_to_exec xv6Fcntl
    [("a".toList, " ".toList), ("b".toList, " ".toList), ("c".toList, "\n".toList)]
    (by decide) (by decide) (by decide)

theorem ast_of_view {F : Fcntl} {src : Src} {a : Cmd} (hwf : src.wf [])
    (h : parsecmdView F src.render = .ok a) : src.ast F = .ok a := by
  have := parsecmdView_render F [] src (by intro c hc; cases hc) hwf
  rw [List.nil_append] at this
  rw [← this, h]

theorem view_of_src (F : Fcntl) (src : Src) (hwf : src.wf []) :
    parsecmdView F src.render = src.ast F := by
  have := parsecmdView_render F [] src (by intro c hc; cases hc) hwf
  rwa [List.nil_append] at this

theorem wrapBack_iterate (amps : List (List Char)) :
    ∀ c, wrapBack c amps = Nat.iterate Cmd.Background amps.length c := by
  induction amps with
  | nil => intro c; rfl
  | cons g amps ih => intro c; simp [wrapBack, ih, Function.iterate_succ]

/-- C2: for every line `A | B` with `A` a simple command made of at most 9
words and `B` a pipeline, `parsecmd` returns the `Pipe` node whose left side is
the exec tree of `A` and whose right side is the tree `parsecmd` builds for `B`;
so `a | b | c` nests to the right and `echo hi | cat` parses to
`Pipe (Exec [echo, hi]) (Exec [cat])`. -/
theorem pipe_parse (F : Fcntl) (ws : List (List Char × List Char)) (g : List Char) (B : Src)
    (b : Cmd) (hs : Separated ws) (h9 : ws.length ≤ 9) (hg : allws g) (hB : B.wf [])
    (hlev : B.level ≤ 1) (hb : parsecmdView F B.render = .ok b) :
    parsecmdView F (wordsLine ws) = .ok (.Exec (ws.map Prod.fst)) ∧
    parsecmdView F (wordsLine ws ++ '|' :: (g ++ B.render)) =
      .ok (.Pipe (.Exec (ws.map Prod.fst)) b) ∧
    parsecmdView xv6Fcntl "a | b | c".toList =
      .ok (.Pipe (.Exec ["a".toList]) (.Pipe (.Exec ["b".toList]) (.Exec ["c".toList]))) ∧
    parsecmdView xv6Fcntl "echo hi | cat".toList =
      .ok (.Pipe (.Exec ["echo".toList, "hi".toList]) (.Exec ["cat".toList])) := by
  have h10 : ws.length < MAXARGS := by unfold MAXARGS; omega
  refine ⟨?_, ?_, by decide!, by decide!⟩
  · obtain ⟨hwf, hrender⟩ := words_src ws hs
    rw [← hrender, view_of_src F _ hwf, words_ast F ws h10]
  · have hwf : (Src.pipe (Src.simple [] (withRedirs ws [])) g B).wf [] :=
      ⟨rfl, hlev, hg, ⟨trivial, withRedirs_ok ws [] _ hs trivial (Or.inr (by decide))⟩, hB⟩
    have hrender : (Src.pipe (Src.simple [] (withRedirs ws [])) g B).render =
        wordsLine ws ++ '|' :: (g ++ B.render) := by
      simp [Src.render, renderRedirs, withRedirs_nil_render]
    rw [← hrender, view_of_src F _ hwf]
    have e : (Src.pipe (Src.simple [] (withRedirs ws [])) g B).ast F =
        (match (Src.simple [] (withRedirs ws [])).ast F with
        | Except.error e => Except.error e
        | Except.ok a =>
          match B.ast F with
          | Except.error e => Except.error e
          | Except.ok b => Except.ok (Cmd.Pipe a b)) := rfl
    rw [e, words_ast F ws h10, ast_of_view hB hb]

theorem pipe_parse_witness :
    parsecmdView xv6Fcntl "echo hi |cat\n".toList =
      .ok (.Pipe (.Exec ["echo".toList, "hi".toList]) (.Exec ["cat".toList])) :=
  (pipe_parse xv6Fcntl [("echo".toList, " ".toList), ("hi".toList, " ".toList)] []
    (Src.simple [] [⟨"cat".toList, "\n".toList, []⟩]) (.Exec ["cat".toList])
    (by decide) (by decide) (by decide) (by decide) (by decide) (by decide!)).2.1

/-- C3: for every line `P ; L` with `P` a pipeline and `L` a line (empty or
not), `parsecmd` returns the `Sequence` node whose left side is the tree it
builds for `P` and whose right side is the tree it builds for `L`; so
`a ; b ; c` nests to the right and `false ; echo done` parses to
`Sequence (Exec [false]) (Exec [echo, done])`. -/
theorem seq_parse (F : Fcntl) (P L : Src) (g : List Char) (p l : Cmd) (hP : P.wf [])
    (hlev : P.level ≤ 1) (hL : L.wf []) (hg : allws g)
    (hp : parsecmdView F P.render = .ok p) (hl : parsecmdView F L.render = .ok l) :
    parsecmdView F (P.render ++ ';' :: (g ++ L.render)) = .ok (.Sequence p l) ∧
    parsecmdView xv6Fcntl "a ; b ; c".toList =
      .ok (.Sequence (.Exec ["a".toList])
        (.Sequence (.Exec ["b".toList]) (.Exec ["c".toList]))) ∧
    parsecmdView xv6Fcntl "false ; echo done".toList =
      .ok (.Sequence (.Exec ["false".toList]) (.Exec ["echo".toList, "done".toList])) := by
  refine ⟨?_, by decide!, by decide!⟩
  have hwf : (Src.seq P g L).wf [] :=
    ⟨by omega, hg, wf_of_wf_nil hP (Or.inr (by decide)), hL⟩
  have hrender : (Src.seq P g L).render = P.render ++ ';' :: (g ++ L.render) := rfl
  rw [← hrender, view_of_src F _ hwf]
  simp [Src.ast, ast_of_view hP hp, ast_of_view hL hl]

theorem seq_parse_witness :
    parsecmdView xv6Fcntl "a | b; c &".toList =
      .ok (.Sequence (.Pipe (.Exec ["a".toList]) (.Exec ["b".toList]))
        (.Background (.Exec ["c".toList]))) :=
  (seq_parse xv6Fcntl
    (Src.pipe (Src.simple [] [⟨"a".toList, " ".toList, []⟩]) " ".toList
      (Src.simple [] [⟨"b".toList, [], []⟩]))
    (Src.back (Src.simple [] [⟨"c".toList, " ".toList, []⟩]) [[]]) " ".toList
    (.Pipe (.Exec ["a".toList]) (.Exec ["b".toList])) (.Background (.Exec ["c".toList]))
    (by decide) (by decide) (by decide) (by decide) (by decide!) (by decide!)).1

/-- C4: for every pipeline `P` followed by `k ≥ 1` tokens `&` and nothing else,
`parsecmd` returns the tree it builds for `P` under exactly `k` nested
`Background` nodes; `sleep 100 &` parses to `Background (Exec [sleep, 100])`
and `cmd & &` to `Background (Background (Exec [cmd]))`. -/
theorem back_parse (F : Fcntl) (P : Src) (amps : List (List Char)) (p : Cmd) (hP : P.wf [])
    (hlev : P.level ≤ 1) (ha : ∀ g ∈ amps, allws g) (hk : 1 ≤ amps.length)
    (hp : parsecmdView F P.render = .ok p) :
    parsecmdView F (P.render ++ renderAmps amps) =
      .ok (Nat.iterate Cmd.Background amps.length p) ∧
    parsecmdView xv6Fcntl "sleep 100 &".toList =
      .ok (.Background (.Exec ["sleep".toList, "100".toList])) ∧
    parsecmdView xv6Fcntl "cmd & &".toList =
      .ok (.Background (.Background (.Exec ["cmd".toList]))) := by
  refine ⟨?_, by decide!, by decide!⟩
  have hwe : wordend (renderAmps amps ++ []) := by
    cases amps with
    | nil => trivial
    | cons g r => exact Or.inr (by decide)
  have hwf : (Src.back P amps).wf [] := ⟨hlev, ha, wf_of_wf_nil hP hwe⟩
  have hrender : (Src.back P amps).render = P.render ++ renderAmps amps := rfl
  rw [← hrender, view_of_src F _ hwf]
  simp [Src.ast, ast_of_view hP hp, wrapBack_iterate]

theorem back_parse_witness :
    parsecmdView xv6Fcntl "ls | wc & &\n".toList =
      .ok (.Background (.Background (.Pipe (.Exec ["ls".toList]) (.Exec ["wc".toList])))) :=
  (back_parse xv6Fcntl
    (Src.pipe (Src.simple [] [⟨"ls".toList, " ".toList, []⟩]) " ".toList
      (Src.simple [] [⟨"wc".toList, " ".toList, []⟩]))
    [" ".toList, "\n".toList] (.Pipe (.Exec ["ls".toList]) (.Exec ["wc".toList]))
    (by decide) (by decide) (by decide) (by decide) (by decide!)).1

theorem wordend_gap {g : List Char} (hg : allws g) : wordend (g ++ ([] ++ [])) := by
  cases g with
  | nil => trivial
  | cons c r => exact Or.inl (hg c (List.mem_cons_self _ _))

theorem redirsOK_one (op : RedirOp) {g1 P g2 : List Char} (hg1 : allws g1) (hP : isword P)
    (hg2 : allws g2) : RedirsOK [⟨op, g1, P, g2⟩] [] :=
  ⟨hg1, hP, hg2, wordend_gap hg2, trivial⟩

/-- A simple command of words followed by redirections. -/
theorem words_redirs_view (F : Fcntl) (ws : List (List Char × List Char))
    (rs : List RedirSrc) (hs : Separated ws) (hne : ws ≠ []) (h : ws.length < MAXARGS)
    (hr : RedirsOK rs []) :
    parsecmdView F (wordsLine ws ++ renderRedirs rs) =
      .ok (wrapRedirs F (.Exec (ws.map Prod.fst)) rs) := by
  have hwf : (Src.simple [] (withRedirs ws rs)).wf [] :=
    ⟨trivial, withRedirs_ok ws rs [] hs hr (wordend_renderRedirs rs trivial)⟩
  have hrender : (Src.simple [] (withRedirs ws rs)).render =
      wordsLine ws ++ renderRedirs rs := by
    simp [Src.render, renderRedirs, withRedirs_render ws rs hne]
  rw [← hrender, view_of_src F _ hwf]
  simp [Src.ast, withRedirs_length, h, withRedirs_words, withRedirs_redirs ws rs hne]

/-- C5: for every simple command of 1 to 9 words `W` and every word `P`,
`parsecmd` maps `W > P` to the redirection node over `Exec W` with path `P`,
mode `O_WRONLY|O_CREATE|O_TRUNC` and descriptor 1, and `W < P` to the one with
mode `O_RDONLY` and descriptor 0; the path read after the finalize step is the
text of `P`. -/
theorem redirect_parse (F : Fcntl) (ws : List (List Char × List Char)) (g1 P g2 : List Char)
    (hs : Separated ws) (h1 : 1 ≤ ws.length) (h9 : ws.length ≤ 9) (hg1 : allws g1)
    (hP : isword P) (hg2 : allws g2) :
    parsecmdView F (wordsLine ws ++ '>' :: (g1 ++ (P ++ g2))) =
      .ok (.Redirect (.Exec (ws.map Prod.fst)) P (F.O_WRONLY ||| F.O_CREATE ||| F.O_TRUNC) 1) ∧
    parsecmdView F (wordsLine ws ++ '<' :: (g1 ++ (P ++ g2))) =
      .ok (.Redirect (.Exec (ws.map Prod.fst)) P F.O_RDONLY 0) ∧
    parsecmdView xv6Fcntl "echo hi > /tmp/out".toList =
      .ok (.Redirect (.Exec ["echo".toList, "hi".toList]) "/tmp/out".toList 0x601 1) := by
  have hne : ws ≠ [] := by intro h; rw [h] at h1; simp at h1
  have h10 : ws.length < MAXARGS := by unfold MAXARGS; omega
  refine ⟨?_, ?_, by decide!⟩
  · have := words_redirs_view F ws [⟨.wr, g1, P, g2⟩] hs hne h10 (redirsOK_one _ hg1 hP hg2)
    simpa [renderRedirs, RedirSrc.render, RedirOp.text, wrapRedirs, RedirOp.mode, RedirOp.fd]
      using this
  · have := words_redirs_view F ws [⟨.rd, g1, P, g2⟩] hs hne h10 (redirsOK_one _ hg1 hP hg2)
    simpa [renderRedirs, RedirSrc.render, RedirOp.text, wrapRedirs, RedirOp.mode, RedirOp.fd]
      using this

theorem redirect_parse_witness :
    parsecmdView xv6Fcntl "wc -l< in.txt\n".toList =
      .ok (.Redirect (.Exec ["wc".toList, "-l".toList]) "in.txt".toList 0 0) :=
  (redirect_parse xv6Fcntl [("wc".toList, " ".toList), ("-l".toList, [])] " ".toList
    "in.txt".toList "\n".toList (by decide) (by decide) (by decide) (by decide) (by decide)
    (by decide)).2.1

/-- C6, as the code has it: the mode stored for `a >> f` is
`O_WRONLY|O_CREATE`, which holds no flag that requests appending. -/
theorem append_mode_no_append_flag :
    parsecmdView xv6Fcntl "a >> f".toList =
      .ok (.Redirect (.Exec ["a".toList]) "f".toList
        (xv6Fcntl.O_WRONLY ||| xv6Fcntl.O_CREATE) 1) ∧
    ¬ requestsAppend xv6Fcntl (xv6Fcntl.O_WRONLY ||| xv6Fcntl.O_CREATE) := by
  exact ⟨by decide!, by decide⟩

theorem lor_absorb (a b c : Nat) : (a ||| b) ||| (a ||| b ||| c) = a ||| b ||| c := by
  apply Nat.eq_of_testBit_eq
  intro i
  simp only [Nat.testBit_or]
  cases a.testBit i <;> cases b.testBit i <;> cases c.testBit i <;> rfl

/-- C6, amended: for every simple command of 1 to 9 words `W` and every word
`P`, in the line `W >> P` the operator is read as the one two-character token
`+`, and the line is parsed to the redirection node over `Exec W` with path
`P`, descriptor 1 and mode `O_WRONLY|O_CREATE`: the mode of `>` without
`O_TRUNC`, which holds no flag that requests appending.  With the constants of
the stock header it differs from the modes stored for `>` and for `<`. -/
theorem double_gt_parse (F : Fcntl) (ws : List (List Char × List Char))
    (g1 P g2 : List Char) (hs : Separated ws) (h1 : 1 ≤ ws.length) (h9 : ws.length ≤ 9)
    (hg1 : allws g1) (hP : isword P) (hg2 : allws g2) :
    gettoken (wordsLine ws ++ '>' :: '>' :: (g1 ++ (P ++ g2)))
        (wordsLine ws ++ '>' :: '>' :: (g1 ++ (P ++ g2))).length (wordsLine ws).length =
      ⟨'+', (wordsLine ws).length, (wordsLine ws).length + 2,
        (wordsLine ws).length + 2 + g1.length⟩ ∧
    parsecmdView F (wordsLine ws ++ '>' :: '>' :: (g1 ++ (P ++ g2))) =
      .ok (.Redirect (.Exec (ws.map Prod.fst)) P (F.O_WRONLY ||| F.O_CREATE) 1) ∧
    ¬ requestsAppend F (F.O_WRONLY ||| F.O_CREATE) ∧
    xv6Fcntl.O_WRONLY ||| xv6Fcntl.O_CREATE ≠
      xv6Fcntl.O_WRONLY ||| xv6Fcntl.O_CREATE ||| xv6Fcntl.O_TRUNC ∧
    xv6Fcntl.O_WRONLY ||| xv6Fcntl.O_CREATE ≠ xv6Fcntl.O_RDONLY := by
  have hne : ws ≠ [] := by intro h; rw [h] at h1; simp at h1
  have h10 : ws.length < MAXARGS := by unfold MAXARGS; omega
  refine ⟨?_, ?_, ?_, by decide, by decide⟩
  · have hd : (wordsLine ws ++ '>' :: '>' :: (g1 ++ (P ++ g2))).drop (wordsLine ws).length =
        '>' :: '>' :: (g1 ++ (P ++ g2)) := List.drop_left _ _
    exact gettoken_gtgt hd hg1 (nows_word hP g2)
  · have := words_redirs_view F ws [⟨.app, g1, P, g2⟩] hs hne h10 (redirsOK_one _ hg1 hP hg2)
    simpa [renderRedirs, RedirSrc.render, RedirOp.text, wrapRedirs, RedirOp.mode, RedirOp.fd]
      using this
  · unfold requestsAppend
    rw [lor_absorb]
    exact fun h => h rfl

theorem double_gt_parse_witness :
    parsecmdView xv6Fcntl "echo hi >> log".toList =
      .ok (.Redirect (.Exec ["echo".toList, "hi".toList]) "log".toList 0x201 1) :=
  (double_gt_parse xv6Fcntl [("echo".toList, " ".toList), ("hi".toList, " ".toList)]
    " ".toList "log".toList [] (by decide) (by decide) (by decide) (by decide) (by decide)
    (by decide)).2.1

theorem wrapRedirs_foldl (F : Fcntl) (rs : List RedirSrc) :
    ∀ c, wrapRedirs F c rs =
      rs.foldl (fun t r => Cmd.Redirect t r.file (r.op.mode F) r.op.fd) c := by
  induction rs with
  | nil => intro c; rfl
  | cons r rs ih => intro c; simp [wrapRedirs, ih]

/-- C7: for every simple command of at most 9 words with redirections before
the first word (`pre`) and after each word (`args`), in any number, `parsecmd`
returns the one exec node that holds all the words in textual order, under one
redirection node for each redirection, in textual order with the last one
outermost.  In particular `> out echo hi`, `echo > out hi` and `echo hi > out`
parse to the same tree. -/
theorem interleaved_redirs_parse (F : Fcntl) (pre : List RedirSrc) (args : List ArgSrc)
    (hwf : (Src.simple pre args).wf []) (h9 : args.length ≤ 9) :
    parsecmdView F (renderRedirs pre ++ renderArgs args) =
      .ok ((pre ++ argRedirs args).foldl
        (fun t r => Cmd.Redirect t r.file (r.op.mode F) r.op.fd)
        (.Exec (args.map ArgSrc.word))) ∧
    parsecmdView xv6Fcntl "> out echo hi".toList =
      .ok (.Redirect (.Exec ["echo".toList, "hi".toList]) "out".toList 0x601 1) ∧
    parsecmdView xv6Fcntl "echo > out hi".toList =
      .ok (.Redirect (.Exec ["echo".toList, "hi".toList]) "out".toList 0x601 1) ∧
    parsecmdView xv6Fcntl "echo hi > out".toList =
      .ok (.Redirect (.Exec ["echo".toList, "hi".toList]) "out".toList 0x601 1) := by
  refine ⟨?_, by decide!, by decide!, by decide!⟩
  have h10 : args.length < MAXARGS := by unfold MAXARGS; omega
  have hrender : (Src.simple pre args).render = renderRedirs pre ++ renderArgs args := rfl
  rw [← hrender, view_of_src F _ hwf, ← wrapRedirs_foldl]
  simp [Src.ast, h10]

theorem interleaved_redirs_parse_witness :
    parsecmdView xv6Fcntl "<in sort -r >out -u >> log\n".toList =
      .ok (.Redirect (.Redirect (.Redirect
        (.Exec ["sort".toList, "-r".toList, "-u".toList]) "in".toList 0 0)
        "out".toList 0x601 1) "log".toList 0x201 1) :=
  (interleaved_redirs_parse xv6Fcntl [⟨.rd, [], "in".toList, " ".toList⟩]
    [⟨"sort".toList, " ".toList, []⟩,
     ⟨"-r".toList, " ".toList, [⟨.wr, [], "out".toList, " ".toList⟩]⟩,
     ⟨"-u".toList, " ".toList, [⟨.app, " ".toList, "log".toList, "\n".toList⟩]⟩]
    (by decide) (by decide)).1

theorem ast_error_kind (F : Fcntl) (src : Src) :
    ∀ e, src.ast F = .error e → e = .panic "too many args" := by
  induction src with
  | simple pre args =>
    intro e h
    simp only [Src.ast] at h
    split at h
    · cases h
    · cases h; rfl
  | block ws1 body ws2 redirs ih =>
    intro e h
    simp only [Src.ast] at h
    cases hb : body.ast F with
    | error e1 => rw [hb] at h; cases h; exact ih _ hb
    | ok a => rw [hb] at h; cases h
  | pipe l ws r ihl ihr =>
    intro e h
    simp only [Src.ast] at h
    cases hl : l.ast F with
    | error e1 => rw [hl] at h; cases h; exact ihl _ hl
    | ok a =>
      rw [hl] at h
      cases hr : r.ast F with
      | error e1 => rw [hr] at h; cases h; exact ihr _ hr
      | ok b => rw [hr] at h; cases h
  | back c amps ih =>
    intro e h
    simp only [Src.ast] at h
    cases hc : c.ast F with
    | error e1 => rw [hc] at h; cases h; exact ih _ hc
    | ok a => rw [hc] at h; cases h
  | seq l ws r ihl ihr =>
    intro e h
    simp only [Src.ast] at h
    cases hl : l.ast F with
    | error e1 => rw [hl] at h; cases h; exact ihl _ hl
    | ok a =>
      rw [hl] at h
      cases hr : r.ast F with
      | error e1 => rw [hr] at h; cases h; exact ihr _ hr
      | ok b => rw [hr] at h; cases h

/-- A line with a simple command of more than `n ≥ MAXARGS - 1` words has no
tree. -/
theorem long_ast (F : Fcntl) (n : Nat) (hn : MAXARGS ≤ n + 1) (src : Src) :
    src.long n → src.ast F = .error (.panic "too many args") := by
  induction src with
  | simple pre args =>
    intro h
    have : ¬ args.length < MAXARGS := by
      have h' : n < args.length := h
      omega
    simp [Src.ast, this]
  | block ws1 body ws2 redirs ih =>
    intro h
    simp [Src.ast, ih h]
  | pipe l ws r ihl ihr =>
    intro h
    rcases h with h | h
    · simp [Src.ast, ihl h]
    · cases hl : l.ast F with
      | error e => rw [ast_error_kind F l e hl] at hl; simp [Src.ast, hl]
      | ok a => simp [Src.ast, hl, ihr h]
  | back c amps ih =>
    intro h
    simp [Src.ast, ih h]
  | seq l ws r ihl ihr =>
    intro h
    rcases h with h | h
    · simp [Src.ast, ihl h]
    · cases hl : l.ast F with
      | error e => rw [ast_error_kind F l e hl] at hl; simp [Src.ast, hl]
      | ok a => simp [Src.ast, hl, ihr h]

/-- C8: for every line generated by the grammar in which some simple command
has more than `MAXARGS = 10` words, `parsecmd` returns no tree: it ends in the
panic "too many args". -/
theorem long_command_panics (F : Fcntl) (src : Src) (hwf : src.wf [])
    (hlong : src.long MAXARGS) :
    MAXARGS = 10 ∧ parsecmd F src.render = .error (.panic "too many args") := by
  refine ⟨rfl, ?_⟩
  have := (parsecmd_render F [] src (by intro c hc; cases hc) hwf).2 _
    (long_ast F MAXARGS (by omega) src hlong)
  rwa [List.nil_append] at this

theorem long_command_panics_witness :
    parsecmd xv6Fcntl "ls | echo 1 2 3 4 5 6 7 8 9 10 > f ; pwd".toList =
      .error (.panic "too many args") :=
  (long_command_panics xv6Fcntl
    (Src.seq (Src.pipe (Src.simple [] [⟨"ls".toList, " ".toList, []⟩]) " ".toList
      (Src.simple [] [⟨"echo".toList, " ".toList, []⟩, ⟨"1".toList, " ".toList, []⟩,
        ⟨"2".toList, " ".toList, []⟩, ⟨"3".toList, " ".toList, []⟩,
        ⟨"4".toList, " ".toList, []⟩, ⟨"5".toList, " ".toList, []⟩,
        ⟨"6".toList, " ".toList, []⟩, ⟨"7".toList, " ".toList, []⟩,
        ⟨"8".toList, " ".toList, []⟩, ⟨"9".toList, " ".toList, []⟩,
        ⟨"10".toList, " ".toList, [⟨.wr, " ".toList, "f".toList, " ".toList⟩]⟩]))
      " ".toList (Src.simple [] [⟨"pwd".toList, [], []⟩]))
    (by decide) (by decide)).2

/-- C9, as the code has it: a simple command of exactly 10 words is refused
with the panic "too many args". -/
theorem ten_words_panic :
    parsecmd xv6Fcntl "a b c d e f g h i j".toList = .error (.panic "too many args") := by
  decide!

/-- C9, amended: an exec node holds up to `MAXARGS - 1 = 9` words and the null
entry after them: for every simple command of at most 9 words `parsecmd`
returns the exec node with those words in order, and for every simple command
of 10 words or more it ends in the panic "too many args". -/
theorem exec_capacity (F : Fcntl) (ws : List (List Char × List Char)) (hs : Separated ws) :
    (ws.length ≤ 9 → parsecmdView F (wordsLine ws) = .ok (.Exec (ws.map Prod.fst))) ∧
    (10 ≤ ws.length → parsecmd F (wordsLine ws) = .error (.panic "too many args")) := by
  obtain ⟨hwf, hrender⟩ := words_src ws hs
  constructor
  · intro h
    rw [← hrender, view_of_src F _ hwf, words_ast F ws (by unfold MAXARGS; omega)]
  · intro h
    have hl : (Src.simple [] (withRedirs ws [])).long 9 := by
      show 9 < (withRedirs ws []).length
      rw [withRedirs_length]; omega
    have := (parsecmd_render F [] _ (by intro c hc; cases hc) hwf).2 _
      (long_ast F 9 (by decide) _ hl)
    rwa [List.nil_append, hrender] at this

theorem exec_capacity_witness :
    parsecmdView xv6Fcntl "a b c d e f g h i".toList =
      .ok (.Exec ["a".toList, "b".toList, "c".toList, "d".toList, "e".toList, "f".toList,
        "g".toList, "h".toList, "i".toList]) :=
  (exec_capacity xv6Fcntl [("a".toList, " ".toList), ("b".toList, " ".toList),
    ("c".toList, " ".toList), ("d".toList, " ".toList), ("e".toList, " ".toList),
    ("f".toList, " ".toList), ("g".toList, " ".toList), ("h".toList, " ".toList),
    ("i".toList, [])] (by decide)).1 (by decide)

theorem backs_wrapRedirs (F : Fcntl) (rs : List RedirSrc) :
    ∀ c, (wrapRedirs F c rs).backs = c.backs := by
  induction rs with
  | nil => intro c; rfl
  | cons r rs ih => intro c; simp [wrapRedirs, ih, Cmd.backs]

theorem backs_wrapBack (amps : List (List Char)) :
    ∀ c, (wrapBack c amps).backs = c.backs + amps.length := by
  induction amps with
  | nil => intro c; rfl
  | cons g amps ih => intro c; simp [wrapBack, ih, Cmd.backs]; omega

theorem ast_backs (F : Fcntl) (src : Src) : ∀ a, src.ast F = .ok a → a.backs = src.amps := by
  induction src with
  | simple pre args =>
    intro a h
    simp only [Src.ast] at h
    split at h
    · cases h; simp [backs_wrapRedirs, Cmd.backs, Src.amps]
    · cases h
  | block ws1 body ws2 redirs ih =>
    intro a h
    simp only [Src.ast] at h
    cases hb : body.ast F with
    | error e1 => rw [hb] at h; cases h
    | ok b => rw [hb] at h; cases h; simp [backs_wrapRedirs, Src.amps, ih b hb]
  | pipe l ws r ihl ihr =>
    intro a h
    simp only [Src.ast] at h
    cases hl : l.ast F with
    | error e1 => rw [hl] at h; cases h
    | ok x =>
      rw [hl] at h
      cases hr : r.ast F with
      | error e1 => rw [hr] at h; cases h
      | ok y => rw [hr] at h; cases h; simp [Cmd.backs, Src.amps, ihl x hl, ihr y hr]
  | back c amps ih =>
    intro a h
    simp only [Src.ast] at h
    cases hc : c.ast F with
    | error e1 => rw [hc] at h; cases h
    | ok x => rw [hc] at h; cases h; simp [backs_wrapBack, Src.amps, ih x hc]
  | seq l ws r ihl ihr =>
    intro a h
    simp only [Src.ast] at h
    cases hl : l.ast F with
    | error e1 => rw [hl] at h; cases h
    | ok x =>
      rw [hl] at h
      cases hr : r.ast F with
      | error e1 => rw [hr] at h; cases h
      | ok y => rw [hr] at h; cases h; simp [Cmd.backs, Src.amps, ihl x hl, ihr y hr]

/-- C10, as the code has it: in the tree of `a & ; b` the `Background` node is
the left child of the `Sequence` node, and in the tree of `(a &) | b` it is the
left child of the `Pipe` node. -/
theorem background_below_root :
    parsecmdView xv6Fcntl "a & ; b".toList =
      .ok (.Sequence (.Background (.Exec ["a".toList])) (.Exec ["b".toList])) ∧
    ¬ (Cmd.Sequence (.Background (.Exec ["a".toList])) (.Exec ["b".toList])).backRootOnly ∧
    parsecmdView xv6Fcntl "(a &) | b".toList =
      .ok (.Pipe (.Background (.Exec ["a".toList])) (.Exec ["b".toList])) ∧
    ¬ (Cmd.Pipe (.Background (.Exec ["a".toList])) (.Exec ["b".toList])).backRootOnly := by
  exact ⟨by decide!, by decide, by decide!, by decide⟩

theorem unredirect_step : ∀ (n : Nat) (t c : Cmd) (p : List Char) (m f : Nat),
    t.unredirect n = some (.Redirect c p m f) → t.unredirect (n + 1) = some c := by
  intro n
  induction n with
  | zero =>
    intro t c p m f h
    simp only [Cmd.unredirect, Option.some.injEq] at h
    subst h
    rfl
  | succ n ih =>
    intro t c p m f h
    cases t with
    | Redirect t1 p1 m1 f1 =>
      simp only [Cmd.unredirect] at h ⊢
      exact ih t1 c p m f h
    | Exec _ => simp [Cmd.unredirect] at h
    | Pipe _ _ => simp [Cmd.unredirect] at h
    | Sequence _ _ => simp [Cmd.unredirect] at h
    | Background _ => simp [Cmd.unredirect] at h

theorem unredirect_wrapRedirs (F : Fcntl) (rs : List RedirSrc) :
    ∀ c, (wrapRedirs F c rs).unredirect rs.length = some c := by
  induction rs with
  | nil => intro c; rfl
  | cons r rs ih =>
    intro c
    simp only [wrapRedirs, List.length_cons]
    exact unredirect_step _ _ _ _ _ _ (ih _)

theorem isSimple_wrapRedirs (F : Fcntl) (rs : List RedirSrc) :
    ∀ c, c.isSimple → (wrapRedirs F c rs).isSimple := by
  induction rs with
  | nil => intro c h; exact h
  | cons r rs ih => intro c h; exact ih _ h

theorem unback_step : ∀ (n : Nat) (t c : Cmd),
    t.unback n = some (.Background c) → t.unback (n + 1) = some c := by
  intro n
  induction n with
  | zero =>
    intro t c h
    simp only [Cmd.unback, Option.some.injEq] at h
    subst h
    rfl
  | succ n ih =>
    intro t c h
    cases t with
    | Background t1 =>
      simp only [Cmd.unback] at h ⊢
      exact ih t1 c h
    | Exec _ => simp [Cmd.unback] at h
    | Pipe _ _ => simp [Cmd.unback] at h
    | Sequence _ _ => simp [Cmd.unback] at h
    | Redirect _ _ _ _ => simp [Cmd.unback] at h

theorem unback_wrapBack (amps : List (List Char)) :
    ∀ c, (wrapBack c amps).unback amps.length = some c := by
  induction amps with
  | nil => intro c; rfl
  | cons g amps ih =>
    intro c
    simp only [wrapBack, List.length_cons]
    exact unback_step _ _ _ (ih _)

/-- The tree the grammar assigns to a line has its nodes where the tokens of
the line stand. -/
theorem ast_placed (F : Fcntl) (src : Src) : ∀ a, src.ast F = .ok a → src.placed a := by
  induction src with
  | simple pre args =>
    intro a h
    simp only [Src.ast] at h
    split at h
    · cases h
      exact isSimple_wrapRedirs F _ _ trivial
    · cases h
  | block ws1 body ws2 redirs ih =>
    intro a h
    simp only [Src.ast] at h
    cases hb : body.ast F with
    | error e1 => rw [hb] at h; cases h
    | ok b =>
      rw [hb] at h
      cases h
      simp only [Src.placed, unredirect_wrapRedirs]
      exact ih b hb
  | pipe l ws r ihl ihr =>
    intro a h
    simp only [Src.ast] at h
    cases hl : l.ast F with
    | error e1 => rw [hl] at h; cases h
    | ok x =>
      rw [hl] at h
      cases hr : r.ast F with
      | error e1 => rw [hr] at h; cases h
      | ok y => rw [hr] at h; cases h; exact ⟨ihl x hl, ihr y hr⟩
  | back c amps ih =>
    intro a h
    simp only [Src.ast] at h
    cases hc : c.ast F with
    | error e1 => rw [hc] at h; cases h
    | ok x =>
      rw [hc] at h
      cases h
      simp only [Src.placed, unback_wrapBack]
      exact ih x hc
  | seq l ws r ihl ihr =>
    intro a h
    simp only [Src.ast] at h
    cases hl : l.ast F with
    | error e1 => rw [hl] at h; cases h
    | ok x =>
      rw [hl] at h
      cases hr : r.ast F with
      | error e1 => rw [hr] at h; cases h
      | ok y => rw [hr] at h; cases h; exact ⟨ihl x hl, ihr y hr⟩

/-- C10, amended: for every line generated by the grammar that `parsecmd`
accepts, each `Background` node of the returned tree stands where its `&` token
stands (`src.placed a`): a pipeline followed by `&` tokens, wherever it occurs
in the line, is the tree of that pipeline under one `Background` node for each
token, simple commands are `Exec` nodes under `Redirect` nodes, and `|`, `;`
and blocks give `Pipe`, `Sequence` and `Redirect` nodes over the trees of their
parts.  So the tree has exactly one `Background` node for each `&` token; a
line without `&` has a tree without `Background` nodes, and a pipeline without
`&` followed by one `&` has its only `Background` node at the root.  A tree
with the `Background` node of `a & ; b` moved to the root is not placed so. -/
theorem background_per_token (F : Fcntl) (src : Src) (a : Cmd) (hwf : src.wf [])
    (h : parsecmdView F src.render = .ok a) :
    src.placed a ∧ a.backs = src.amps ∧ (src.amps = 0 → a.backRootOnly) ∧
    (∀ P g, src = .back P [g] → P.amps = 0 → a.backRootOnly) ∧
    (∀ P amps, src = .back P amps →
      ∃ p, P.placed p ∧ a = Nat.iterate Cmd.Background amps.length p) ∧
    (∀ l ws r, src = .seq l ws r → ∃ x y, a = .Sequence x y ∧ l.placed x ∧ r.placed y) ∧
    (∀ l ws r, src = .pipe l ws r → ∃ x y, a = .Pipe x y ∧ l.placed x ∧ r.placed y) ∧
    ¬ (Src.seq (Src.back (Src.simple [] [⟨"a".toList, " ".toList, []⟩]) [" ".toList])
        " ".toList (Src.simple [] [⟨"b".toList, [], []⟩])).placed
      (.Background (.Sequence (.Exec ["a".toList]) (.Exec ["b".toList]))) := by
  have hast := ast_of_view hwf h
  have hb := ast_backs F src a hast
  refine ⟨ast_placed F src a hast, hb, ?_, ?_, ?_, ?_, ?_, by decide⟩
  · intro h0
    rw [h0] at hb
    cases a <;> simp [Cmd.backs] at hb <;> simp [Cmd.backRootOnly, Cmd.backs, hb]
  · intro P g hsrc hP
    subst hsrc
    simp only [Src.ast] at hast
    cases hp : P.ast F with
    | error e => rw [hp] at hast; cases hast
    | ok p =>
      rw [hp] at hast
      cases hast
      have := ast_backs F P p hp
      simp [wrapBack, Cmd.backRootOnly, this, hP]
  · intro P amps hsrc
    subst hsrc
    simp only [Src.ast] at hast
    cases hp : P.ast F with
    | error e => rw [hp] at hast; cases hast
    | ok p =>
      rw [hp] at hast
      cases hast
      exact ⟨p, ast_placed F P p hp, wrapBack_iterate amps p⟩
  · intro l ws r hsrc
    subst hsrc
    simp only [Src.ast] at hast
    cases hl : l.ast F with
    | error e => rw [hl] at hast; cases hast
    | ok x =>
      rw [hl] at hast
      cases hr : r.ast F with
      | error e => rw [hr] at hast; cases hast
      | ok y =>
        rw [hr] at hast
        cases hast
        exact ⟨x, y, rfl, ast_placed F l x hl, ast_placed F r y hr⟩
  · intro l ws r hsrc
    subst hsrc
    simp only [Src.ast] at hast
    cases hl : l.ast F with
    | error e => rw [hl] at hast; cases hast
    | ok x =>
      rw [hl] at hast
      cases hr : r.ast F with
      | error e => rw [hr] at hast; cases hast
      | ok y =>
        rw [hr] at hast
        cases hast
        exact ⟨x, y, rfl, ast_placed F l x hl, ast_placed F r y hr⟩

theorem background_per_token_witness :
    (Src.seq (Src.back (Src.simple [] [⟨"a".toList, " ".toList, []⟩]) [" ".toList])
      " ".toList
      (Src.pipe (Src.simple [] [⟨"b".toList, " ".toList, []⟩]) " ".toList
        (Src.block [] (Src.back (Src.simple [] [⟨"c".toList, [], []⟩]) [[]]) [] []))).placed
      (.Sequence (.Background (.Exec ["a".toList]))
        (.Pipe (.Exec ["b".toList]) (.Background (.Exec ["c".toList])))) ∧
    (Cmd.Sequence (.Background (.Exec ["a".toList]))
      (.Pipe (.Exec ["b".toList]) (.Background (.Exec ["c".toList])))).backs = 2 :=
  have h := background_per_token xv6Fcntl
    (Src.seq (Src.back (Src.simple [] [⟨"a".toList, " ".toList, []⟩]) [" ".toList])
      " ".toList
      (Src.pipe (Src.simple [] [⟨"b".toList, " ".toList, []⟩]) " ".toList
        (Src.block [] (Src.back (Src.simple [] [⟨"c".toList, [], []⟩]) [[]]) [] [])))
    (.Sequence (.Background (.Exec ["a".toList]))
      (.Pipe (.Exec ["b".toList]) (.Background (.Exec ["c".toList]))))
    (by decide) (by decide!)
  ⟨h.1, h.2.1⟩

/-! ## The job table -/

theorem shiftLoop_length (njobs : Nat) :
    ∀ n j jobs, (shiftLoop njobs n j jobs).length = jobs.length := by
  intro n
  induction n with
  | zero => intro j jobs; rfl
  | succ n ih =>
    intro j jobs
    simp only [shiftLoop]
    split
    · rw [ih]; simp
    · rfl

theorem shiftLoop_get (njobs : Nat) :
    ∀ n j (jobs : List Int) k, njobs ≤ jobs.length →
      (shiftLoop njobs n j jobs)[k]? =
        if j ≤ k ∧ k < j + n ∧ k < njobs - 1 then jobs[k + 1]? else jobs[k]? := by
  intro n
  induction n with
  | zero =>
    intro j jobs k _
    simp only [shiftLoop, Nat.add_zero]
    rw [if_neg (by omega)]
  | succ n ih =>
    intro j jobs k hl
    simp only [shiftLoop]
    by_cases hj : j < njobs - 1
    · simp only [hj, if_true]
      rw [ih (j + 1) _ k (by simpa using hl)]
      have hj1 : j + 1 < jobs.length := by omega
      have ha : jobs.getD (j + 1) 0 = jobs[j + 1] := by
        simp [List.getD_eq_getElem?_getD, List.getElem?_eq_getElem hj1]
      by_cases h1 : j + 1 ≤ k ∧ k < j + 1 + n ∧ k < njobs - 1
      · have h2 : j ≤ k ∧ k < j + (n + 1) ∧ k < njobs - 1 := by omega
        simp only [h1, h2, and_self, if_true]
        rw [List.getElem?_set]
        have : ¬ j = k + 1 := by omega
        simp [this]
      · simp only [h1, if_false]
        rw [List.getElem?_set]
        by_cases hk : j = k
        · subst hk
          have h2 : j ≤ j ∧ j < j + (n + 1) ∧ j < njobs - 1 := by omega
          have h3 : j < jobs.length := by omega
          simp [h2, h3, ha, List.getElem?_eq_getElem hj1]
        · have h2 : ¬ (j ≤ k ∧ k < j + (n + 1) ∧ k < njobs - 1) := by omega
          simp [hk, h2]
    · have h2 : ¬ (j ≤ k ∧ k < j + (n + 1) ∧ k < njobs - 1) := by omega
      simp [hj, h2]

theorem shiftLoop_entries (njobs i : Nat) (jobs : List Int) (hi : i < njobs)
    (hl : njobs ≤ jobs.length) :
    (shiftLoop njobs (njobs - i) i jobs).take (njobs - 1) =
      (jobs.take njobs).take i ++ (jobs.take njobs).drop (i + 1) := by
  apply List.ext_getElem?
  intro k
  rw [List.getElem?_take, shiftLoop_get njobs _ _ _ _ hl, List.getElem?_append]
  simp only [List.length_take, List.getElem?_take, List.getElem?_drop]
  by_cases hk : k < njobs - 1
  · by_cases hik : i ≤ k
    · have h1 : i ≤ k ∧ k < i + (njobs - i) ∧ k < njobs - 1 := by omega
      have h2 : ¬ k < min i (min njobs jobs.length) := by omega
      have h3 : i + 1 + (k - min i (min njobs jobs.length)) = k + 1 := by omega
      have h4 : k + 1 < njobs := by omega
      simp [hk, h1, h2, h3, h4]
    · have h1 : ¬ (i ≤ k ∧ k < i + (njobs - i) ∧ k < njobs - 1) := by omega
      have h2 : k < min i (min njobs jobs.length) := by omega
      have h4 : k < njobs := by omega
      have h5 : k < i := by omega
      simp [hk, h1, h2, h4, h5]
  · have h2 : ¬ k < min i (min njobs jobs.length) := by omega
    have h3 : ¬ i + 1 + (k - min i (min njobs jobs.length)) < njobs := by omega
    simp [hk, h2, h3]

theorem removeLoop_spec (pid : Int) :
    ∀ n i (t : JobTable), t.njobs ≤ t.jobs.length → t.njobs ≤ i + n →
      ((removeLoop pid n i t).entries = t.entries.take i ++ (t.entries.drop i).erase pid) ∧
      (pid ∈ t.entries.drop i → (removeLoop pid n i t).njobs + 1 = t.njobs) ∧
      (pid ∉ t.entries.drop i → removeLoop pid n i t = t) ∧
      (removeLoop pid n i t).jobs.length = t.jobs.length := by
  intro n
  induction n with
  | zero =>
    intro i t hl hn
    have hlen : t.entries.length ≤ i := by
      simp only [JobTable.entries, List.length_take]; omega
    simp [removeLoop, List.drop_eq_nil_of_le hlen, List.take_of_length_le hlen]
  | succ n ih =>
    intro i t hl hn
    simp only [removeLoop]
    by_cases hi : i < t.njobs
    · have hil : i < t.jobs.length := by omega
      have hie : i < t.entries.length := by
        simp only [JobTable.entries, List.length_take]; omega
      have hd : t.entries.drop i = t.jobs[i] :: t.entries.drop (i + 1) := by
        rw [List.drop_eq_getElem_cons hie]
        simp [JobTable.entries]
      have hg : t.jobs.getD i 0 = t.jobs[i] := by
        simp [List.getD_eq_getElem?_getD, List.getElem?_eq_getElem hil]
      simp only [hi, if_true, hg]
      by_cases hp : t.jobs[i] = pid
      · simp only [hp, if_true]
        refine ⟨?_, fun _ => (by show t.njobs - 1 + 1 = t.njobs; omega), ?_,
          by simp [shiftLoop_length]⟩
        · rw [hd, hp, List.erase_cons_head]
          simp only [JobTable.entries]
          exact shiftLoop_entries t.njobs i t.jobs hi hl
        · intro hnot
          rw [hd, hp] at hnot
          exact absurd (List.mem_cons_self _ _) hnot
      · simp only [hp, if_false]
        obtain ⟨h1, h2, h3, h4⟩ := ih (i + 1) t hl (by omega)
        have hne : ¬ (t.jobs[i] == pid) = true := by simpa using hp
        refine ⟨?_, ?_, ?_, h4⟩
        · rw [h1, hd, List.erase_cons_tail hne, List.take_succ,
            List.getElem?_eq_getElem hie]
          simp [JobTable.entries]
        · intro hm
          rw [hd] at hm
          rcases List.mem_cons.1 hm with hm | hm
          · exact absurd hm.symm hp
          · exact h2 hm
        · intro hm
          rw [hd] at hm
          exact h3 (fun h => hm (List.mem_cons_of_mem _ h))
    · have hlen : t.entries.length ≤ i := by
        simp only [JobTable.entries, List.length_take]; omega
      simp [hi, List.drop_eq_nil_of_le hlen, List.take_of_length_le hlen]

theorem remove_job_inv (pid : Int) (t : JobTable) (h : t.njobs ≤ t.jobs.length) :
    (remove_job pid t).jobs.length = t.jobs.length ∧ (remove_job pid t).njobs ≤ t.njobs := by
  obtain ⟨_, h2, h3, h4⟩ := removeLoop_spec pid t.njobs 0 t h (by omega)
  refine ⟨h4, ?_⟩
  by_cases hm : pid ∈ t.entries.drop 0
  · have := h2 hm
    unfold remove_job; omega
  · have := h3 hm
    unfold remove_job; rw [this]

theorem add_job_inv (NPROC : Nat) (pid : Int) (t : JobTable) (hN : t.jobs.length = NPROC)
    (h : t.njobs ≤ NPROC) :
    (add_job NPROC pid t).jobs.length = NPROC ∧ (add_job NPROC pid t).njobs ≤ NPROC := by
  unfold add_job
  split
  · exact ⟨by simpa using hN, by show t.njobs + 1 ≤ NPROC; omega⟩
  · exact ⟨hN, h⟩

theorem runOps_inv (NPROC : Nat) (ops : List JobOp) :
    ∀ t : JobTable, t.jobs.length = NPROC → t.njobs ≤ NPROC →
      (runOps NPROC ops t).jobs.length = NPROC ∧ (runOps NPROC ops t).njobs ≤ NPROC := by
  induction ops with
  | nil => intro t hN h; exact ⟨hN, h⟩
  | cons op ops ih =>
    intro t hN h
    cases op with
    | add pid =>
      obtain ⟨h1, h2⟩ := add_job_inv NPROC pid t hN h
      exact ih _ h1 h2
    | remove pid =>
      obtain ⟨h1, h2⟩ := remove_job_inv pid t (by omega)
      exact ih _ (by omega) (by omega)

/-- C12: for every job table with `njobs ≤ NPROC` and every pid: if the pid
occurs among the entries `jobs[0..njobs)`, `remove_job` deletes exactly its
first occurrence (the entries before it hold no such pid), lowers `njobs` by
exactly one and leaves the other entries in their order; if the pid does not
occur, the table is unchanged. -/
theorem remove_job_spec (NPROC : Nat) (t : JobTable) (pid : Int)
    (hN : t.jobs.length = NPROC) (h : t.njobs ≤ NPROC) :
    (pid ∈ t.entries →
      ∃ before after, t.entries = before ++ pid :: after ∧ pid ∉ before ∧
        (remove_job pid t).entries = before ++ after ∧
        (remove_job pid t).njobs + 1 = t.njobs) ∧
    (pid ∉ t.entries → remove_job pid t = t) := by
  obtain ⟨h1, h2, h3, _⟩ := removeLoop_spec pid t.njobs 0 t (by omega) (by omega)
  simp only [List.take_zero, List.drop_zero, List.nil_append] at h1 h2 h3
  constructor
  · intro hm
    obtain ⟨l1, l2, hn, he, her⟩ := List.exists_erase_eq hm
    exact ⟨l1, l2, he, hn, by rw [← her]; exact h1, h2 hm⟩
  · exact h3

theorem remove_job_spec_witness :
    ∃ before after, JobTable.entries ⟨[5, 7, 9, 7, 0, 0], 4⟩ = before ++ 7 :: after ∧
      7 ∉ before ∧ (remove_job 7 ⟨[5, 7, 9, 7, 0, 0], 4⟩).entries = before ++ after ∧
      (remove_job 7 ⟨[5, 7, 9, 7, 0, 0], 4⟩).njobs + 1 = 4 :=
  (remove_job_spec 6 ⟨[5, 7, 9, 7, 0, 0], 4⟩ 7 (by decide) (by decide)).1 (by decide)

/-- C13: for every job table and pid: when `njobs < NPROC`, `add_job` keeps the
entries, stores the pid as the new last entry and raises `njobs` by one; when
`njobs = NPROC` it changes nothing.  So `njobs ≤ NPROC` holds after every
sequence of `add_job` and `remove_job` calls on the empty table. -/
theorem add_job_spec (NPROC : Nat) (t : JobTable) (pid : Int)
    (hN : t.jobs.length = NPROC) :
    (t.njobs < NPROC → (add_job NPROC pid t).entries = t.entries ++ [pid] ∧
      (add_job NPROC pid t).njobs = t.njobs + 1) ∧
    (t.njobs = NPROC → add_job NPROC pid t = t) ∧
    (∀ ops, (runOps NPROC ops (emptyTable NPROC)).njobs ≤ NPROC) := by
  refine ⟨?_, ?_, ?_⟩
  · intro hlt
    have hl : t.njobs < t.jobs.length := by omega
    simp only [add_job, hlt, if_true, JobTable.entries, and_true]
    have ht : (t.jobs.set t.njobs pid).take t.njobs = t.jobs.take t.njobs := by
      apply List.ext_getElem?
      intro k
      rw [List.getElem?_take, List.getElem?_take]
      split
      · rw [List.getElem?_set_ne (by omega)]
      · rfl
    rw [List.take_succ, ht]
    simp [List.getElem?_set, hl]
  · intro he
    simp [add_job, he]
  · intro ops
    exact (runOps_inv NPROC ops (emptyTable NPROC) (by simp [emptyTable])
      (by simp [emptyTable])).2

theorem add_job_spec_witness :
    (add_job 3 8 ⟨[4, 6, 0], 2⟩).entries = [4, 6, 8] ∧
      add_job 3 9 ⟨[4, 6, 8], 3⟩ = ⟨[4, 6, 8], 3⟩ :=
  ⟨((add_job_spec 3 ⟨[4, 6, 0], 2⟩ 8 (by decide)).1 (by decide)).1,
    (add_job_spec 3 ⟨[4, 6, 8], 3⟩ 9 (by decide)).2.1 (by decide)⟩

/-! ## The executor -/

/-- C14: for every `Pipe` node, when `pipe` succeeds: the process in which both
forks succeed makes exactly one `pipe` call and two `fork` calls, closes both
pipe descriptors, waits twice and exits with status 0, and runs neither side;
the first child closes descriptor 1, duplicates the write end `p[1]` into it,
closes both pipe descriptors and goes on as `runcmd(left)`; the second child
closes descriptor 0, duplicates the read end `p[0]` into it, closes both pipe
descriptors and goes on as `runcmd(right)`. -/
theorem runcmd_pipe (l r : Cmd) (w : Nat → Int) (n : Nat) (hp : 0 ≤ w n) :
    (w (n + 3) ≠ -1 → w (n + 3) ≠ 0 → w (n + 4) ≠ -1 → w (n + 4) ≠ 0 →
      runcmd (.Pipe l r) w n =
        [.pipe (w n) (w (n + 1)) (w (n + 2)), .fork (w (n + 3)), .fork (w (n + 4)),
          .close (w (n + 1)), .close (w (n + 2)), .wait, .wait, .exit 0]) ∧
    (w (n + 3) = 0 →
      runcmd (.Pipe l r) w n =
        [.pipe (w n) (w (n + 1)) (w (n + 2)), .fork 0, .close 1, .dup (w (n + 2)),
          .close (w (n + 1)), .close (w (n + 2))] ++ runcmd l w (n + 4)) ∧
    (w (n + 3) ≠ -1 → w (n + 3) ≠ 0 → w (n + 4) = 0 →
      runcmd (.Pipe l r) w n =
        [.pipe (w n) (w (n + 1)) (w (n + 2)), .fork (w (n + 3)), .fork 0, .close 0,
          .dup (w (n + 1)), .close (w (n + 1)), .close (w (n + 2))] ++
          runcmd r w (n + 5)) := by
  have hp' : ¬ w n < 0 := by omega
  refine ⟨?_, ?_, ?_⟩
  · intro h1 h2 h3 h4
    simp [runcmd, hp', h1, h2, h3, h4]
  · intro h1
    simp [runcmd, hp', h1]
  · intro h1 h2 h3
    simp [runcmd, hp', h1, h2, h3]

theorem runcmd_pipe_witness :
    runcmd (.Pipe (.Exec ["/echo".toList, "hi".toList]) (.Exec ["/cat".toList]))
        (fun n => [0, 3, 4, 11, 12].getD n 0) 0 =
      [.pipe 0 3 4, .fork 11, .fork 12, .close 3, .close 4, .wait, .wait, .exit 0] :=
  (runcmd_pipe (.Exec ["/echo".toList, "hi".toList]) (.Exec ["/cat".toList])
    (fun n => [0, 3, 4, 11, 12].getD n 0) 0 (by decide)).1
    (by decide) (by decide) (by decide) (by decide)

/-- C15: for every `Sequence` node, when `fork` succeeds: the process that runs
`runcmd` on the node makes one `fork` call, then one `wait` call, and then goes
on as `runcmd(right)` in the same process, with no fork for the right side; the
child goes on as `runcmd(left)`. -/
theorem runcmd_list (l r : Cmd) (w : Nat → Int) (n : Nat) :
    (w n ≠ -1 → w n ≠ 0 →
      runcmd (.Sequence l r) w n = [.fork (w n), .wait] ++ runcmd r w (n + 1)) ∧
    (w n = 0 → runcmd (.Sequence l r) w n = [.fork 0] ++ runcmd l w (n + 1)) := by
  refine ⟨?_, ?_⟩
  · intro h1 h2
    simp [runcmd, h1, h2]
  · intro h1
    simp [runcmd, h1]

theorem runcmd_list_witness :
    runcmd (.Sequence (.Exec ["/false".toList]) (.Exec []))
        (fun n => [5].getD n 0) 0 = [.fork 5, .wait, .exit 1] :=
  (runcmd_list (.Exec ["/false".toList]) (.Exec []) (fun n => [5].getD n 0) 0).1
    (by decide) (by decide)

/-- C16: for every `Exec` node: with an empty `argv` the process exits with
status 1 without calling `exec`; otherwise it calls `exec` once, with the
`argv` of the node, and with the path `argv[0]` when `argv[0]` begins with `/`,
else with `/` followed by `argv[0]` (for a name that fits the 512-byte copy);
when the call returns the process reports it and exits with status 0, and when
it does not return nothing follows. -/
theorem runcmd_exec (a0 : List Char) (rest : List (List Char)) (w : Nat → Int) (n : Nat)
    (hlen : a0.length ≤ 510) :
    runcmd (.Exec []) w n = [.exit 1] ∧
    (a0.headD NUL = '/' → w n < 0 →
      runcmd (.Exec (a0 :: rest)) w n =
        [.exec a0 (a0 :: rest) (w n),
          .fprintf 2 ("exec ".toList ++ a0 ++ " failed\n".toList), .exit 0]) ∧
    (a0.headD NUL = '/' → 0 ≤ w n →
      runcmd (.Exec (a0 :: rest)) w n = [.exec a0 (a0 :: rest) (w n)]) ∧
    (a0.headD NUL ≠ '/' → w n < 0 →
      runcmd (.Exec (a0 :: rest)) w n =
        [.exec ('/' :: a0) (a0 :: rest) (w n),
          .fprintf 2 ("exec ".toList ++ a0 ++ " failed\n".toList), .exit 0]) ∧
    (a0.headD NUL ≠ '/' → 0 ≤ w n →
      runcmd (.Exec (a0 :: rest)) w n = [.exec ('/' :: a0) (a0 :: rest) (w n)]) := by
  have hfit : a0.length + 2 ≤ 512 := by omega
  refine ⟨rfl, ?_, ?_, ?_, ?_⟩
  · intro h1 h2
    simp only [runcmd, ne_eq, h1, not_true_eq_false, if_false, execEvents, h2, if_true]
  · intro h1 h2
    have : ¬ w n < 0 := by omega
    simp only [runcmd, ne_eq, h1, not_true_eq_false, if_false, execEvents, this]
  · intro h1 h2
    simp only [runcmd, ne_eq, h1, not_false_eq_true, if_true, hfit, execEvents, h2]
  · intro h1 h2
    have : ¬ w n < 0 := by omega
    simp only [runcmd, ne_eq, h1, not_false_eq_true, if_true, hfit, execEvents, this,
      if_false]

theorem runcmd_exec_witness :
    runcmd (.Exec ["echo".toList, "hi".toList]) (fun _ => -1) 0 =
      [.exec "/echo".toList ["echo".toList, "hi".toList] (-1),
        .fprintf 2 "exec echo failed\n".toList, .exit 0] :=
  (runcmd_exec "echo".toList ["hi".toList] (fun _ => -1) 0 (by decide)).2.2.2.1
    (by decide) (by decide)

/-! ## The built-ins -/

theorem set_last (a : List Char) (x y : Char) : (a ++ [x]).set a.length y = a ++ [y] := by
  induction a with
  | nil => rfl
  | cons c a ih => simp [ih]

theorem takeWhile_nul (body rest : List Char) (h : ∀ c ∈ body, c ≠ NUL) :
    (body ++ NUL :: rest).takeWhile (fun c => c != NUL) = body := by
  induction body with
  | nil => simp
  | cons c body ih =>
    have hc : c ≠ NUL := h c (List.mem_cons_self _ _)
    simp [hc, ih (fun x hx => h x (List.mem_cons_of_mem _ hx))]

/-- C17, as the code has it: on a line `cd ` + `body` + one more character the
loop passes exactly `body` to `chdir`, whatever the last character is: the
newline of a line that ends in one, and the last character of the path of a
line that does not, such as the last line `cd /tmp` of a script file that
`getline_from_fd` hands over without a newline. -/
theorem cd_chops_last_char (t : JobTable) (body : List Char) (last : Char) :
    ((∀ c ∈ body, c ≠ NUL) → last ≠ NUL →
      turn t ('c' :: 'd' :: ' ' :: (body ++ [last])) = .cd body) ∧
    getline_from_fd 100 "cd /tmp".toList = some ("cd /tmp".toList, []) ∧
    turn t "cd /tmp".toList = .cd "/tm".toList ∧
    turn t "cd /tmp\n".toList = .cd "/tmp".toList := by
  have key : ∀ (body : List Char) (last : Char), (∀ c ∈ body, c ≠ NUL) → last ≠ NUL →
      turn t ('c' :: 'd' :: ' ' :: (body ++ [last])) = .cd body := by
    intro body last hb hl
    have hnn : ∀ c ∈ 'c' :: 'd' :: ' ' :: (body ++ [last]), c ≠ NUL := by
      intro c hc
      simp only [List.mem_cons, List.mem_append, List.mem_singleton, List.not_mem_nil,
        or_false] at hc
      rcases hc with rfl | rfl | rfl | hc | rfl
      · decide
      · decide
      · decide
      · exact hb c hc
      · exact hl
    have hlen := strlen_eq_length hnn
    have h0 : deref ('c' :: 'd' :: ' ' :: (body ++ [last])) 0 = 'c' := rfl
    have h1 : deref ('c' :: 'd' :: ' ' :: (body ++ [last])) 1 = 'd' := rfl
    have h2 : deref ('c' :: 'd' :: ' ' :: (body ++ [last])) 2 = ' ' := rfl
    have hset : ('c' :: 'd' :: ' ' :: (body ++ [last])).set
        (strlen ('c' :: 'd' :: ' ' :: (body ++ [last])) - 1) NUL =
        'c' :: 'd' :: ' ' :: (body ++ [NUL]) := by
      rw [hlen]
      have e : ('c' :: 'd' :: ' ' :: (body ++ [last])).length - 1 = body.length + 3 := by
        simp
      rw [e]
      simp only [List.set_cons_succ, set_last]
    have hj : ¬ (('c' : Char) = 'j') := by decide
    have hn : ¬ (('c' : Char) = '\n' ∨ ('c' : Char) = NUL) := by decide
    unfold turn
    simp only [h0, h1, h2, hn, hj, false_and, if_false, and_self, if_true, hset]
    simp only [cstr, List.drop_succ_cons, List.drop_zero]
    rw [takeWhile_nul body [] hb]
  refine ⟨key body last, by decide, ?_, ?_⟩
  · exact key "/tm".toList 'p' (by decide) (by decide)
  · exact key "/tmp".toList '\n' (by decide) (by decide)

theorem cd_chops_last_char_witness :
    turn (emptyTable 64) "cd a/b".toList = .cd "a/".toList :=
  (cd_chops_last_char (emptyTable 64) "a/".toList 'b').1 (by decide) (by decide)

/-- C18, as the code has it: a line that starts with `jobs` is handled as the
built-in as soon as its fifth character is a newline, a space, a tab or a
carriage return, whatever follows that character: `jobs x` prints the job
table like `jobs`, while `jobsx` is parsed as a command. -/
theorem jobs_looks_at_one_char (t : JobTable) (d : Char) (rest : List Char) :
    ((d = '\n' ∨ d = ' ' ∨ d = '\t' ∨ d = '\r') →
      turn t ('j' :: 'o' :: 'b' :: 's' :: d :: rest) = .jobs t.entries) ∧
    turn t "jobs x\n".toList = .jobs t.entries ∧
    turn t "jobs\n".toList = .jobs t.entries ∧
    turn t "jobs".toList = .jobs t.entries ∧
    turn t "jobsx\n".toList = .command "jobsx\n".toList := by
  have key : ∀ (d : Char) (rest : List Char), (d = '\n' ∨ d = ' ' ∨ d = '\t' ∨ d = '\r') →
      turn t ('j' :: 'o' :: 'b' :: 's' :: d :: rest) = .jobs t.entries := by
    intro d rest hd
    have h0 : deref ('j' :: 'o' :: 'b' :: 's' :: d :: rest) 0 = 'j' := rfl
    have h1 : deref ('j' :: 'o' :: 'b' :: 's' :: d :: rest) 1 = 'o' := rfl
    have h2 : deref ('j' :: 'o' :: 'b' :: 's' :: d :: rest) 2 = 'b' := rfl
    have h3 : deref ('j' :: 'o' :: 'b' :: 's' :: d :: rest) 3 = 's' := rfl
    have h4 : deref ('j' :: 'o' :: 'b' :: 's' :: d :: rest) 4 = d := rfl
    have hn : ¬ (('j' : Char) = '\n' ∨ ('j' : Char) = NUL) := by decide
    have hd' : d = '\n' ∨ d = NUL ∨ d = ' ' ∨ d = '\t' ∨ d = '\r' := by
      rcases hd with h | h | h | h
      · exact Or.inl h
      · exact Or.inr (Or.inr (Or.inl h))
      · exact Or.inr (Or.inr (Or.inr (Or.inl h)))
      · exact Or.inr (Or.inr (Or.inr (Or.inr h)))
    unfold turn
    simp only [h0, h1, h2, h3, h4, hn, hd', and_self, if_false, if_true]
  refine ⟨key d rest, ?_, ?_, ?_, ?_⟩
  · exact key ' ' "x\n".toList (by decide)
  · exact key '\n' [] (by decide)
  · unfold turn; rfl
  · unfold turn; rfl

theorem jobs_looks_at_one_char_witness :
    turn ⟨[3, 4, 0], 2⟩ "jobs\tnow please\n".toList = .jobs [3, 4] :=
  (jobs_looks_at_one_char ⟨[3, 4, 0], 2⟩ '\t' "now please\n".toList).1 (by decide)

/-! ## The tokenizer on any buffer -/

theorem skipwsLoop_spec (buf : List Char) (es : Nat) :
    ∀ n s, s ≤ es → es - s ≤ n →
      s ≤ skipwsLoop buf es n s ∧ skipwsLoop buf es n s ≤ es ∧
      (∀ i, s ≤ i → i < skipwsLoop buf es n s → strchr whitespace (deref buf i) = true) ∧
      (skipwsLoop buf es n s < es →
        strchr whitespace (deref buf (skipwsLoop buf es n s)) = false) := by
  intro n
  induction n with
  | zero =>
    intro s hs hn
    simp only [skipwsLoop]
    exact ⟨Nat.le_refl _, hs, fun i h1 h2 => by omega, fun h => by omega⟩
  | succ n ih =>
    intro s hs hn
    simp only [skipwsLoop]
    by_cases hc : (decide (s < es) && strchr whitespace (deref buf s)) = true
    · simp only [hc, if_true]
      simp only [Bool.and_eq_true, decide_eq_true_eq] at hc
      obtain ⟨h1, h2, h3, h4⟩ := ih (s + 1) (by omega) (by omega)
      refine ⟨by omega, h2, ?_, h4⟩
      intro i hi1 hi2
      by_cases hi : i = s
      · subst hi; exact hc.2
      · exact h3 i (by omega) hi2
    · rw [if_neg hc]
      refine ⟨Nat.le_refl _, hs, fun i h1 h2 => by omega, ?_⟩
      intro hlt
      simp only [Bool.and_eq_true, decide_eq_true_eq, not_and] at hc
      simpa using hc hlt

theorem skipws_spec (buf : List Char) (es s : Nat) (hs : s ≤ es) :
    s ≤ skipws buf es s ∧ skipws buf es s ≤ es ∧
    (∀ i, s ≤ i → i < skipws buf es s → strchr whitespace (deref buf i) = true) ∧
    (skipws buf es s < es → strchr whitespace (deref buf (skipws buf es s)) = false) :=
  skipwsLoop_spec buf es (es - s) s hs (Nat.le_refl _)

theorem skipws_stay (buf : List Char) (es s : Nat)
    (h : s < es → strchr whitespace (deref buf s) = false) : skipws buf es s = s := by
  unfold skipws
  cases hn : es - s with
  | zero => rfl
  | succ n =>
    have hlt : s < es := by omega
    simp [skipwsLoop, h hlt]

theorem skipws_idem (buf : List Char) (es s : Nat) (hs : s ≤ es) :
    skipws buf es (skipws buf es s) = skipws buf es s :=
  skipws_stay buf es _ (skipws_spec buf es s hs).2.2.2

theorem scanwordLoop_spec (buf : List Char) (es : Nat) :
    ∀ n s, s ≤ es → es - s ≤ n →
      s ≤ scanwordLoop buf es n s ∧ scanwordLoop buf es n s ≤ es ∧
      (∀ i, s ≤ i → i < scanwordLoop buf es n s →
        strchr whitespace (deref buf i) = false ∧ strchr symbols (deref buf i) = false) ∧
      (scanwordLoop buf es n s < es →
        strchr whitespace (deref buf (scanwordLoop buf es n s)) = true ∨
        strchr symbols (deref buf (scanwordLoop buf es n s)) = true) := by
  intro n
  induction n with
  | zero =>
    intro s hs hn
    simp only [scanwordLoop]
    exact ⟨Nat.le_refl _, hs, fun i h1 h2 => by omega, fun h => by omega⟩
  | succ n ih =>
    intro s hs hn
    simp only [scanwordLoop]
    by_cases hc : (decide (s < es) && !strchr whitespace (deref buf s) &&
        !strchr symbols (deref buf s)) = true
    · simp only [hc, if_true]
      simp only [Bool.and_eq_true, decide_eq_true_eq, Bool.not_eq_true'] at hc
      obtain ⟨h1, h2, h3, h4⟩ := ih (s + 1) (by omega) (by omega)
      refine ⟨by omega, h2, ?_, h4⟩
      intro i hi1 hi2
      by_cases hi : i = s
      · subst hi; exact ⟨hc.1.2, hc.2⟩
      · exact h3 i (by omega) hi2
    · rw [if_neg hc]
      refine ⟨Nat.le_refl _, hs, fun i h1 h2 => by omega, ?_⟩
      intro hlt
      simp only [Bool.and_eq_true, decide_eq_true_eq, Bool.not_eq_true', not_and] at hc
      cases hw : strchr whitespace (deref buf s) with
      | true => exact Or.inl rfl
      | false => exact Or.inr (by simpa using hc ⟨hlt, hw⟩)

theorem scanword_spec (buf : List Char) (es s : Nat) (hs : s ≤ es) :
    s ≤ scanword buf es s ∧ scanword buf es s ≤ es ∧
    (∀ i, s ≤ i → i < scanword buf es s →
      strchr whitespace (deref buf i) = false ∧ strchr symbols (deref buf i) = false) ∧
    (scanword buf es s < es →
      strchr whitespace (deref buf (scanword buf es s)) = true ∨
      strchr symbols (deref buf (scanword buf es s)) = true) :=
  scanwordLoop_spec buf es (es - s) s hs (Nat.le_refl _)

theorem scanword_pos (buf : List Char) (es s : Nat) (hs : s < es)
    (hw : strchr whitespace (deref buf s) = false) (hy : strchr symbols (deref buf s) = false) :
    s < scanword buf es s := by
  obtain ⟨h1, _, _, h4⟩ := scanword_spec buf es s (by omega)
  by_contra hne
  have he : scanword buf es s = s := by omega
  rw [he] at h4
  rcases h4 hs with h | h
  · rw [hw] at h; cases h
  · rw [hy] at h; cases h

theorem symbols_cases {c : Char} (h : strchr symbols c = false) :
    ¬ (c = '|' ∨ c = '(' ∨ c = ')' ∨ c = ';' ∨ c = '&' ∨ c = '<') ∧ c ≠ '>' := by
  constructor
  · intro hh
    rcases hh with rfl | rfl | rfl | rfl | rfl | rfl <;> simp [strchr, symbols] at h
  · intro hh; subst hh; simp [strchr, symbols] at h

/-- C19: for every buffer that is NUL-terminated at `es` and every cursor
`s ≤ es` such that the character after the leading whitespace is neither the
end of input nor an operator character, `gettoken` returns the word token type
`a`; the span `[q, eq)` starts at that character (all of `[s, q)` is
whitespace, the character at `q` is not), is non-empty, holds no whitespace and
no operator character, and is maximal (`eq` is the end of input, or the
character there is whitespace or an operator character); the new cursor is the
first position at or after `eq` that does not hold whitespace. -/
theorem gettoken_word_spec (buf : List Char) (es s : Nat) (hs : s ≤ es)
    (hterm : deref buf es = NUL) (hc : deref buf (skipws buf es s) ≠ NUL)
    (hsym : strchr symbols (deref buf (skipws buf es s)) = false) :
    (gettoken buf es s).ret = 'a' ∧
    s ≤ (gettoken buf es s).q ∧
    (∀ i, s ≤ i → i < (gettoken buf es s).q → strchr whitespace (deref buf i) = true) ∧
    strchr whitespace (deref buf (gettoken buf es s).q) = false ∧
    (gettoken buf es s).q < (gettoken buf es s).eq ∧ (gettoken buf es s).eq ≤ es ∧
    (∀ i, (gettoken buf es s).q ≤ i → i < (gettoken buf es s).eq →
      strchr whitespace (deref buf i) = false ∧ strchr symbols (deref buf i) = false) ∧
    ((gettoken buf es s).eq = es ∨
      strchr whitespace (deref buf (gettoken buf es s).eq) = true ∨
      strchr symbols (deref buf (gettoken buf es s).eq) = true) ∧
    (gettoken buf es s).eq ≤ (gettoken buf es s).s ∧ (gettoken buf es s).s ≤ es ∧
    (∀ i, (gettoken buf es s).eq ≤ i → i < (gettoken buf es s).s →
      strchr whitespace (deref buf i) = true) ∧
    ((gettoken buf es s).s = es ∨
      strchr whitespace (deref buf (gettoken buf es s).s) = false) := by
  obtain ⟨p1, p2, p3, p4⟩ := skipws_spec buf es s hs
  have hlt : skipws buf es s < es := by
    rcases Nat.lt_or_ge (skipws buf es s) es with h | h
    · exact h
    · have : skipws buf es s = es := by omega
      rw [this] at hc
      exact absurd hterm hc
  obtain ⟨hs1, hs2⟩ := symbols_cases hsym
  have hg : gettoken buf es s = ⟨'a', skipws buf es s, scanword buf es (skipws buf es s),
      skipws buf es (scanword buf es (skipws buf es s))⟩ := by
    simp only [gettoken, hc, hs1, hs2, if_false]
  obtain ⟨w1, w2, w3, w4⟩ := scanword_spec buf es (skipws buf es s) p2
  obtain ⟨t1, t2, t3, t4⟩ := skipws_spec buf es (scanword buf es (skipws buf es s)) w2
  rw [hg]
  show _ ∧ _ ≤ skipws buf es s ∧ (∀ i, s ≤ i → i < skipws buf es s → _) ∧
    strchr whitespace (deref buf (skipws buf es s)) = false ∧
    skipws buf es s < scanword buf es (skipws buf es s) ∧
    scanword buf es (skipws buf es s) ≤ es ∧
    (∀ i, skipws buf es s ≤ i → i < scanword buf es (skipws buf es s) → _) ∧
    (scanword buf es (skipws buf es s) = es ∨
      strchr whitespace (deref buf (scanword buf es (skipws buf es s))) = true ∨
      strchr symbols (deref buf (scanword buf es (skipws buf es s))) = true) ∧
    scanword buf es (skipws buf es s) ≤ skipws buf es (scanword buf es (skipws buf es s)) ∧
    skipws buf es (scanword buf es (skipws buf es s)) ≤ es ∧
    (∀ i, scanword buf es (skipws buf es s) ≤ i →
      i < skipws buf es (scanword buf es (skipws buf es s)) → _) ∧
    (skipws buf es (scanword buf es (skipws buf es s)) = es ∨
      strchr whitespace (deref buf (skipws buf es (scanword buf es (skipws buf es s)))) =
        false)
  refine ⟨rfl, p1, p3, p4 hlt, scanword_pos buf es _ hlt (p4 hlt) hsym, w2, w3, ?_, t1, t2,
    t3, ?_⟩
  · rcases Nat.lt_or_ge (scanword buf es (skipws buf es s)) es with h | h
    · exact Or.inr (w4 h)
    · exact Or.inl (by omega)
  · rcases Nat.lt_or_ge (skipws buf es (scanword buf es (skipws buf es s))) es with h | h
    · exact Or.inr (t4 h)
    · exact Or.inl (by omega)

theorem gettoken_word_spec_witness :
    (gettoken "  echo hi".toList 9 0).ret = 'a' ∧ (gettoken "  echo hi".toList 9 0).q = 2 ∧
      (gettoken "  echo hi".toList 9 0).eq = 6 ∧ (gettoken "  echo hi".toList 9 0).s = 7 :=
  have h := gettoken_word_spec "  echo hi".toList 9 0 (by decide) (by decide) (by decide)
    (by decide)
  ⟨h.1, by decide, by decide, by decide⟩

/-! ## Segments of accepted input -/

theorem strlen_terminated (buf : List Char) : Terminated buf (strlen buf) := by
  unfold Terminated strlen deref
  induction buf with
  | nil => simp
  | cons c r ih =>
    by_cases hc : c = NUL
    · subst hc
      simp [List.takeWhile]
    · have hb : (c != NUL) = true := by simpa using hc
      simp only [List.takeWhile, hb, List.length_cons]
      refine ⟨by simpa using ih.1, ?_⟩
      intro i hi
      cases i with
      | zero => simpa using hc
      | succ i => simpa using ih.2 i (by omega)

theorem Bal.le {buf : List Char} {a b : Nat} (h : Bal buf a b) : a ≤ b := by
  induction h with
  | nil a => exact Nat.le_refl a
  | char _ _ _ ih => omega
  | paren _ _ _ _ ih1 ih2 => omega

theorem Bal.append {buf : List Char} {a b c : Nat} (h1 : Bal buf a b) (h2 : Bal buf b c) :
    Bal buf a c := by
  induction h1 with
  | nil a => exact h2
  | char n1 n2 _ ih => exact Bal.char n1 n2 (ih h2)
  | paren e1 hin e2 _ _ ih2 => exact Bal.paren e1 hin e2 (ih2 h2)

theorem Bal.matched {buf : List Char} {a b : Nat} (h : Bal buf a b) :
    ∀ i, a ≤ i → i < b → deref buf i = '(' →
      ∃ j, i < j ∧ j < b ∧ Bal buf (i + 1) j ∧ deref buf j = ')' := by
  induction h with
  | nil a => intro i h1 h2; omega
  | @char a b n1 _ _ ih =>
    intro i h1 h2 hi
    by_cases he : i = a
    · subst he; exact absurd hi n1
    · exact ih i (by omega) h2 hi
  | @paren a j b e1 hin e2 hout ih1 ih2 =>
    intro i h1 h2 hi
    have hj := hin.le
    have hb := hout.le
    by_cases he : i = a
    · subst he; exact ⟨j, by omega, by omega, hin, e2⟩
    · by_cases hlt : i < j
      · obtain ⟨k, k1, k2, k3, k4⟩ := ih1 i (by omega) hlt hi
        exact ⟨k, k1, by omega, k3, k4⟩
      · by_cases hij : i = j
        · subst hij; rw [e2] at hi; exact absurd hi (by decide)
        · exact ih2 i (by omega) h2 hi

theorem Bal.ofFlat {buf : List Char} :
    ∀ n a b, b - a ≤ n → a ≤ b →
      (∀ i, a ≤ i → i < b → deref buf i ≠ '(' ∧ deref buf i ≠ ')') → Bal buf a b := by
  intro n
  induction n with
  | zero =>
    intro a b h1 h2 _
    have : a = b := by omega
    subst this; exact Bal.nil a
  | succ n ih =>
    intro a b h1 h2 hf
    by_cases he : a = b
    · subst he; exact Bal.nil a
    · exact Bal.char (hf a (Nat.le_refl a) (by omega)).1 (hf a (Nat.le_refl a) (by omega)).2
        (ih (a + 1) b (by omega) (by omega) (fun i hi1 hi2 => hf i (by omega) hi2))

theorem Seg.refl (buf : List Char) (es a : Nat) (h : a ≤ es) : Seg buf es a a :=
  ⟨Nat.le_refl a, h, Bal.nil a, fun i h1 h2 => by omega⟩

theorem Seg.trans {buf : List Char} {es a b c : Nat} (h1 : Seg buf es a b)
    (h2 : Seg buf es b c) : Seg buf es a c := by
  obtain ⟨a1, a2, a3, a4⟩ := h1
  obtain ⟨b1, b2, b3, b4⟩ := h2
  refine ⟨by omega, b2, a3.append b3, ?_⟩
  intro i hi1 hi2
  by_cases h : i < b
  · exact a4 i hi1 h
  · exact b4 i (by omega) hi2

theorem Seg.flat {buf : List Char} {es a b : Nat} (hab : a ≤ b) (hb : b ≤ es)
    (hf : ∀ i, a ≤ i → i < b → Flat buf es i) : Seg buf es a b :=
  ⟨hab, hb, Bal.ofFlat (b - a) a b (Nat.le_refl _) hab
    (fun i h1 h2 => ⟨(hf i h1 h2).1, (hf i h1 h2).2.1⟩), fun i h1 h2 => (hf i h1 h2).2.2⟩

theorem Seg.paren {buf : List Char} {es a j : Nat} (h1 : deref buf a = '(')
    (hin : Seg buf es (a + 1) j) (h2 : deref buf j = ')') (hj : j < es) :
    Seg buf es a (j + 1) := by
  obtain ⟨a1, a2, a3, a4⟩ := hin
  refine ⟨by omega, by omega, Bal.paren h1 a3 h2 (Bal.nil _), ?_⟩
  intro i hi1 hi2 hr
  by_cases he : i = a
  · subst he; rw [h1] at hr; rcases hr with h | h <;> exact absurd h (by decide)
  · by_cases hej : i = j
    · subst hej; rw [h2] at hr; rcases hr with h | h <;> exact absurd h (by decide)
    · exact a4 i (by omega) (by omega) hr

theorem Flat.of_ws {buf : List Char} {es i : Nat} (h : strchr whitespace (deref buf i) = true) :
    Flat buf es i := by
  have h1 : deref buf i ≠ '(' := by intro hh; rw [hh] at h; revert h; decide
  have h2 : deref buf i ≠ ')' := by intro hh; rw [hh] at h; revert h; decide
  have h3 : deref buf i ≠ '<' := by intro hh; rw [hh] at h; revert h; decide
  have h4 : deref buf i ≠ '>' := by intro hh; rw [hh] at h; revert h; decide
  exact ⟨h1, h2, fun hr => by rcases hr with h | h <;> contradiction⟩

theorem Flat.of_word {buf : List Char} {es i : Nat} (h : strchr symbols (deref buf i) = false) :
    Flat buf es i := by
  have h1 : deref buf i ≠ '(' := by intro hh; rw [hh] at h; revert h; decide
  have h2 : deref buf i ≠ ')' := by intro hh; rw [hh] at h; revert h; decide
  have h3 : deref buf i ≠ '<' := by intro hh; rw [hh] at h; revert h; decide
  have h4 : deref buf i ≠ '>' := by intro hh; rw [hh] at h; revert h; decide
  exact ⟨h1, h2, fun hr => by rcases hr with h | h <;> contradiction⟩

theorem Seg.ws {buf : List Char} {es a b : Nat} (hab : a ≤ b) (hb : b ≤ es)
    (hf : ∀ i, a ≤ i → i < b → strchr whitespace (deref buf i) = true) : Seg buf es a b :=
  Seg.flat hab hb (fun i h1 h2 => Flat.of_ws (hf i h1 h2))

theorem Seg.skipws (buf : List Char) (es s : Nat) (hs : s ≤ es) :
    Seg buf es s (skipws buf es s) :=
  Seg.ws (skipws_spec buf es s hs).1 (skipws_spec buf es s hs).2.1
    (skipws_spec buf es s hs).2.2.1

/-! ## Tokens as segments -/

theorem tok_cases (buf : List Char) (es s : Nat) :
    (deref buf (skipws buf es s) = NUL ∧
      gettoken buf es s = ⟨NUL, skipws buf es s, skipws buf es s,
        skipws buf es (skipws buf es s)⟩) ∨
    ((deref buf (skipws buf es s) = '|' ∨ deref buf (skipws buf es s) = '(' ∨
        deref buf (skipws buf es s) = ')' ∨ deref buf (skipws buf es s) = ';' ∨
        deref buf (skipws buf es s) = '&' ∨ deref buf (skipws buf es s) = '<') ∧
      gettoken buf es s = ⟨deref buf (skipws buf es s), skipws buf es s, skipws buf es s + 1,
        skipws buf es (skipws buf es s + 1)⟩) ∨
    (deref buf (skipws buf es s) = '>' ∧ deref buf (skipws buf es s + 1) = '>' ∧
      gettoken buf es s = ⟨'+', skipws buf es s, skipws buf es s + 2,
        skipws buf es (skipws buf es s + 2)⟩) ∨
    (deref buf (skipws buf es s) = '>' ∧ deref buf (skipws buf es s + 1) ≠ '>' ∧
      gettoken buf es s = ⟨'>', skipws buf es s, skipws buf es s + 1,
        skipws buf es (skipws buf es s + 1)⟩) ∨
    (deref buf (skipws buf es s) ≠ NUL ∧ strchr symbols (deref buf (skipws buf es s)) = false ∧
      gettoken buf es s = ⟨'a', skipws buf es s, scanword buf es (skipws buf es s),
        skipws buf es (scanword buf es (skipws buf es s))⟩) := by
  by_cases h0 : deref buf (skipws buf es s) = NUL
  · left
    refine ⟨h0, ?_⟩
    simp only [gettoken, h0, if_true]
  · right
    by_cases h1 : deref buf (skipws buf es s) = '|' ∨ deref buf (skipws buf es s) = '(' ∨
        deref buf (skipws buf es s) = ')' ∨ deref buf (skipws buf es s) = ';' ∨
        deref buf (skipws buf es s) = '&' ∨ deref buf (skipws buf es s) = '<'
    · left
      refine ⟨h1, ?_⟩
      simp only [gettoken, h0, h1, if_true, if_false]
    · right
      by_cases h2 : deref buf (skipws buf es s) = '>'
      · by_cases h3 : deref buf (skipws buf es s + 1) = '>'
        · left
          refine ⟨h2, h3, ?_⟩
          simp [gettoken, h2, h3, NUL]
        · right; left
          refine ⟨h2, h3, ?_⟩
          simp [gettoken, h2, h3, NUL]
      · right; right
        refine ⟨h0, ?_, ?_⟩
        · simp only [not_or] at h1
          obtain ⟨a1, a2, a3, a4, a5, a6⟩ := h1
          simp [strchr, symbols, a1, a2, a3, a4, a5, a6, h2]
        · simp only [gettoken, h0, h1, h2, if_false]

theorem gettoken_skipws (buf : List Char) (es s : Nat) (hs : s ≤ es) :
    gettoken buf es (skipws buf es s) = gettoken buf es s := by
  simp only [gettoken, skipws_idem buf es s hs]

theorem Terminated.lt {buf : List Char} {es p : Nat} (hT : Terminated buf es) (hp : p ≤ es)
    (hc : deref buf p ≠ NUL) : p < es := by
  rcases Nat.lt_or_ge p es with h | h
  · exact h
  · have : p = es := by omega
    rw [this] at hc
    exact absurd hT.1 hc

/-- A word token and the whitespace around it form a good segment. -/
theorem word_seg (buf : List Char) (es s : Nat) (hs : s ≤ es) (hT : Terminated buf es)
    (ha : (gettoken buf es s).ret = 'a') :
    Seg buf es s (gettoken buf es s).s ∧ s < (gettoken buf es s).s ∧
      deref buf (skipws buf es s) ≠ NUL ∧
      strchr symbols (deref buf (skipws buf es s)) = false := by
  obtain ⟨p1, p2, p3, p4⟩ := skipws_spec buf es s hs
  rcases tok_cases buf es s with ⟨h, e⟩ | ⟨h, e⟩ | ⟨h, _, e⟩ | ⟨h, _, e⟩ | ⟨h0, h1, e⟩
  · rw [e] at ha; simp only at ha; exact absurd ha (by decide)
  · rw [e] at ha
    simp only at ha
    rw [ha] at h
    rcases h with h | h | h | h | h | h <;> exact absurd h (by decide)
  · rw [e] at ha; simp only at ha; exact absurd ha (by decide)
  · rw [e] at ha; simp only at ha; exact absurd ha (by decide)
  · have hlt := hT.lt p2 h0
    obtain ⟨w1, w2, w3, w4⟩ := scanword_spec buf es (skipws buf es s) p2
    obtain ⟨t1, t2, t3, t4⟩ := skipws_spec buf es (scanword buf es (skipws buf es s)) w2
    have hpos := scanword_pos buf es _ hlt (p4 hlt) h1
    rw [e]
    refine ⟨?_, ?_, h0, h1⟩
    · exact (Seg.skipws buf es s hs).trans
        ((Seg.flat w1 w2 (fun i a b => Flat.of_word (w3 i a b).2)).trans
          (Seg.skipws buf es _ w2))
    · show s < skipws buf es (scanword buf es (skipws buf es s))
      omega

/-- The end-of-input token: the rest of the line is whitespace. -/
theorem nul_seg (buf : List Char) (es s : Nat) (hs : s ≤ es) (hT : Terminated buf es)
    (ha : (gettoken buf es s).ret = NUL) :
    (gettoken buf es s).s = es ∧ Seg buf es s es := by
  obtain ⟨p1, p2, p3, p4⟩ := skipws_spec buf es s hs
  have key : deref buf (skipws buf es s) = NUL := by
    rcases tok_cases buf es s with ⟨h, e⟩ | ⟨h, e⟩ | ⟨h, _, e⟩ | ⟨h, _, e⟩ | ⟨h0, h1, e⟩
    · exact h
    · rw [e] at ha; exact ha
    · rw [e] at ha; simp only at ha; exact absurd ha (by decide)
    · rw [e] at ha; simp only at ha; exact absurd ha (by decide)
    · rw [e] at ha; simp only at ha; exact absurd ha (by decide)
  have hp : skipws buf es s = es := by
    rcases Nat.lt_or_ge (skipws buf es s) es with h | h
    · exact absurd key (hT.2 _ h)
    · omega
  have hst : skipws buf es es = es := skipws_stay buf es es (fun h => by omega)
  constructor
  · simp [gettoken, hp, hst, hT.1]
  · have := Seg.skipws buf es s hs
    rwa [hp] at this

/-- The result of a successful `peek`: whitespace up to a character of `toks`,
at which the cursor stays. -/
theorem peek_true (buf : List Char) (es s : Nat) (toks : List Char) (hs : s ≤ es)
    (hT : Terminated buf es) (h : (peek buf es s toks).2 = true) :
    Seg buf es s (peek buf es s toks).1 ∧ (peek buf es s toks).1 < es ∧
      strchr toks (deref buf (peek buf es s toks).1) = true ∧
      skipws buf es (peek buf es s toks).1 = (peek buf es s toks).1 := by
  simp only [peek, Bool.and_eq_true, bne_iff_ne, ne_eq] at h ⊢
  exact ⟨Seg.skipws buf es s hs, hT.lt (skipws_spec buf es s hs).2.1 h.1, h.2,
    skipws_idem buf es s hs⟩

theorem peek_false (buf : List Char) (es s : Nat) (toks : List Char) (hs : s ≤ es) :
    Seg buf es s (peek buf es s toks).1 := Seg.skipws buf es s hs

/-- One of the operators `|`, `;`, `&` and the whitespace after it. -/
theorem op_seg (buf : List Char) (es p : Nat) (hp : p < es) (hst : skipws buf es p = p)
    (hc : deref buf p = '|' ∨ deref buf p = ';' ∨ deref buf p = '&') :
    Seg buf es p (gettoken buf es p).s ∧ p < (gettoken buf es p).s := by
  have e : gettoken buf es p = ⟨deref buf p, p, p + 1, skipws buf es (p + 1)⟩ := by
    rcases hc with h | h | h <;> simp [gettoken, hst, h, NUL]
  obtain ⟨t1, t2, t3, t4⟩ := skipws_spec buf es (p + 1) (by omega)
  rw [e]
  refine ⟨?_, by show p < skipws buf es (p + 1); omega⟩
  refine (Seg.flat (Nat.le_succ p) (by omega) ?_).trans (Seg.skipws buf es (p + 1) (by omega))
  intro i h1 h2
  have : i = p := by omega
  subst this
  rcases hc with h | h | h <;>
    exact ⟨by rw [h]; decide, by rw [h]; decide,
      fun hr => by rw [h] at hr; rcases hr with x | x <;> exact absurd x (by decide)⟩

/-- A parenthesis token: the cursor after it. -/
theorem paren_tok (buf : List Char) (es p : Nat) (hst : skipws buf es p = p)
    (hc : deref buf p = '(' ∨ deref buf p = ')') :
    (gettoken buf es p).s = skipws buf es (p + 1) := by
  rcases hc with h | h <;> simp [gettoken, hst, h, NUL]

/-- A redirection operator followed by a word token. -/
theorem redir_seg (buf : List Char) (es p : Nat) (hT : Terminated buf es) (hp : p < es)
    (hst : skipws buf es p = p) (hc : deref buf p = '<' ∨ deref buf p = '>')
    (ha : (gettoken buf es (gettoken buf es p).s).ret = 'a') :
    ((gettoken buf es p).ret = '<' ∨ (gettoken buf es p).ret = '>' ∨
        (gettoken buf es p).ret = '+') ∧
      Seg buf es p (gettoken buf es (gettoken buf es p).s).s ∧
      p < (gettoken buf es (gettoken buf es p).s).s := by
  by_cases h2 : deref buf p = '>' ∧ deref buf (p + 1) = '>'
  · have e : gettoken buf es p = ⟨'+', p, p + 2, skipws buf es (p + 2)⟩ := by
      simp [gettoken, hst, h2.1, h2.2, NUL]
    have hp1 : p + 1 < es := hT.lt (by omega) (by rw [h2.2]; decide)
    rw [e] at ha ⊢
    simp only at ha ⊢
    rw [gettoken_skipws buf es (p + 2) (by omega)] at ha ⊢
    obtain ⟨w1, w2, w3, w4⟩ := word_seg buf es (p + 2) (by omega) hT ha
    refine ⟨by decide, ?_, by omega⟩
    refine (Seg.flat (by omega : p ≤ p + 2) (by omega) ?_).trans w1
    intro i i1 i2
    by_cases hi : i = p
    · subst hi
      exact ⟨by rw [h2.1]; decide, by rw [h2.1]; decide,
        fun _ => Or.inl ⟨h2.1, h2.2, w3, w4⟩⟩
    · have : i = p + 1 := by omega
      subst this
      exact ⟨by rw [h2.2]; decide, by rw [h2.2]; decide, fun _ => Or.inr ⟨w3, w4⟩⟩
  · have e : gettoken buf es p = ⟨deref buf p, p, p + 1, skipws buf es (p + 1)⟩ := by
      rcases hc with h | h
      · simp [gettoken, hst, h, NUL]
      · have h3 : deref buf (p + 1) ≠ '>' := fun x => h2 ⟨h, x⟩
        simp [gettoken, hst, h, h3, NUL]
    rw [e] at ha ⊢
    simp only at ha ⊢
    rw [gettoken_skipws buf es (p + 1) (by omega)] at ha ⊢
    obtain ⟨w1, w2, w3, w4⟩ := word_seg buf es (p + 1) (by omega) hT ha
    refine ⟨by rcases hc with h | h <;> simp [h], ?_, by omega⟩
    refine (Seg.flat (by omega : p ≤ p + 1) (by omega) ?_).trans w1
    intro i i1 i2
    have : i = p := by omega
    subst this
    refine ⟨?_, ?_, fun _ => Or.inr ⟨w3, w4⟩⟩
    · rcases hc with h | h <;> rw [h] <;> decide
    · rcases hc with h | h <;> rw [h] <;> decide

/-! ## Trees on which the finalize step succeeds -/

theorem nulargv_total (qs : List Nat) :
    ∀ (eqs : List Nat) (r1 r2 : List (Option Nat)) (b : List Char), qs.length = eqs.length →
      ∃ b1, nulargv (qs.map some ++ none :: r1) (eqs.map some ++ r2) b = .ok b1 := by
  induction qs with
  | nil => intro eqs r1 r2 b _; exact ⟨b, by simp [nulargv]⟩
  | cons q qs ih =>
    intro eqs r1 r2 b hl
    cases eqs with
    | nil => simp at hl
    | cons e eqs =>
      obtain ⟨b1, h1⟩ := ih eqs r1 r2 (b.set e NUL) (by simpa using hl)
      exact ⟨b1, by simpa [nulargv] using h1⟩

theorem set_at_length (qs : List Nat) (r : List (Option Nat)) (x : Option Nat) :
    (qs.map some ++ none :: r).set qs.length x = qs.map some ++ x :: r := by
  induction qs with
  | nil => rfl
  | cons q qs ih => simp only [List.map_cons, List.cons_append, List.length_cons, List.set_cons_succ, ih]

theorem Arrs.shape {k : Nat} {argv eargv : List (Option Nat)} (h : Arrs k argv eargv) :
    ∃ qs eqs : List Nat, qs.length = k ∧ eqs.length = k ∧ k < MAXARGS ∧
      argv = qs.map some ++ none :: List.replicate (MAXARGS - k - 1) none ∧
      eargv = eqs.map some ++ none :: List.replicate (MAXARGS - k - 1) none := by
  obtain ⟨qs, eqs, h1, h2, h3, h4, h5⟩ := h
  have e : MAXARGS - k = (MAXARGS - k - 1) + 1 := by omega
  rw [e, List.replicate_succ] at h4 h5
  exact ⟨qs, eqs, h1, h2, h3, h4, h5⟩

theorem Arrs.zero : Arrs 0 (List.replicate MAXARGS none) (List.replicate MAXARGS none) :=
  ⟨[], [], rfl, rfl, by decide, rfl, rfl⟩

theorem Arrs.store {k : Nat} {argv eargv : List (Option Nat)} (h : Arrs k argv eargv)
    (hk : k + 1 < MAXARGS) (q e : Nat) :
    Arrs (k + 1) (argv.set k (some q)) (eargv.set k (some e)) := by
  obtain ⟨qs, eqs, h1, h2, h3, h4, h5⟩ := h.shape
  refine ⟨qs ++ [q], eqs ++ [e], by simp [h1], by simp [h2], hk, ?_, ?_⟩
  · have := set_at_length qs (List.replicate (MAXARGS - k - 1) none) (some q)
    rw [h1] at this
    rw [h4, this]
    have e1 : MAXARGS - k - 1 = MAXARGS - (k + 1) := by omega
    simp [e1]
  · have := set_at_length eqs (List.replicate (MAXARGS - k - 1) none) (some e)
    rw [h2] at this
    rw [h5, this]
    have e1 : MAXARGS - k - 1 = MAXARGS - (k + 1) := by omega
    simp [e1]

theorem NoFault.redir {c : cmd} (h : NoFault c) (file efile mode fd : Nat) :
    NoFault (.redircmd c file efile mode fd) := by
  intro b
  obtain ⟨b1, h1⟩ := h b
  exact ⟨b1.set efile NUL, by simp [nulterminate, h1]⟩

theorem NoFault.pipe {l r : cmd} (hl : NoFault l) (hr : NoFault r) : NoFault (.pipecmd l r) := by
  intro b
  obtain ⟨b1, h1⟩ := hl b
  obtain ⟨b2, h2⟩ := hr b1
  exact ⟨b2, by simp [nulterminate, h1, h2]⟩

theorem NoFault.list {l r : cmd} (hl : NoFault l) (hr : NoFault r) : NoFault (.listcmd l r) := by
  intro b
  obtain ⟨b1, h1⟩ := hl b
  obtain ⟨b2, h2⟩ := hr b1
  exact ⟨b2, by simp [nulterminate, h1, h2]⟩

theorem NoFault.back {c : cmd} (h : NoFault c) : NoFault (.backcmd c) := by
  intro b
  obtain ⟨b1, h1⟩ := h b
  exact ⟨b1, by simp [nulterminate, h1]⟩

theorem Chain.noFault {c t : cmd} (h : Chain c t) (hc : NoFault c) : NoFault t := by
  induction h with
  | refl => exact hc
  | redir file efile mode fd _ ih => exact ih.redir file efile mode fd

theorem Chain.inProgress {c t : cmd} {k : Nat} (h : Chain c t) (hc : InProgress k c) :
    InProgress k t := by
  induction h with
  | refl => exact hc
  | redir file efile mode fd _ ih => exact InProgress.redir file efile mode fd ih

theorem Chain.comp {a b c : cmd} (h1 : Chain a b) (h2 : Chain b c) : Chain a c := by
  induction h2 with
  | refl => exact h1
  | redir file efile mode fd _ ih => exact Chain.redir file efile mode fd ih

theorem InProgress.step {k : Nat} {ret : cmd} (h : InProgress k ret) (hk : k + 1 < MAXARGS)
    (q e : Nat) : InProgress (k + 1) (setargv ret k (some q) (some e)) := by
  induction h with
  | exec ha => exact InProgress.exec (ha.store hk q e)
  | redir file efile mode fd _ ih => exact InProgress.redir file efile mode fd ih

theorem InProgress.finish {k : Nat} {ret : cmd} (h : InProgress k ret) :
    NoFault (setargv ret k none none) := by
  induction h with
  | exec ha =>
    obtain ⟨qs, eqs, h1, h2, h3, h4, h5⟩ := ha.shape
    intro b
    have s1 := set_at_length qs (List.replicate (MAXARGS - k - 1) none) none
    have s2 := set_at_length eqs (List.replicate (MAXARGS - k - 1) none) none
    rw [h1] at s1
    rw [h2] at s2
    obtain ⟨b1, hb⟩ := nulargv_total qs eqs (List.replicate (MAXARGS - k - 1) none)
      (none :: List.replicate (MAXARGS - k - 1) none) b (by omega)
    exact ⟨b1, by simp only [setargv, nulterminate, h4, h5, s1, s2]; exact hb⟩
  | redir file efile mode fd _ ih => exact ih.redir file efile mode fd

theorem InProgress.start : InProgress 0 execcmd := InProgress.exec Arrs.zero

theorem Res.ok {buf : List Char} {es s : Nat} {P : cmd → Prop} {t : cmd} {s1 : Nat}
    (h : Res buf es s P (.ok (t, s1))) : Seg buf es s s1 ∧ P t := h

theorem Res.panic (buf : List Char) (es s : Nat) (P : cmd → Prop) (msg : String) :
    Res buf es s P (.error (.panic msg)) := ⟨msg, rfl⟩

theorem Res.pre {buf : List Char} {es a s : Nat} {P Q : cmd → Prop}
    {r : Except Err (cmd × Nat)} (h : Res buf es s P r) (ha : Seg buf es a s)
    (hq : ∀ t, P t → Q t) : Res buf es a Q r := by
  cases r with
  | error e => exact h
  | ok v =>
    obtain ⟨t, s1⟩ := v
    exact ⟨ha.trans h.1, hq t h.2⟩

/-! ## The loops of the parser on any input -/

theorem mem_two {c a b : Char} (h : strchr [a, b] c = true) : c = a ∨ c = b := by
  simpa [strchr] using h

theorem mem_one {c a : Char} (h : strchr [a] c = true) : c = a := by
  simpa [strchr] using h

/-- On any input `parseredirs` returns `c` under redirection nodes after a good
segment, or panics. -/
theorem parseredirs_res (F : Fcntl) (buf : List Char) (es : Nat) (hT : Terminated buf es) :
    ∀ (fuel : Nat) (c : cmd) (s : Nat), s ≤ es → es - s + 1 ≤ fuel →
      Res buf es s (Chain c) (parseredirs F buf es fuel c s) := by
  intro fuel
  induction fuel with
  | zero => intro c s _ h; omega
  | succ fuel ih =>
    intro c s hs hf
    rw [parseredirs]
    cases hp : (peek buf es s ['<', '>']).2 with
    | false =>
      simp only [Bool.false_eq_true, if_false]
      exact ⟨peek_false buf es s _ hs, Chain.refl⟩
    | true =>
      simp only [if_true]
      obtain ⟨g1, g2, g3, g4⟩ := peek_true buf es s _ hs hT hp
      by_cases ha : (gettoken buf es (gettoken buf es (peek buf es s ['<', '>']).1).s).ret = 'a'
      · obtain ⟨r1, r2, r3⟩ := redir_seg buf es _ hT g2 g4 (mem_two g3) ha
        have hle := g1.1
        have hle2 := r2.2.1
        rw [if_neg (not_not.2 ha)]
        rcases r1 with h | h | h
        · rw [if_pos h]
          exact (ih _ _ hle2 (by omega)).pre (g1.trans r2)
            (fun t ht => (Chain.redir _ _ _ _ Chain.refl).comp ht)
        · rw [if_neg (by rw [h]; decide), if_pos h]
          exact (ih _ _ hle2 (by omega)).pre (g1.trans r2)
            (fun t ht => (Chain.redir _ _ _ _ Chain.refl).comp ht)
        · rw [if_neg (by rw [h]; decide), if_neg (by rw [h]; decide), if_pos h]
          exact (ih _ _ hle2 (by omega)).pre (g1.trans r2)
            (fun t ht => (Chain.redir _ _ _ _ Chain.refl).comp ht)
      · rw [if_pos ha]
        exact Res.panic _ _ _ _ _

/-- On any input the argument loop of `parseexec` returns a tree that the
finalize step accepts, after a good segment, or panics. -/
theorem parseargs_res (F : Fcntl) (buf : List Char) (es : Nat) (hT : Terminated buf es) :
    ∀ (fuel : Nat) (ret : cmd) (argc s : Nat), s ≤ es → es - s + 1 ≤ fuel →
      InProgress argc ret → Res buf es s NoFault (parseargs F buf es fuel ret argc s) := by
  intro fuel
  induction fuel with
  | zero => intro ret argc s _ h; omega
  | succ fuel ih =>
    intro ret argc s hs hf hin
    rw [parseargs]
    have g1 := peek_false buf es s ['|', ')', '&', ';'] hs
    cases hp : (peek buf es s ['|', ')', '&', ';']).2 with
    | true =>
      simp only [if_true]
      exact ⟨g1, hin.finish⟩
    | false =>
      simp only [Bool.false_eq_true, if_false]
      by_cases h0 : (gettoken buf es (peek buf es s ['|', ')', '&', ';']).1).ret = NUL
      · rw [if_pos h0]
        obtain ⟨n1, n2⟩ := nul_seg buf es _ g1.2.1 hT h0
        rw [n1]
        exact ⟨g1.trans n2, hin.finish⟩
      · rw [if_neg h0]
        by_cases ha : (gettoken buf es (peek buf es s ['|', ')', '&', ';']).1).ret = 'a'
        · rw [if_neg (not_not.2 ha)]
          by_cases hm : argc + 1 ≥ MAXARGS
          · rw [if_pos hm]; exact Res.panic _ _ _ _ _
          · rw [if_neg hm]
            obtain ⟨w1, w2, _, _⟩ := word_seg buf es _ g1.2.1 hT ha
            have hle := g1.1
            have hle2 := w1.2.1
            have hr := parseredirs_res F buf es hT fuel
              (setargv ret argc (some (gettoken buf es (peek buf es s ['|', ')', '&', ';']).1).q)
                (some (gettoken buf es (peek buf es s ['|', ')', '&', ';']).1).eq))
              (gettoken buf es (peek buf es s ['|', ')', '&', ';']).1).s hle2 (by omega)
            cases hres : parseredirs F buf es fuel
              (setargv ret argc (some (gettoken buf es (peek buf es s ['|', ')', '&', ';']).1).q)
                (some (gettoken buf es (peek buf es s ['|', ')', '&', ';']).1).eq))
              (gettoken buf es (peek buf es s ['|', ')', '&', ';']).1).s with
            | error e =>
              rw [hres] at hr
              exact hr
            | ok v =>
              obtain ⟨ret2, s1⟩ := v
              rw [hres] at hr
              obtain ⟨q1, q2⟩ := hr.ok
              have hge := q1.1
              have hle3 := q1.2.1
              exact (ih ret2 (argc + 1) s1 hle3 (by omega)
                (q2.inProgress (hin.step (by omega) _ _))).pre ((g1.trans w1).trans q1)
                (fun t ht => ht)
        · rw [if_pos ha]; exact Res.panic _ _ _ _ _

/-- On any input the `&` loop of `parseline` keeps the tree acceptable to the
finalize step and consumes a good segment. -/
theorem parseback_res (buf : List Char) (es : Nat) (hT : Terminated buf es) :
    ∀ (fuel : Nat) (c : cmd) (s : Nat), s ≤ es → es - s + 1 ≤ fuel → NoFault c →
      Res buf es s NoFault (parseback buf es fuel c s) := by
  intro fuel
  induction fuel with
  | zero => intro c s _ h; omega
  | succ fuel ih =>
    intro c s hs hf hc
    rw [parseback]
    cases hp : (peek buf es s ['&']).2 with
    | false =>
      simp only [Bool.false_eq_true, if_false]
      exact ⟨peek_false buf es s _ hs, hc⟩
    | true =>
      simp only [if_true]
      obtain ⟨g1, g2, g3, g4⟩ := peek_true buf es s _ hs hT hp
      obtain ⟨o1, o2⟩ := op_seg buf es _ g2 g4 (Or.inr (Or.inr (mem_one g3)))
      have hle := g1.1
      have hle2 := o1.2.1
      exact (ih (.backcmd c) _ hle2 (by omega) hc.back).pre (g1.trans o1) (fun t ht => ht)

/-! ## The mutual recursion on any input -/

/-- On any NUL-terminated input and with fuel of four units for each unconsumed
character, each of `parseline`, `parsepipe`, `parseexec` and `parseblock`
returns a tree that the finalize step accepts, after a good segment, or
panics. -/
theorem parse_res (F : Fcntl) (buf : List Char) (es : Nat) (hT : Terminated buf es) :
    ∀ (fuel s : Nat), s ≤ es →
      (4 * (es - s) + 4 ≤ fuel → Res buf es s NoFault (parseline F buf es fuel s)) ∧
      (4 * (es - s) + 3 ≤ fuel → Res buf es s NoFault (parsepipe F buf es fuel s)) ∧
      (4 * (es - s) + 2 ≤ fuel → Res buf es s NoFault (parseexec F buf es fuel s)) ∧
      (4 * (es - s) + 1 ≤ fuel → Res buf es s NoFault (parseblock F buf es fuel s)) := by
  intro fuel
  induction fuel with
  | zero => intro s _; exact ⟨fun h => by omega, fun h => by omega, fun h => by omega,
      fun h => by omega⟩
  | succ fuel ih =>
    intro s hs
    refine ⟨?_, ?_, ?_, ?_⟩
    · intro hf
      rw [parseline]
      have hpipe := (ih s hs).2.1 (by omega)
      cases h1 : parsepipe F buf es fuel s with
      | error e => rw [h1] at hpipe; exact hpipe
      | ok v =>
        obtain ⟨c, s1⟩ := v
        rw [h1] at hpipe
        obtain ⟨a1, a2⟩ := hpipe.ok
        have l1 := a1.1
        have l2 := a1.2.1
        have hback := parseback_res buf es hT fuel c s1 l2 (by omega) a2
        simp only
        cases h2 : parseback buf es fuel c s1 with
        | error e => rw [h2] at hback; exact hback
        | ok v =>
          obtain ⟨c1, s2⟩ := v
          rw [h2] at hback
          obtain ⟨b1, b2⟩ := hback.ok
          have l3 := b1.1
          have l4 := b1.2.1
          simp only
          cases hp : (peek buf es s2 [';']).2 with
          | false =>
            simp only [Bool.false_eq_true, if_false]
            exact ⟨(a1.trans b1).trans (peek_false buf es s2 _ l4), b2⟩
          | true =>
            simp only [if_true]
            obtain ⟨g1, g2, g3, g4⟩ := peek_true buf es s2 _ l4 hT hp
            obtain ⟨o1, o2⟩ := op_seg buf es _ g2 g4 (Or.inr (Or.inl (mem_one g3)))
            have l5 := g1.1
            have l6 := o1.2.1
            have hrec := (ih (gettoken buf es (peek buf es s2 [';']).1).s l6).1 (by omega)
            cases h3 : parseline F buf es fuel (gettoken buf es (peek buf es s2 [';']).1).s with
            | error e => rw [h3] at hrec; exact hrec
            | ok v =>
              obtain ⟨r, s3⟩ := v
              rw [h3] at hrec
              obtain ⟨d1, d2⟩ := hrec.ok
              exact ⟨(((a1.trans b1).trans g1).trans o1).trans d1, b2.list d2⟩
    · intro hf
      rw [parsepipe]
      have hexec := (ih s hs).2.2.1 (by omega)
      cases h1 : parseexec F buf es fuel s with
      | error e => rw [h1] at hexec; exact hexec
      | ok v =>
        obtain ⟨c, s1⟩ := v
        rw [h1] at hexec
        obtain ⟨a1, a2⟩ := hexec.ok
        have l1 := a1.1
        have l2 := a1.2.1
        simp only
        cases hp : (peek buf es s1 ['|']).2 with
        | false =>
          simp only [Bool.false_eq_true, if_false]
          exact ⟨a1.trans (peek_false buf es s1 _ l2), a2⟩
        | true =>
          simp only [if_true]
          obtain ⟨g1, g2, g3, g4⟩ := peek_true buf es s1 _ l2 hT hp
          obtain ⟨o1, o2⟩ := op_seg buf es _ g2 g4 (Or.inl (mem_one g3))
          have l5 := g1.1
          have l6 := o1.2.1
          have hrec := (ih (gettoken buf es (peek buf es s1 ['|']).1).s l6).2.1 (by omega)
          cases h3 : parsepipe F buf es fuel (gettoken buf es (peek buf es s1 ['|']).1).s with
          | error e => rw [h3] at hrec; exact hrec
          | ok v =>
            obtain ⟨r, s3⟩ := v
            rw [h3] at hrec
            obtain ⟨d1, d2⟩ := hrec.ok
            exact ⟨((a1.trans g1).trans o1).trans d1, a2.pipe d2⟩
    · intro hf
      rw [parseexec]
      cases hp : (peek buf es s ['(']).2 with
      | true =>
        simp only [if_true]
        have g1 := peek_false buf es s ['('] hs
        have l1 := g1.1
        have l2 := g1.2.1
        exact ((ih (peek buf es s ['(']).1 l2).2.2.2 (by omega)).pre g1 (fun t ht => ht)
      | false =>
        simp only [Bool.false_eq_true, if_false]
        have g1 := peek_false buf es s ['('] hs
        have l1 := g1.1
        have l2 := g1.2.1
        have hr := parseredirs_res F buf es hT fuel execcmd (peek buf es s ['(']).1 l2 (by omega)
        cases h1 : parseredirs F buf es fuel execcmd (peek buf es s ['(']).1 with
        | error e => rw [h1] at hr; exact hr
        | ok v =>
          obtain ⟨ret, s1⟩ := v
          rw [h1] at hr
          obtain ⟨a1, a2⟩ := hr.ok
          have l3 := a1.1
          have l4 := a1.2.1
          exact (parseargs_res F buf es hT fuel ret 0 s1 l4 (by omega)
            (a2.inProgress InProgress.start)).pre (g1.trans a1) (fun t ht => ht)
    · intro hf
      rw [parseblock]
      cases hp : (peek buf es s ['(']).2 with
      | false => exact Res.panic _ _ _ _ _
      | true =>
        simp only [Bool.not_true, Bool.false_eq_true, if_false]
        obtain ⟨g1, g2, g3, g4⟩ := peek_true buf es s _ hs hT hp
        have hopen := mem_one g3
        have htok := paren_tok buf es _ g4 (Or.inl hopen)
        have k1 := Seg.skipws buf es ((peek buf es s ['(']).1 + 1) (by omega)
        rw [← htok] at k1
        have l1 := g1.1
        have l2 := k1.1
        have l3 := k1.2.1
        have hrec := (ih (gettoken buf es (peek buf es s ['(']).1).s l3).1 (by omega)
        cases h1 : parseline F buf es fuel (gettoken buf es (peek buf es s ['(']).1).s with
        | error e => rw [h1] at hrec; exact hrec
        | ok v =>
          obtain ⟨c, s1⟩ := v
          rw [h1] at hrec
          obtain ⟨a1, a2⟩ := hrec.ok
          have l4 := a1.1
          have l5 := a1.2.1
          simp only
          cases hq : (peek buf es s1 [')']).2 with
          | false => exact Res.panic _ _ _ _ _
          | true =>
            simp only [Bool.not_true, Bool.false_eq_true, if_false]
            obtain ⟨e1, e2, e3, e4⟩ := peek_true buf es s1 _ l5 hT hq
            have hclose := mem_one e3
            have htok2 := paren_tok buf es _ e4 (Or.inr hclose)
            have k2 := Seg.skipws buf es ((peek buf es s1 [')']).1 + 1) (by omega)
            rw [← htok2] at k2
            have hblock := Seg.paren hopen ((k1.trans a1).trans e1) hclose e2
            have l6 := e1.1
            have l7 := k2.1
            have l8 := k2.2.1
            exact (parseredirs_res F buf es hT fuel c _ l8 (by omega)).pre
              ((g1.trans hblock).trans k2) (fun t ht => ht.noFault a2)

/-! ## More fuel does not change a result -/

theorem parseredirs_mono (F : Fcntl) (buf : List Char) (es : Nat) :
    ∀ (fuel : Nat) (c : cmd) (s : Nat), parseredirs F buf es fuel c s ≠ .error .fuel →
      parseredirs F buf es (fuel + 1) c s = parseredirs F buf es fuel c s := by
  intro fuel
  induction fuel with
  | zero => intro c s h; exact absurd (by rw [parseredirs]) h
  | succ fuel ih =>
    intro c s h
    conv_lhs => rw [parseredirs]
    conv_rhs => rw [parseredirs]
    rw [parseredirs] at h
    simp only at h ⊢
    split_ifs at h ⊢ with h1 h2 h3 h4 h5
    · rfl
    · exact ih _ _ h
    · exact ih _ _ h
    · exact ih _ _ h
    · exact ih _ _ h
    · rfl

theorem parseback_mono (buf : List Char) (es : Nat) :
    ∀ (fuel : Nat) (c : cmd) (s : Nat), parseback buf es fuel c s ≠ .error .fuel →
      parseback buf es (fuel + 1) c s = parseback buf es fuel c s := by
  intro fuel
  induction fuel with
  | zero => intro c s h; exact absurd (by rw [parseback]) h
  | succ fuel ih =>
    intro c s h
    conv_lhs => rw [parseback]
    conv_rhs => rw [parseback]
    rw [parseback] at h
    split_ifs at h ⊢ with h1
    · exact ih _ _ h
    · rfl

theorem parseargs_mono (F : Fcntl) (buf : List Char) (es : Nat) :
    ∀ (fuel : Nat) (ret : cmd) (argc s : Nat),
      parseargs F buf es fuel ret argc s ≠ .error .fuel →
      parseargs F buf es (fuel + 1) ret argc s = parseargs F buf es fuel ret argc s := by
  intro fuel
  induction fuel with
  | zero => intro ret argc s h; exact absurd (by rw [parseargs]) h
  | succ fuel ih =>
    intro ret argc s h
    conv_lhs => rw [parseargs]
    conv_rhs => rw [parseargs]
    rw [parseargs] at h
    simp only at h ⊢
    generalize peek buf es s ['|', ')', '&', ';'] = p at h ⊢
    generalize gettoken buf es p.1 = t at h ⊢
    split_ifs at h ⊢
    all_goals try rfl
    cases hr : parseredirs F buf es fuel (setargv ret argc (some t.q) (some t.eq)) t.s with
    | error e =>
      rw [hr] at h
      rw [parseredirs_mono F buf es fuel _ _ (by rw [hr]; exact h), hr]
    | ok v =>
      obtain ⟨ret2, s1⟩ := v
      rw [hr] at h
      rw [parseredirs_mono F buf es fuel _ _ (by rw [hr]; exact fun x => nomatch x), hr]
      exact ih _ _ _ h

theorem parse_mono (F : Fcntl) (buf : List Char) (es : Nat) :
    ∀ (fuel s : Nat),
      (parseline F buf es fuel s ≠ .error .fuel →
        parseline F buf es (fuel + 1) s = parseline F buf es fuel s) ∧
      (parsepipe F buf es fuel s ≠ .error .fuel →
        parsepipe F buf es (fuel + 1) s = parsepipe F buf es fuel s) ∧
      (parseexec F buf es fuel s ≠ .error .fuel →
        parseexec F buf es (fuel + 1) s = parseexec F buf es fuel s) ∧
      (parseblock F buf es fuel s ≠ .error .fuel →
        parseblock F buf es (fuel + 1) s = parseblock F buf es fuel s) := by
  intro fuel
  induction fuel with
  | zero =>
    intro s
    exact ⟨fun h => absurd (by rw [parseline]) h, fun h => absurd (by rw [parsepipe]) h,
      fun h => absurd (by rw [parseexec]) h, fun h => absurd (by rw [parseblock]) h⟩
  | succ fuel ih =>
    intro s
    refine ⟨?_, ?_, ?_, ?_⟩
    · intro h
      conv_lhs => rw [parseline]
      conv_rhs => rw [parseline]
      rw [parseline] at h
      cases h1 : parsepipe F buf es fuel s with
      | error e =>
        rw [h1] at h
        rw [(ih s).2.1 (by rw [h1]; exact h), h1]
      | ok v =>
        obtain ⟨c, s1⟩ := v
        rw [h1] at h
        rw [(ih s).2.1 (by rw [h1]; exact fun x => nomatch x), h1]
        simp only at h ⊢
        cases h2 : parseback buf es fuel c s1 with
        | error e =>
          rw [h2] at h
          rw [parseback_mono buf es fuel c s1 (by rw [h2]; exact h), h2]
        | ok v =>
          obtain ⟨c1, s2⟩ := v
          rw [h2] at h
          rw [parseback_mono buf es fuel c s1 (by rw [h2]; exact fun x => nomatch x), h2]
          simp only at h ⊢
          split_ifs at h ⊢
          · cases h3 : parseline F buf es fuel (gettoken buf es (peek buf es s2 [';']).1).s with
            | error e =>
              rw [h3] at h
              rw [(ih _).1 (by rw [h3]; exact h), h3]
            | ok v =>
              rw [(ih _).1 (by rw [h3]; exact fun x => nomatch x), h3]
          · rfl
    · intro h
      conv_lhs => rw [parsepipe]
      conv_rhs => rw [parsepipe]
      rw [parsepipe] at h
      cases h1 : parseexec F buf es fuel s with
      | error e =>
        rw [h1] at h
        rw [(ih s).2.2.1 (by rw [h1]; exact h), h1]
      | ok v =>
        obtain ⟨c, s1⟩ := v
        rw [h1] at h
        rw [(ih s).2.2.1 (by rw [h1]; exact fun x => nomatch x), h1]
        simp only at h ⊢
        split_ifs at h ⊢
        · cases h3 : parsepipe F buf es fuel (gettoken buf es (peek buf es s1 ['|']).1).s with
          | error e =>
            rw [h3] at h
            rw [(ih _).2.1 (by rw [h3]; exact h), h3]
          | ok v =>
            rw [(ih _).2.1 (by rw [h3]; exact fun x => nomatch x), h3]
        · rfl
    · intro h
      conv_lhs => rw [parseexec]
      conv_rhs => rw [parseexec]
      rw [parseexec] at h
      split_ifs at h ⊢
      · exact (ih _).2.2.2 h
      · cases h1 : parseredirs F buf es fuel execcmd (peek buf es s ['(']).1 with
        | error e =>
          rw [h1] at h
          rw [parseredirs_mono F buf es fuel _ _ (by rw [h1]; exact h), h1]
        | ok v =>
          obtain ⟨ret, s1⟩ := v
          rw [h1] at h
          rw [parseredirs_mono F buf es fuel _ _ (by rw [h1]; exact fun x => nomatch x), h1]
          exact parseargs_mono F buf es fuel _ _ _ h
    · intro h
      conv_lhs => rw [parseblock]
      conv_rhs => rw [parseblock]
      rw [parseblock] at h
      split_ifs at h ⊢
      · rfl
      · cases h1 : parseline F buf es fuel (gettoken buf es (peek buf es s ['(']).1).s with
        | error e =>
          rw [h1] at h
          rw [(ih _).1 (by rw [h1]; exact h), h1]
        | ok v =>
          obtain ⟨c, s1⟩ := v
          rw [h1] at h
          rw [(ih _).1 (by rw [h1]; exact fun x => nomatch x), h1]
          simp only at h ⊢
          split_ifs at h ⊢
          · rfl
          · exact parseredirs_mono F buf es fuel _ _ h

/-- Once `parseline` has a result with some fuel, it has the same result with
any larger amount. -/
theorem parseline_fuel (F : Fcntl) (buf : List Char) (es s fuel : Nat)
    (h : parseline F buf es fuel s ≠ .error .fuel) :
    ∀ k, parseline F buf es (fuel + k) s = parseline F buf es fuel s := by
  intro k
  induction k with
  | zero => rfl
  | succ k ih =>
    rw [← ih] at h
    rw [← Nat.add_assoc, (parse_mono F buf es (fuel + k) s).1 h, ih]

/-! ## The whole of `parsecmd` on any input -/

/-- On any line `parsecmd` panics, or returns a tree; a line that it accepts is
a good segment from its first character to its end. -/
theorem parsecmd_res (F : Fcntl) (line : List Char) :
    (∃ msg, parsecmd F line = .error (.panic msg)) ∨
      ((∃ t b, parsecmd F line = .ok (t, b)) ∧ Seg line (strlen line) 0 (strlen line)) := by
  have hT := strlen_terminated line
  have h := (parse_res F line (strlen line) hT (4 * strlen line + 4) 0 (Nat.zero_le _)).1
    (by omega)
  unfold parsecmd
  simp only
  cases h1 : parseline F line (strlen line) (4 * strlen line + 4) 0 with
  | error e =>
    rw [h1] at h
    obtain ⟨msg, hm⟩ := h
    exact Or.inl ⟨msg, by rw [hm]⟩
  | ok v =>
    obtain ⟨c, s1⟩ := v
    rw [h1] at h
    obtain ⟨a1, a2⟩ := h.ok
    simp only
    by_cases hl : (peek line (strlen line) s1 []).1 ≠ strlen line
    · rw [if_pos hl]; exact Or.inl ⟨_, rfl⟩
    · rw [if_neg hl]
      obtain ⟨b1, hb⟩ := a2 line
      rw [hb]
      refine Or.inr ⟨⟨c, b1, rfl⟩, ?_⟩
      have k := peek_false line (strlen line) s1 [] a1.2.1
      rw [not_not.1 hl] at k
      exact a1.trans k

theorem ok_or_panic {buf : List Char} {es s : Nat} {P : cmd → Prop}
    {r : Except Err (cmd × Nat)} (h : Res buf es s P r) :
    (∃ t s1, r = .ok (t, s1) ∧ s ≤ s1 ∧ s1 ≤ es) ∨ ∃ msg, r = .error (.panic msg) := by
  cases r with
  | error e => obtain ⟨msg, hm⟩ := h; exact Or.inr ⟨msg, by rw [hm]⟩
  | ok v =>
    obtain ⟨t, s1⟩ := v
    exact Or.inl ⟨t, s1, rfl, h.1.1, h.1.2.1⟩

/-- C20: `parsecmd` terminates on every line.  With `r` the number of
unconsumed characters, fuel `4 * r + 4` is enough for `parseline`, `4 * r + 3`
for `parsepipe`, `4 * r + 2` for `parseexec`, `4 * r + 1` for `parseblock` and
`r + 1` for the loop of `parseredirs`: each of them then returns a tree with a
cursor that has not moved back and lies inside the line, or ends in a call of
`panic`.  More fuel than that leaves the result of `parseline` as it is.  Hence
`parsecmd` always yields a command tree or a parse error. -/
theorem parsecmd_terminates (F : Fcntl) (line : List Char) :
    (∀ fuel s, s ≤ strlen line →
      (4 * (strlen line - s) + 4 ≤ fuel →
        (∃ t s1, parseline F line (strlen line) fuel s = .ok (t, s1) ∧ s ≤ s1 ∧
            s1 ≤ strlen line) ∨
          ∃ msg, parseline F line (strlen line) fuel s = .error (.panic msg)) ∧
      (4 * (strlen line - s) + 3 ≤ fuel →
        (∃ t s1, parsepipe F line (strlen line) fuel s = .ok (t, s1) ∧ s ≤ s1 ∧
            s1 ≤ strlen line) ∨
          ∃ msg, parsepipe F line (strlen line) fuel s = .error (.panic msg)) ∧
      (4 * (strlen line - s) + 2 ≤ fuel →
        (∃ t s1, parseexec F line (strlen line) fuel s = .ok (t, s1) ∧ s ≤ s1 ∧
            s1 ≤ strlen line) ∨
          ∃ msg, parseexec F line (strlen line) fuel s = .error (.panic msg)) ∧
      (4 * (strlen line - s) + 1 ≤ fuel →
        (∃ t s1, parseblock F line (strlen line) fuel s = .ok (t, s1) ∧ s ≤ s1 ∧
            s1 ≤ strlen line) ∨
          ∃ msg, parseblock F line (strlen line) fuel s = .error (.panic msg)) ∧
      (strlen line - s + 1 ≤ fuel → ∀ c,
        (∃ t s1, parseredirs F line (strlen line) fuel c s = .ok (t, s1) ∧ s ≤ s1 ∧
            s1 ≤ strlen line) ∨
          ∃ msg, parseredirs F line (strlen line) fuel c s = .error (.panic msg))) ∧
    (∀ fuel, 4 * strlen line + 4 ≤ fuel →
      parseline F line (strlen line) fuel 0 =
        parseline F line (strlen line) (4 * strlen line + 4) 0) ∧
    ((∃ t b, parsecmd F line = .ok (t, b)) ∨ ∃ msg, parsecmd F line = .error (.panic msg)) := by
  have hT := strlen_terminated line
  refine ⟨?_, ?_, ?_⟩
  · intro fuel s hs
    obtain ⟨h1, h2, h3, h4⟩ := parse_res F line (strlen line) hT fuel s hs
    exact ⟨fun h => ok_or_panic (h1 h), fun h => ok_or_panic (h2 h),
      fun h => ok_or_panic (h3 h), fun h => ok_or_panic (h4 h),
      fun h c => ok_or_panic (parseredirs_res F line (strlen line) hT fuel c s hs h)⟩
  · intro fuel hf
    have h := (parse_res F line (strlen line) hT (4 * strlen line + 4) 0 (Nat.zero_le _)).1
      (by omega)
    have hne : parseline F line (strlen line) (4 * strlen line + 4) 0 ≠ .error .fuel := by
      intro he
      rw [he] at h
      obtain ⟨msg, hm⟩ := h
      cases hm
    have := parseline_fuel F line (strlen line) 0 (4 * strlen line + 4) hne
      (fuel - (4 * strlen line + 4))
    rwa [Nat.add_sub_cancel' hf] at this
  · rcases parsecmd_res F line with h | ⟨h, _⟩
    · exact Or.inr h
    · exact Or.inl h

theorem parsecmd_terminates_witness :
    (∃ t s1, parseline xv6Fcntl "(a | b) > f &".toList (strlen "(a | b) > f &".toList) 100 0 =
        .ok (t, s1) ∧ 0 ≤ s1 ∧ s1 ≤ strlen "(a | b) > f &".toList) ∨
      ∃ msg, parseline xv6Fcntl "(a | b) > f &".toList (strlen "(a | b) > f &".toList) 100 0 =
        .error (.panic msg) :=
  ((parsecmd_terminates xv6Fcntl "(a | b) > f &".toList).1 100 0 (by decide)).1 (by decide)

/-- C11: `parsecmd` ends in `panic` and returns no tree (i) for every line
with a `<` or `>` that no word follows, unless it is the first half of a `>>`
that a word follows; (ii) for every line with a `(` that has no matching `)`,
and more generally for every line whose parentheses are not balanced; (iii)
whenever `parseline` has returned and a token remains, as in `a )` and
`a & b`.  The lines `a >`, `a >> | b` and `(a` show the three messages. -/
theorem parse_error_cases (F : Fcntl) (line : List Char) :
    (∀ i, i < strlen line → (deref line i = '<' ∨ deref line i = '>') →
      ¬ WordFollows line (strlen line) i →
      ¬ (deref line i = '>' ∧ deref line (i + 1) = '>' ∧ WordFollows line (strlen line) (i + 1)) →
      ∃ msg, parsecmd F line = .error (.panic msg)) ∧
    (∀ i, i < strlen line → deref line i = '(' → ¬ Matched line (strlen line) i →
      ∃ msg, parsecmd F line = .error (.panic msg)) ∧
    (¬ Bal line 0 (strlen line) → ∃ msg, parsecmd F line = .error (.panic msg)) ∧
    (∀ c s1, parseline F line (strlen line) (4 * strlen line + 4) 0 = .ok (c, s1) →
      (gettoken line (strlen line) s1).ret ≠ NUL →
      parsecmd F line = .error (.panic "syntax")) ∧
    parsecmd xv6Fcntl "a )".toList = .error (.panic "syntax") ∧
    parsecmd xv6Fcntl "a & b".toList = .error (.panic "syntax") ∧
    parsecmd xv6Fcntl "a >".toList = .error (.panic "missing file for redirection") ∧
    parsecmd xv6Fcntl "a >> | b".toList = .error (.panic "missing file for redirection") ∧
    parsecmd xv6Fcntl "(a".toList = .error (.panic "syntax - missing )") := by
  have hT := strlen_terminated line
  refine ⟨?_, ?_, ?_, ?_, by decide!, by decide!, by decide!, by decide!, by decide!⟩
  · intro i hi hc hw hd
    rcases parsecmd_res F line with h | ⟨_, hseg⟩
    · exact h
    · rcases hseg.2.2.2 i (Nat.zero_le _) hi hc with h | h
      · exact absurd h hd
      · exact absurd h hw
  · intro i hi hc hm
    rcases parsecmd_res F line with h | ⟨_, hseg⟩
    · exact h
    · obtain ⟨j, j1, j2, j3, j4⟩ := hseg.2.2.1.matched i (Nat.zero_le _) hi hc
      exact absurd ⟨j, j1, j2, j3, j4⟩ hm
  · intro hb
    rcases parsecmd_res F line with h | ⟨_, hseg⟩
    · exact h
    · exact absurd hseg.2.2.1 hb
  · intro c s1 hp ht
    have hne : (peek line (strlen line) s1 []).1 ≠ strlen line := by
      intro he
      apply ht
      have he1 : skipws line (strlen line) s1 = strlen line := he
      simp [gettoken, he1, hT.1]
    unfold parsecmd
    simp only [hp, hne, ne_eq, not_false_eq_true, if_true]

theorem parse_error_cases_witness :
    ∃ msg, parsecmd xv6Fcntl "a > | b".toList = .error (.panic msg) :=
  (parse_error_cases xv6Fcntl "a > | b".toList).1 2 (by decide) (by decide) (by decide)
    (by decide)

end Sh
